import Mathlib

/-!
# gmoney: currency-aware decimal money

A shallow embedding of `money.go`, `calculator.go`, `utils.go`, the integer
part of `formatter.go` and the parts of the decimal engine they call, followed
by theorems about comparison, addition, subtraction, `Split`, `Multiply`,
`Round`, `Divide`, `Amount`, `AsMajorUnits`, the aggregates `Sum`, `Average`,
`Min`, `Max`, `Sort` and `Median`, `ConvertToDecimal`, `Format` and
`calculator.allocate`.

Conventions of the embedding

* A Go function that can panic or loop forever returns an `Outcome`.
* A Go result pair `(T, error)` is a Lean pair whose second component is
  `Option Error` (`none` is the `nil` error); a `nil` pointer or slice result
  is `none` in the first component.
* Loops whose termination is not evident take a `fuel : Nat` bounding the
  number of iterations; running out of fuel is `Outcome.diverge`.  Loops over
  a fixed index range carry the number of turns left.
* A slice of `*Money` is a list of `Money` values; a Go string handled
  character by character is a `List Char`.
* A `float64` is a `Float64`: the exact rational value of a finite number, or
  an infinity.  The conversion `toFloat64` to the nearest `float64`, ties to
  even, stands for `big.Rat.Float64` and for the Go conversion `float64(v)`.
  The text Go prints for a `float64` is not modelled: where `Format` needs it,
  it is a parameter.
* `big.Int` is `Int`.  The decimal exponent (`int32` in Go) is an unbounded
  `Int`: exponent overflow is outside the scope of this development.
-/

namespace Gmoney

/-! ## Outcomes of running a function body -/

/-- How a call ends: a normal return, a run-time panic (nil dereference,
index out of range, explicit `panic`), or no return within the fuel. -/
inductive Outcome (α : Type) where
  | ret (a : α)
  | panic
  | diverge
deriving DecidableEq, Repr

namespace Outcome

/-- Sequencing: a panic or divergence of the first computation ends the whole. -/
def bind {α β : Type} (x : Outcome α) (f : α → Outcome β) : Outcome β :=
  match x with
  | ret a => f a
  | panic => panic
  | diverge => diverge

end Outcome

/-- The error values of `money.go`: the two package-level sentinels and
values made on the spot with `errors.New`. -/
inductive Error where
  | ErrCurrencyMismatch
  | ErrInvalidJSONUnmarshal
  | errorsNew (msg : String)
deriving DecidableEq, Repr

/-! ## The decimal engine (`github.com/shopspring/decimal`)

The engine is a dependency of the module, taken from outside the repository.  `Decimal` stands for
`value * 10 ^ exp`; the functions below follow the engine's code on that
representation. -/

/-- A decimal number `value * 10 ^ exp`. -/
structure Decimal where
  value : Int
  exp : Int
deriving DecidableEq, Repr

namespace Decimal

/-- The rational number a decimal stands for. -/
def toRat (d : Decimal) : ℚ := (d.value : ℚ) * (10 : ℚ) ^ d.exp

/-- Engine constant `DivisionPrecision`: digits kept by `Div`. -/
def DivisionPrecision : Int := 16

/-- Engine `New(value, exp)`. -/
def New (value : Int) (exp : Int) : Decimal := { value := value, exp := exp }

/-- Engine `NewFromInt(value)`. -/
def NewFromInt (value : Int) : Decimal := { value := value, exp := 0 }

/-- Engine `rescale`: move to exponent `exp`; moving to a larger exponent
drops digits with `big.Int.Quo` (truncation toward zero). -/
def rescale (d : Decimal) (exp : Int) : Decimal :=
  if d.exp = exp then d
  else if exp > d.exp then
    { value := d.value.tdiv (10 ^ (exp - d.exp).natAbs), exp := exp }
  else
    { value := d.value * 10 ^ (exp - d.exp).natAbs, exp := exp }

/-- Engine `RescalePair`: bring both operands to the smaller exponent. -/
def RescalePair (d1 d2 : Decimal) : Decimal × Decimal :=
  if d1.exp < d2.exp then (d1, d2.rescale d1.exp)
  else if d1.exp > d2.exp then (d1.rescale d2.exp, d2)
  else (d1, d2)

/-- Engine `Add`. -/
def Add (d d2 : Decimal) : Decimal :=
  { value := (RescalePair d d2).1.value + (RescalePair d d2).2.value,
    exp := (RescalePair d d2).1.exp }

/-- Engine `Sub`. -/
def Sub (d d2 : Decimal) : Decimal :=
  { value := (RescalePair d d2).1.value - (RescalePair d d2).2.value,
    exp := (RescalePair d d2).1.exp }

/-- Engine `Neg`. -/
def Neg (d : Decimal) : Decimal := { value := -d.value, exp := d.exp }

/-- Engine `Abs`. -/
def Abs (d : Decimal) : Decimal := { value := |d.value|, exp := d.exp }

/-- Engine `Mul`. -/
def Mul (d d2 : Decimal) : Decimal :=
  { value := d.value * d2.value, exp := d.exp + d2.exp }

/-- Engine `IsZero`. -/
def IsZero (d : Decimal) : Bool := decide (d.value = 0)

/-- Engine `IsNegative`. -/
def IsNegative (d : Decimal) : Bool := decide (d.value < 0)

/-- The three-way comparison `big.Int.Cmp`. -/
def cmpInt (x y : Int) : Int := if x < y then -1 else if x = y then 0 else 1

/-- Engine `Cmp`. -/
def Cmp (d d2 : Decimal) : Int :=
  if d.exp = d2.exp then cmpInt d.value d2.value
  else cmpInt (RescalePair d d2).1.value (RescalePair d d2).2.value

/-- Engine `Compare`, an alias of `Cmp`. -/
def Compare (d d2 : Decimal) : Int := d.Cmp d2

/-- Engine `QuoRem`: quotient with `precision` fractional digits, truncated
toward zero, and the matching remainder, so that `d = d2 * q + r`.
Panics on a zero divisor. -/
def QuoRem (d d2 : Decimal) (precision : Int) : Outcome (Decimal × Decimal) :=
  if d2.value = 0 then Outcome.panic
  else
    let scale := -precision
    let e := d.exp - d2.exp - scale
    if e < 0 then
      let aa := d.value
      let bb := d2.value * 10 ^ (-e).natAbs
      Outcome.ret ({ value := aa.tdiv bb, exp := scale }, { value := aa.tmod bb, exp := d.exp })
    else
      let aa := d.value * 10 ^ e.natAbs
      let bb := d2.value
      Outcome.ret ({ value := aa.tdiv bb, exp := scale },
        { value := aa.tmod bb, exp := scale + d2.exp })

/-- Engine `DivRound`: quotient rounded half away from zero to `precision`
fractional digits. -/
def DivRound (d d2 : Decimal) (precision : Int) : Outcome Decimal :=
  (QuoRem d d2 precision).bind fun qr =>
    let r2 : Decimal := { value := 2 * |qr.2.value|, exp := qr.2.exp + precision }
    if r2.Cmp d2.Abs < 0 then Outcome.ret qr.1
    else if d.value.sign * d2.value.sign < 0 then Outcome.ret (qr.1.Sub (New 1 (-precision)))
    else Outcome.ret (qr.1.Add (New 1 (-precision)))

/-- Engine `Div`: `DivRound` at `DivisionPrecision` digits. -/
def Div (d d2 : Decimal) : Outcome Decimal := d.DivRound d2 DivisionPrecision

/-- Engine `Truncate`: drop digits beyond `precision` without rounding. -/
def Truncate (d : Decimal) (precision : Int) : Decimal :=
  if precision ≥ 0 ∧ -precision > d.exp then d.rescale (-precision) else d

/-- Engine `Pow` at a non-negative whole exponent `k`: the `k`-fold product. -/
def Pow (d : Decimal) : Nat → Decimal
  | 0 => New 1 0
  | k + 1 => (Pow d k).Mul d

end Decimal

/-! ## Currency and Money -/

/-- Modelled from the spec: the currency descriptor (declared in a file that is
not among the sources) with its code and its number of fraction digits, a
non-negative integer. -/
structure Currency where
  Code : String
  Fraction : Nat
deriving DecidableEq, Repr

/-- Modelled from the spec: `(*Currency).equals` compares the codes by value.
A `nil` currency on either side is dereferenced, which panics. -/
def Currency.equals (c oc : Option Currency) : Outcome Bool :=
  match c, oc with
  | some c, some oc => Outcome.ret (decide (c.Code = oc.Code))
  | _, _ => Outcome.panic

/-- The type `Amount` of `money.go`: the decimal type. -/
abbrev Amount := Decimal

/-- The struct `Money`: a currency pointer (`none` is `nil`) and an amount. -/
structure Money where
  currency : Option Currency
  amount : Amount
deriving DecidableEq, Repr

/-- The package variable `one = decimal.NewFromInt(1)`. -/
def one : Decimal := Decimal.NewFromInt 1

/-- The constructor `New(amount, code)` after the amount has been converted to a decimal.
`get` stands for the currency registry lookup `newCurrency(code).get()`. -/
def New (get : String → Currency) (amount : Decimal) (code : String) : Money :=
  { amount := amount, currency := some (get code) }

/-! ## calculator.go -/

namespace calculator

/-- Method `calculator.add`. -/
def add (a b : Amount) : Amount := a.Add b

/-- Method `calculator.subtract`. -/
def subtract (a b : Amount) : Amount := a.Sub b

/-- Method `calculator.divide`: `a.Div(d).Truncate(precision)`. -/
def divide (a d : Amount) (precision : Int) : Outcome Amount :=
  (a.Div d).bind fun q => Outcome.ret (q.Truncate precision)

/-- Method `calculator.modulus`: the remainder of `a.QuoRem(b, precision)`. -/
def modulus (a b : Amount) (precision : Int) : Outcome Amount :=
  (a.QuoRem b precision).bind fun qr => Outcome.ret qr.2

end calculator

namespace Money

/-- Method `SameCurrency`. -/
def SameCurrency (m om : Money) : Outcome Bool := Currency.equals m.currency om.currency

/-- Method `assertSameCurrency`. -/
def assertSameCurrency (m om : Money) : Outcome (Option Error) :=
  (m.SameCurrency om).bind fun same =>
    if !same then Outcome.ret (some Error.ErrCurrencyMismatch) else Outcome.ret none

/-- Method `compare`. -/
def compare (m om : Money) : Int := m.amount.Compare om.amount

/-- Method `Equals`. -/
def Equals (m om : Money) : Outcome (Bool × Option Error) :=
  (m.assertSameCurrency om).bind fun err =>
    match err with
    | some e => Outcome.ret (false, some e)
    | none => Outcome.ret (decide (m.compare om = 0), none)

/-- Method `GreaterThan`. -/
def GreaterThan (m om : Money) : Outcome (Bool × Option Error) :=
  (m.assertSameCurrency om).bind fun err =>
    match err with
    | some e => Outcome.ret (false, some e)
    | none => Outcome.ret (decide (m.compare om = 1), none)

/-- Method `GreaterThanOrEqual`. -/
def GreaterThanOrEqual (m om : Money) : Outcome (Bool × Option Error) :=
  (m.assertSameCurrency om).bind fun err =>
    match err with
    | some e => Outcome.ret (false, some e)
    | none => Outcome.ret (decide (m.compare om ≥ 0), none)

/-- Method `LessThan`. -/
def LessThan (m om : Money) : Outcome (Bool × Option Error) :=
  (m.assertSameCurrency om).bind fun err =>
    match err with
    | some e => Outcome.ret (false, some e)
    | none => Outcome.ret (decide (m.compare om = -1), none)

/-- Method `LessThanOrEqual`. -/
def LessThanOrEqual (m om : Money) : Outcome (Bool × Option Error) :=
  (m.assertSameCurrency om).bind fun err =>
    match err with
    | some e => Outcome.ret (false, some e)
    | none => Outcome.ret (decide (m.compare om ≤ 0), none)

/-- Method `Compare`: the raw comparison is returned on both paths. -/
def Compare (m om : Money) : Outcome (Int × Option Error) :=
  (m.assertSameCurrency om).bind fun err =>
    match err with
    | some e => Outcome.ret (m.compare om, some e)
    | none => Outcome.ret (m.compare om, none)

/-- Method `IsZero`. -/
def IsZero (m : Money) : Bool := m.amount.IsZero

/-- The test `m.currency != nil && m.currency.Code != ""` of `Add` and
`Subtract`. -/
def hasCode (m : Money) : Bool :=
  match m.currency with
  | some c => decide (c.Code ≠ "")
  | none => false

/-- The accumulator `k` that `Add` and `Subtract` start from: `New(0, code)`
for the receiver's code or, when the receiver has none, for the code of the
first operand that has one (`lo.Find`); `none` when no code is found. -/
def startK (get : String → Currency) (m : Money) (ms : List Money) : Option Money :=
  match m.currency with
  | some c =>
    if c.Code ≠ "" then some (New get (Decimal.NewFromInt 0) c.Code)
    else
      match ms.find? hasCode with
      | some fnzv =>
        match fnzv.currency with
        | some fc => some (New get (Decimal.NewFromInt 0) fc.Code)
        | none => none
      | none => none
  | none =>
    match ms.find? hasCode with
    | some fnzv =>
      match fnzv.currency with
      | some fc => some (New get (Decimal.NewFromInt 0) fc.Code)
      | none => none
    | none => none

/-- The operand loop shared by `Add` and `Subtract`: zero operands are
skipped, any other operand must pass `assertSameCurrency` against the
receiver and is added to `k.amount`. -/
def sumOperands (m : Money) : List Money → Amount → Outcome (Amount × Option Error)
  | [], k => Outcome.ret (k, none)
  | m2 :: rest, k =>
    if m2.IsZero then sumOperands m rest k
    else
      (m.assertSameCurrency m2).bind fun err =>
        match err with
        | some e => Outcome.ret (k, some e)
        | none => sumOperands m rest (calculator.add k m2.amount)

/-- Method `Add` (money.go, lines 209-241). -/
def Add (get : String → Currency) (m : Money) (ms : List Money) :
    Outcome (Option Money × Option Error) :=
  if ms.length = 0 then Outcome.ret (some m, none)
  else
    match startK get m ms with
    | none => Outcome.ret (none, some (Error.errorsNew "no currency found"))
    | some k =>
      (sumOperands m ms k.amount).bind fun res =>
        match res.2 with
        | some e => Outcome.ret (none, some e)
        | none =>
          Outcome.ret
            (some { amount := calculator.add m.amount res.1, currency := m.currency }, none)

/-- Method `Subtract` (money.go, lines 244-277). -/
def Subtract (get : String → Currency) (m : Money) (ms : List Money) :
    Outcome (Option Money × Option Error) :=
  if ms.length = 0 then Outcome.ret (some m, none)
  else
    match startK get m ms with
    | none => Outcome.ret (none, some (Error.errorsNew "no currency found"))
    | some k =>
      (sumOperands m ms k.amount).bind fun res =>
        match res.2 with
        | some e => Outcome.ret (none, some e)
        | none =>
          Outcome.ret
            (some { amount := calculator.subtract m.amount res.1, currency := m.currency }, none)

/-- The leftover loop of `Split`,
`for p := 0; !r.IsZero(); p++ { ms[p] += v; r -= v; if p == n-1 { p = 0 } }`.
An index outside the slice panics. -/
def splitLoop (n : Int) (v : Decimal) : Nat → List Money → Decimal → Nat → Outcome (List Money)
  | fuel, ms, r, p =>
    if r.IsZero then Outcome.ret ms
    else
      match fuel with
      | 0 => Outcome.diverge
      | fuel + 1 =>
        match ms[p]? with
        | none => Outcome.panic
        | some mp =>
          let ms1 := ms.set p { mp with amount := calculator.add mp.amount v }
          let r1 := r.Sub v
          let p1 := if (p : Int) = n - 1 then 0 else p
          splitLoop n v fuel ms1 r1 (p1 + 1)

/-- Method `Split` (money.go, lines 311-340): the count check, the base share
`calculator.divide`, the remainder `calculator.modulus`, the signed unit
`one.Div(10^Fraction)` and the leftover loop. -/
def Split (fuel : Nat) (m : Money) (n : Int) : Outcome (Option (List Money) × Option Error) :=
  if n ≤ 0 then Outcome.ret (none, some (Error.errorsNew "split must be higher than zero"))
  else
    match m.currency with
    | none => Outcome.panic
    | some c =>
      (calculator.divide m.amount (Decimal.NewFromInt n) c.Fraction).bind fun a =>
        let ms := List.replicate n.toNat ({ amount := a, currency := m.currency } : Money)
        (calculator.modulus m.amount (Decimal.NewFromInt n) c.Fraction).bind fun r =>
          (one.Div ((Decimal.NewFromInt 10).Pow c.Fraction)).bind fun v0 =>
            let v := if m.amount.IsNegative then v0.Neg else v0
            (splitLoop n v fuel ms r 0).bind fun parts => Outcome.ret (some parts, none)

end Money

/-! ## Sample values -/

/-- A registry lookup in which every code has two fraction digits, the
default of unregistered codes. -/
def sampleGet (code : String) : Currency := { Code := code, Fraction := 2 }

/-- The euro descriptor. -/
def EUR : Currency := { Code := "EUR", Fraction := 2 }

/-- The pound descriptor. -/
def GBP : Currency := { Code := "GBP", Fraction := 2 }

/-- The dollar descriptor. -/
def USD : Currency := { Code := "USD", Fraction := 2 }

/-- A currency registered with sixteen fraction digits. -/
def FINE : Currency := { Code := "FINE", Fraction := 16 }

/-- Money of a currency, from the integer value and exponent of its amount. -/
def mk (c : Currency) (value exp : Int) : Money :=
  { currency := some c, amount := { value := value, exp := exp } }

/-! ## Auxiliary definitions used in the statements and proofs -/

namespace Decimal

/-- The sign of a three-way comparison of two rationals: -1, 0 or 1. -/
def cmpRat (x y : ℚ) : Int := if x < y then -1 else if x = y then 0 else 1

/-- The integer dividend of `QuoRem` when the divisor is a whole number. -/
def quoNum (d : Decimal) (P : Int) : Int :=
  if d.exp + P < 0 then d.value else d.value * 10 ^ (d.exp + P).natAbs

/-- The integer divisor of `QuoRem` when the divisor is the whole number `n`. -/
def quoDen (d : Decimal) (n : Int) (P : Int) : Int :=
  if d.exp + P < 0 then n * 10 ^ (-(d.exp + P)).natAbs else n

/-- The exponent `QuoRem` gives the remainder when dividing by a whole number. -/
def remExp (d : Decimal) (P : Int) : Int := if d.exp + P < 0 then d.exp else -P

end Decimal

/-- The integer quotient `x / y` rounded half away from zero, for `y > 0`: the
value `DivRound` computes. -/
def roundQuot (x y : Int) : Int :=
  if 2 * |x.tmod y| < y then x.tdiv y else if x < 0 then x.tdiv y - 1 else x.tdiv y + 1

/-- The base share `Split` computes for an amount of `A` minor units of a
currency with `f ≤ 16` fraction digits: the quotient rounded at 16 digits by
`Div`, then cut to `f` digits by `Truncate`. -/
def baseShare (A n : Int) (f : Nat) : Decimal :=
  { value := (roundQuot (A * 10 ^ (16 - f)) n).tdiv (10 ^ (16 - f)), exp := -(f : Int) }

/-- The minor unit `Split` hands out, with the sign of the amount. -/
def unitShare (A : Int) (f : Nat) : Decimal :=
  if A < 0 then { value := -(10 ^ (16 - f)), exp := -16 } else { value := 10 ^ (16 - f), exp := -16 }

/-- The number of leftover minor units after an equal split of `A` units. -/
def leftover (A n : Int) : Nat := (A.tmod n).natAbs

/-! ## Numeric arguments, Multiply, Round, Divide -/

/-- The two's-complement reading of an integer in 64 bits: what the Go
conversion `int64(v)` and `big.Int.Int64` keep of a value. -/
def toInt64 (x : Int) : Int := (x + 2 ^ 63) % 2 ^ 64 - 2 ^ 63

/-- The argument of `ConvertToDecimal`, for the integer kinds and the decimal
kind of its type switch (`uint` taken as 64 bits wide).  The float and string
kinds are left out of the embedding. -/
inductive Numeric where
  | int (v : Int)
  | int8 (v : Int)
  | int16 (v : Int)
  | int32 (v : Int)
  | int64 (v : Int)
  | uint (v : Nat)
  | uint8 (v : Nat)
  | uint16 (v : Nat)
  | uint32 (v : Nat)
  | uint64 (v : Nat)
  | decimal (d : Decimal)
deriving DecidableEq, Repr

namespace Numeric

/-- The value lies in the range of its Go type. -/
def InRange : Numeric → Prop
  | int v => -2 ^ 63 ≤ v ∧ v < 2 ^ 63
  | int8 v => -2 ^ 7 ≤ v ∧ v < 2 ^ 7
  | int16 v => -2 ^ 15 ≤ v ∧ v < 2 ^ 15
  | int32 v => -2 ^ 31 ≤ v ∧ v < 2 ^ 31
  | int64 v => -2 ^ 63 ≤ v ∧ v < 2 ^ 63
  | uint v => v < 2 ^ 64
  | uint8 v => v < 2 ^ 8
  | uint16 v => v < 2 ^ 16
  | uint32 v => v < 2 ^ 32
  | uint64 v => v < 2 ^ 64
  | decimal _ => True

/-- The number the argument stands for. -/
def toRat : Numeric → ℚ
  | int v => v
  | int8 v => v
  | int16 v => v
  | int32 v => v
  | int64 v => v
  | uint v => v
  | uint8 v => v
  | uint16 v => v
  | uint32 v => v
  | uint64 v => v
  | decimal d => d.toRat

end Numeric

/-- Function `ConvertToDecimal` (money.go, lines 442-482): every integer kind
goes through `decimal.NewFromInt(int64(v))`, a decimal is returned as it is. -/
def ConvertToDecimal : Numeric → Decimal
  | Numeric.int v => Decimal.NewFromInt (toInt64 v)
  | Numeric.int8 v => Decimal.NewFromInt (toInt64 v)
  | Numeric.int16 v => Decimal.NewFromInt (toInt64 v)
  | Numeric.int32 v => Decimal.NewFromInt (toInt64 v)
  | Numeric.int64 v => Decimal.NewFromInt v
  | Numeric.uint v => Decimal.NewFromInt (toInt64 v)
  | Numeric.uint8 v => Decimal.NewFromInt (toInt64 v)
  | Numeric.uint16 v => Decimal.NewFromInt (toInt64 v)
  | Numeric.uint32 v => Decimal.NewFromInt (toInt64 v)
  | Numeric.uint64 v => Decimal.NewFromInt (toInt64 v)
  | Numeric.decimal d => d

/-- Engine `Round`: round half away from zero to `places` fractional digits.
The value is first cut to `places + 1` digits by `rescale`, then half a unit
of the sign is added and the last digit dropped with the Euclidean
`big.Int.DivMod`, negative quotients with a non-zero rest being raised by one. -/
def Decimal.Round (d : Decimal) (places : Int) : Decimal :=
  if d.exp = -places then d
  else
    let ret := d.rescale (-places - 1)
    let v := if ret.value < 0 then ret.value - 5 else ret.value + 5
    let q := v / 10
    let m := v % 10
    { value := if q < 0 ∧ m ≠ 0 then q + 1 else q, exp := ret.exp + 1 }

/-- Engine `IntPart`: the integer part as an `int64`. -/
def Decimal.IntPart (d : Decimal) : Int := toInt64 (d.rescale 0).value

/-- Method `calculator.multiply`. -/
def calculator.multiply (a m : Amount) : Amount := a.Mul m

/-- Method `calculator.round`. -/
def calculator.round (a : Amount) (e : Int) : Amount := a.Round e

namespace Money

/-- The package variable `Zero = New(0, "")`. -/
def Zero (get : String → Currency) : Money := New get (ConvertToDecimal (Numeric.int 0)) ""

/-- Method `Multiply` (money.go, lines 280-293): panics on an empty list; the
accumulator `k = New(1, m.currency.Code)` dereferences the currency. -/
def Multiply (get : String → Currency) (m : Money) (muls : List Numeric) : Outcome Money :=
  if muls.length = 0 then Outcome.panic
  else
    match m.currency with
    | none => Outcome.panic
    | some c =>
      Outcome.ret
        { amount := calculator.multiply m.amount
            (muls.foldl (fun k m2 => calculator.multiply k (ConvertToDecimal m2))
              (New get (ConvertToDecimal (Numeric.int 1)) c.Code).amount),
          currency := m.currency }

/-- Method `Round` (money.go, lines 296-298). -/
def Round (m : Money) : Money :=
  { amount := calculator.round m.amount 0, currency := m.currency }

/-- Method `Divide` (money.go, lines 299-301). -/
def Divide (m : Money) (amount : Numeric) : Outcome Money :=
  match m.currency with
  | none => Outcome.panic
  | some c =>
    (calculator.divide m.amount (ConvertToDecimal amount) c.Fraction).bind fun q =>
      Outcome.ret { amount := q, currency := m.currency }

end Money

/-- A currency registered with no fraction digits. -/
def JPY : Currency := { Code := "JPY", Fraction := 0 }

/-- A registry lookup knowing the yen, every other code having two fraction
digits. -/
def yenGet (code : String) : Currency :=
  if code = "JPY" then JPY else { Code := code, Fraction := 2 }

/-- The argument is converted without loss: an integer that fits `int64`, or a
decimal. -/
def Numeric.FitsInt64 : Numeric → Prop
  | Numeric.int v => -2 ^ 63 ≤ v ∧ v < 2 ^ 63
  | Numeric.int8 v => -2 ^ 63 ≤ v ∧ v < 2 ^ 63
  | Numeric.int16 v => -2 ^ 63 ≤ v ∧ v < 2 ^ 63
  | Numeric.int32 v => -2 ^ 63 ≤ v ∧ v < 2 ^ 63
  | Numeric.int64 _ => True
  | Numeric.uint v => v < 2 ^ 63
  | Numeric.uint8 v => v < 2 ^ 63
  | Numeric.uint16 v => v < 2 ^ 63
  | Numeric.uint32 v => v < 2 ^ 63
  | Numeric.uint64 v => v < 2 ^ 63
  | Numeric.decimal _ => True

/-- Truncation toward zero, in the spec's words: `r` is `x` with the digits
beyond `f` fractional digits dropped, that is a multiple of `10 ^ (-f)` no
larger in magnitude than `x`, of the sign of `x`, less than `10 ^ (-f)` away. -/
def IsTruncation (x r : ℚ) (f : Nat) : Prop :=
  (∃ k : Int, r = (k : ℚ) * (10 : ℚ) ^ (-(f : Int))) ∧ |r| ≤ |x| ∧
    |x - r| < (10 : ℚ) ^ (-(f : Int)) ∧ 0 ≤ x * r

/-- Rounding to the nearest whole number with halves away from zero, in the
spec's words: `z` is at most one half away from `x`, and when it is exactly one
half away it is the one of larger magnitude. -/
def IsNearestWhole (x : ℚ) (z : Int) : Prop :=
  |x - (z : ℚ)| ≤ 1 / 2 ∧ (|x - (z : ℚ)| = 1 / 2 → |x| < |(z : ℚ)|)

/-- The integer step of `Round` on the value `t` cut to one digit more than
wanted: add 5 with the sign of `t`, divide by 10 with `DivMod`, and raise a
negative quotient that has a rest. -/
def roundDigit (t : Int) : Int :=
  if (if t < 0 then t - 5 else t + 5) / 10 < 0 ∧ (if t < 0 then t - 5 else t + 5) % 10 ≠ 0
  then (if t < 0 then t - 5 else t + 5) / 10 + 1
  else (if t < 0 then t - 5 else t + 5) / 10

/-! ## utils.go

A slice of `*Money` is a list of `Money` values, a nil `*Money` result is
`none`.  The two loops of `Sort` run over fixed index ranges and carry the
number of turns left. -/

/-- The loop of `Sum` (utils.go, lines 6-16) from the running `sum`: the first
element is taken as it is, every later one goes through `sum.Add(money)`, and
the first error ends the loop with what `Add` returned. -/
def sumLoop (get : String → Currency) :
    List Money → Option Money → Outcome (Option Money × Option Error)
  | [], sum => Outcome.ret (sum, none)
  | money :: rest, none => sumLoop get rest (some money)
  | money :: rest, some s =>
    (s.Add get [money]).bind fun r =>
      match r.2 with
      | some e => Outcome.ret (r.1, some e)
      | none => sumLoop get rest r.1

/-- Function `Sum` (utils.go, lines 5-17). -/
def Sum (get : String → Currency) (moneys : List Money) :
    Outcome (Option Money × Option Error) :=
  sumLoop get moneys none

/-- Function `Average` (utils.go, lines 20-27): the `Sum` divided by
`decimal.NewFromInt(int64(len(moneys)))` with `Divide`; the nil sum of an empty
list is dereferenced. -/
def Average (get : String → Currency) (moneys : List Money) :
    Outcome (Option Money × Option Error) :=
  (Sum get moneys).bind fun r =>
    match r.2 with
    | some e => Outcome.ret (none, some e)
    | none =>
      match r.1 with
      | none => Outcome.panic
      | some sum =>
        (sum.Divide (Numeric.decimal (Decimal.NewFromInt (moneys.length : Int)))).bind
          fun average => Outcome.ret (some average, none)

/-- The loop of `Min` (utils.go, lines 31-45) from the running `min`. -/
def minLoop : List Money → Option Money → Outcome (Option Money × Option Error)
  | [], min => Outcome.ret (min, none)
  | money :: rest, none => minLoop rest (some money)
  | money :: rest, some mn =>
    (money.LessThan mn).bind fun r =>
      match r.2 with
      | some e => Outcome.ret (none, some e)
      | none => minLoop rest (if r.1 then some money else some mn)

/-- Function `Min` (utils.go, lines 30-46). -/
def Min (moneys : List Money) : Outcome (Option Money × Option Error) :=
  minLoop moneys none

/-- The loop of `Max` (utils.go, lines 50-64) from the running `max`. -/
def maxLoop : List Money → Option Money → Outcome (Option Money × Option Error)
  | [], max => Outcome.ret (max, none)
  | money :: rest, none => maxLoop rest (some money)
  | money :: rest, some mx =>
    (money.GreaterThan mx).bind fun r =>
      match r.2 with
      | some e => Outcome.ret (none, some e)
      | none => maxLoop rest (if r.1 then some money else some mx)

/-- Function `Max` (utils.go, lines 49-65). -/
def Max (moneys : List Money) : Outcome (Option Money × Option Error) :=
  maxLoop moneys none

/-- The inner loop of `Sort`, `for j := i + 1; j < len(sorted); j++`, with `k`
turns left from index `j`: `sorted[j].LessThan(sorted[i])` ends the loop on an
error and swaps the two entries when it holds. -/
def sortInner (i : Nat) : Nat → Nat → List Money → Outcome (List Money × Option Error)
  | 0, _, sorted => Outcome.ret (sorted, none)
  | k + 1, j, sorted =>
    match sorted[j]?, sorted[i]? with
    | some sj, some si =>
      (sj.LessThan si).bind fun r =>
        match r.2 with
        | some e => Outcome.ret (sorted, some e)
        | none => sortInner i k (j + 1) (if r.1 then (sorted.set i sj).set j si else sorted)
    | _, _ => Outcome.panic

/-- The outer loop of `Sort`, `for i := 0; i < len(sorted); i++`, with `k`
turns left from index `i`. -/
def sortOuter : Nat → Nat → List Money → Outcome (List Money × Option Error)
  | 0, _, sorted => Outcome.ret (sorted, none)
  | k + 1, i, sorted =>
    (sortInner i (sorted.length - (i + 1)) (i + 1) sorted).bind fun r =>
      match r.2 with
      | some e => Outcome.ret (r.1, some e)
      | none => sortOuter k (i + 1) r.1

/-- Function `Sort` (utils.go, lines 68-85; the bare name is reserved in
Lean): the input is copied, sorted in place by exchanges, and dropped for
`nil` on an error. -/
def SortMoneys (moneys : List Money) : Outcome (Option (List Money) × Option Error) :=
  (sortOuter moneys.length 0 moneys).bind fun r =>
    match r.2 with
    | some e => Outcome.ret (none, some e)
    | none => Outcome.ret (some r.1, none)

/-- Function `Median` (utils.go, lines 88-103): on an even count the `Sum` of
the entries `len/2 - 1` and `len/2` of the sorted slice, divided by
`decimal.NewFromInt(2)` with `Divide`; on an odd count the entry `len/2`.  An
index outside the slice (the empty list) panics. -/
def Median (get : String → Currency) (moneys : List Money) :
    Outcome (Option Money × Option Error) :=
  (SortMoneys moneys).bind fun r =>
    match r.2 with
    | some e => Outcome.ret (none, some e)
    | none =>
      match r.1 with
      | none => Outcome.panic
      | some sorted =>
        if sorted.length % 2 = 0 then
          if sorted.length / 2 = 0 then Outcome.panic
          else
            match sorted[sorted.length / 2 - 1]?, sorted[sorted.length / 2]? with
            | some a, some b =>
              (Sum get [a, b]).bind fun s =>
                match s.2 with
                | some e => Outcome.ret (s.1, some e)
                | none =>
                  match s.1 with
                  | none => Outcome.panic
                  | some mean =>
                    (mean.Divide (Numeric.decimal (Decimal.NewFromInt 2))).bind
                      fun d => Outcome.ret (some d, none)
            | _, _ => Outcome.panic
        else
          match sorted[sorted.length / 2]? with
          | some x => Outcome.ret (some x, none)
          | none => Outcome.panic
/-! ## formatter.go

A Go string is the list of its characters; the integer part handled below is
made of ASCII digits, whose byte offsets are character offsets. -/

/-- Type `Formatter` (formatter.go, lines 11-17). -/
structure Formatter where
  Fraction : Int
  Decimal : String
  Thousand : String
  Grapheme : String
  Template : String
deriving DecidableEq, Repr

/-- Conversion `cast.ToString` of an `int64`: its decimal digits, after a minus
sign when it is negative. -/
def castToString (v : Int) : List Char :=
  if v < 0 then '-' :: Nat.toDigits 10 v.natAbs else Nat.toDigits 10 v.natAbs

/-- The call `strings.TrimPrefix(sa, "-")`. -/
def trimMinus : List Char → List Char
  | '-' :: sa => sa
  | sa => sa

/-- The loop `for i := len(sa) - 3; i > 0; i -= 3 { sa = sa[:i] + f.Thousand + sa[i:] }`
of `Format` from index `i`; the index falls by three each turn, so that
`len(sa)` turns always suffice. -/
def thousandLoop (thousand : List Char) : Nat → List Char → Int → List Char
  | 0, sa, _ => sa
  | turns + 1, sa, i =>
    if i > 0 then
      thousandLoop thousand turns (sa.take i.toNat ++ thousand ++ sa.drop i.toNat) (i - 3)
    else sa

/-- The integer part that `Format` renders (formatter.go, lines 31-40): the
digits of `amount.IntPart()` without the sign, with the thousands separator put
in when there is one. -/
def Formatter.integerPart (f : Formatter) (amount : Gmoney.Decimal) : List Char :=
  if f.Thousand ≠ "" then
    thousandLoop f.Thousand.toList (trimMinus (castToString amount.IntPart)).length
      (trimMinus (castToString amount.IntPart))
      ((trimMinus (castToString amount.IntPart)).length - 3)
  else trimMinus (castToString amount.IntPart)

/-- The formatter of the euro in the registry: two digits, comma between the
thousands. -/
def euroFormatter : Formatter :=
  { Fraction := 2, Decimal := ".", Thousand := ",", Grapheme := "€", Template := "$1" }

/-- Grouping by three from the right, in the spec's words, on the digits read
from the right: after every three digits that are followed by a further digit
comes the separator. -/
def groupRev (sep : List Char) : List Char → List Char
  | a :: b :: c :: tl =>
    match tl with
    | [] => [a, b, c]
    | _ :: _ => a :: b :: c :: (sep.reverse ++ groupRev sep tl)
  | ds => ds

/-- The digits with the separator between every group of three digits counted
from the right. -/
def groupThousands (sep digits : List Char) : List Char :=
  (groupRev sep digits.reverse).reverse

/-! ## calculator.allocate -/

/-- Method `calculator.allocate` (calculator.go, lines 28-34): zero when the
amount or the sum of the ratios is zero, else `a.Mul(r).DivRound(s, precision)`. -/
def calculator.allocate (a r s : Amount) (precision : Int) : Outcome Amount :=
  if a.IsZero || s.IsZero then Outcome.ret (Decimal.NewFromInt 0)
  else (a.Mul r).DivRound s precision

/-- Rounding to `p` fractional digits, in the spec's words: `q` is a multiple
of `10 ^ (-p)` within half of `10 ^ (-p)` of `x`. -/
def IsRoundedTo (x q : ℚ) (p : Int) : Prop :=
  (∃ k : Int, q = (k : ℚ) * (10 : ℚ) ^ (-p)) ∧ |q - x| ≤ (10 : ℚ) ^ (-p) / 2

/-! ## float64: Amount and AsMajorUnits as they are returned -/

/-- A `float64` value: a finite number, given by its exact value, or an
infinity.  The sign of a zero and NaN play no part here. -/
inductive Float64 where
  | finite (value : ℚ)
  | infinite (negative : Bool)
deriving DecidableEq, Repr

/-- Rounding to the nearest integer, a tie going to the even one. -/
def roundHalfEven (x : ℚ) : Int :=
  if x - ⌊x⌋ < 1 / 2 then ⌊x⌋
  else if 1 / 2 < x - ⌊x⌋ then ⌊x⌋ + 1
  else if ⌊x⌋ % 2 = 0 then ⌊x⌋ else ⌊x⌋ + 1

/-- The binary exponent of the unit in the last place of a `float64` of the
magnitude of `x`: 52 below the binary exponent of `x`, and -1074 throughout
the subnormal range. -/
def ulpExponent (x : ℚ) : Int := max (Int.log 2 |x| - 52) (-1074)

/-- Conversion of an exact number to the nearest `float64`, a tie going to the
even significand and a result of magnitude `2 ^ 1024` or more to an infinity:
what `big.Rat.Float64`, behind the engine's `Float64`, and the Go conversion
`float64(v)` of an `int64` compute. -/
def toFloat64 (x : ℚ) : Float64 :=
  if |(roundHalfEven (x / (2 : ℚ) ^ ulpExponent x) : ℚ) * (2 : ℚ) ^ ulpExponent x|
      < (2 : ℚ) ^ (1024 : Int) then
    Float64.finite ((roundHalfEven (x / (2 : ℚ) ^ ulpExponent x) : ℚ) * (2 : ℚ) ^ ulpExponent x)
  else Float64.infinite (decide (x < 0))

/-- Engine `Float64`: the nearest `float64` of the decimal (the flag `exact`
is dropped, as the callers drop it). -/
def Decimal.Float64 (d : Decimal) : Gmoney.Float64 := toFloat64 d.toRat

/-- Method `Amount` (money.go, lines 111-114):
`m.amount.Truncate(m.currency.Fraction).Float64()`.  (The name `Amount` is
taken by the amount type.) -/
def Money.AmountFloat64 (m : Money) : Outcome Float64 :=
  match m.currency with
  | none => Outcome.panic
  | some c => Outcome.ret (m.amount.Truncate c.Fraction).Float64

/-- Method `AsMajorUnits` (money.go, lines 409-415):
`float64(m.amount.Round(0).IntPart())` when the registry entry
`m.currency.get()` has fraction 0, else `m.Amount()`. -/
def Money.AsMajorUnits (get : String → Currency) (m : Money) : Outcome Float64 :=
  match m.currency with
  | none => Outcome.panic
  | some c =>
    if (get c.Code).Fraction = 0 then
      Outcome.ret (toFloat64 (((m.amount.Round 0).IntPart : Int) : ℚ))
    else m.AmountFloat64

/-- A finite `float64`, in the words of the format: a significand of magnitude
below `2 ^ 53` times a power of two between `2 ^ (-1074)` and `2 ^ 971`. -/
def IsBinary64 (y : ℚ) : Prop :=
  ∃ m e : Int, |m| < 2 ^ 53 ∧ -1074 ≤ e ∧ e ≤ 971 ∧ y = (m : ℚ) * (2 : ℚ) ^ e

/-- The number `y` is a finite `float64` nearest to `x`: no finite `float64` is
closer to `x`. -/
def IsNearestBinary64 (x y : ℚ) : Prop :=
  IsBinary64 y ∧ ∀ z : ℚ, IsBinary64 z → |y - x| ≤ |z - x|

/-! ## formatter.go: the whole of Format -/

/-- The call `strings.Replace(s, old, new, 1)` for an `old` of one character,
as in `Format`: the first `old` of `s` gives way to `new`. -/
def replaceFirst (old : Char) (new : List Char) : List Char → List Char
  | [] => []
  | ch :: s => if ch = old then new ++ s else ch :: replaceFirst old new s

/-- The slice `dg[strings.Index(dg, ".")+1:]`: what follows the first point,
and the whole text when there is none (`Index` is then -1). -/
def afterPoint (dg : List Char) : List Char :=
  match dg.dropWhile (fun ch => ch != '.') with
  | [] => dg
  | _ :: rest => rest

/-- Method `Format` (formatter.go, lines 30-62).  The text of a `float64`,
`cast.ToString(x.InexactFloat64())`, is not modelled: `floatText` stands for
it. -/
def Formatter.Format (floatText : Gmoney.Decimal → List Char) (f : Formatter)
    (amount : Gmoney.Decimal) : List Char :=
  let sa := f.integerPart amount
  let sa :=
    if f.Fraction > 0 then
      let dg := afterPoint (floatText (amount.Sub (Decimal.NewFromInt amount.IntPart)))
      let dg :=
        if (dg.length : Int) > f.Fraction then dg.take f.Fraction.toNat
        else dg ++ List.replicate (f.Fraction.toNat - dg.length) '0'
      sa ++ f.Decimal.toList ++ dg
    else sa
  let sa := replaceFirst '1' sa f.Template.toList
  let sa := replaceFirst '$' f.Grapheme.toList sa
  if amount.IsNegative then '-' :: sa else sa

/-! # Theorems -/

open Outcome

/-! ## The decimal engine: what its operations compute -/

namespace Decimal

theorem ten_zpow_pos (e : Int) : (0 : ℚ) < (10 : ℚ) ^ e := zpow_pos (by norm_num) e

theorem toRat_eq_zero_iff (d : Decimal) : d.toRat = 0 ↔ d.value = 0 := by
  unfold toRat
  constructor
  · intro h
    rcases mul_eq_zero.mp h with h1 | h1
    · exact_mod_cast h1
    · exact absurd h1 (ne_of_gt (ten_zpow_pos d.exp))
  · intro h
    simp [h]

theorem toRat_neg_iff (d : Decimal) : d.toRat < 0 ↔ d.value < 0 := by
  unfold toRat
  have hp := ten_zpow_pos d.exp
  constructor
  · intro h
    have : (d.value : ℚ) < 0 := by
      by_contra hc
      push_neg at hc
      have := mul_nonneg hc hp.le
      linarith
    exact_mod_cast this
  · intro h
    have : (d.value : ℚ) < 0 := by exact_mod_cast h
    exact mul_neg_of_neg_of_pos this hp

theorem toRat_pos_iff (d : Decimal) : 0 < d.toRat ↔ 0 < d.value := by
  unfold toRat
  have hp := ten_zpow_pos d.exp
  constructor
  · intro h
    have : (0 : ℚ) < (d.value : ℚ) := by
      by_contra hc
      push_neg at hc
      have := mul_nonpos_of_nonpos_of_nonneg hc hp.le
      linarith
    exact_mod_cast this
  · intro h
    have : (0 : ℚ) < (d.value : ℚ) := by exact_mod_cast h
    exact mul_pos this hp

/-- Rescaling to a smaller or equal exponent keeps the number. -/
theorem toRat_rescale_of_le (d : Decimal) (e : Int) (h : e ≤ d.exp) :
    (d.rescale e).toRat = d.toRat ∧ (d.rescale e).exp = e := by
  unfold rescale
  by_cases h1 : d.exp = e
  · simp [h1]
  · have h2 : ¬ e > d.exp := by omega
    simp only [h1, h2, if_false, toRat, and_true]
    have h3 : ((e - d.exp).natAbs : Int) = d.exp - e := by omega
    have h4 : (10 : ℚ) ^ d.exp = (10 : ℚ) ^ ((e - d.exp).natAbs : Int) * (10 : ℚ) ^ e := by
      rw [← zpow_add₀ (by norm_num : (10 : ℚ) ≠ 0), h3]
      congr 1
      ring
    rw [h4, zpow_natCast]
    push_cast
    ring

theorem RescalePair_spec (d1 d2 : Decimal) :
    (RescalePair d1 d2).1.toRat = d1.toRat ∧ (RescalePair d1 d2).2.toRat = d2.toRat ∧
      (RescalePair d1 d2).1.exp = min d1.exp d2.exp ∧
      (RescalePair d1 d2).2.exp = min d1.exp d2.exp := by
  unfold RescalePair
  by_cases h1 : d1.exp < d2.exp
  · have := toRat_rescale_of_le d2 d1.exp h1.le
    simp [h1, this, h1.le]
  · by_cases h2 : d1.exp > d2.exp
    · have := toRat_rescale_of_le d1 d2.exp h2.le
      simp [h1, h2, this, h2.le]
    · have : d1.exp = d2.exp := by omega
      simp [h1, h2, this]

theorem toRat_Add (d d2 : Decimal) : (d.Add d2).toRat = d.toRat + d2.toRat := by
  obtain ⟨h1, h2, h3, h4⟩ := RescalePair_spec d d2
  rw [← h1, ← h2]
  simp only [Add, toRat]
  rw [h3, h4]
  push_cast
  ring

theorem toRat_Sub (d d2 : Decimal) : (d.Sub d2).toRat = d.toRat - d2.toRat := by
  obtain ⟨h1, h2, h3, h4⟩ := RescalePair_spec d d2
  rw [← h1, ← h2]
  simp only [Sub, toRat]
  rw [h3, h4]
  push_cast
  ring

theorem toRat_Neg (d : Decimal) : d.Neg.toRat = -d.toRat := by
  simp [Neg, toRat]

theorem toRat_NewFromInt (n : Int) : (NewFromInt n).toRat = n := by
  simp [NewFromInt, toRat]

theorem cmpInt_eq_cmpRat (x y e : Int) :
    cmpInt x y = cmpRat ((x : ℚ) * (10 : ℚ) ^ e) ((y : ℚ) * (10 : ℚ) ^ e) := by
  have hp := ten_zpow_pos e
  unfold cmpInt cmpRat
  have h1 : ((x : ℚ) * (10 : ℚ) ^ e < (y : ℚ) * (10 : ℚ) ^ e) ↔ x < y := by
    rw [mul_lt_mul_right hp]
    exact_mod_cast Iff.rfl
  have h2 : ((x : ℚ) * (10 : ℚ) ^ e = (y : ℚ) * (10 : ℚ) ^ e) ↔ x = y := by
    rw [mul_left_inj' (ne_of_gt hp)]
    exact_mod_cast Iff.rfl
  simp only [h1, h2]

theorem Cmp_eq_cmpRat (d d2 : Decimal) : d.Cmp d2 = cmpRat d.toRat d2.toRat := by
  obtain ⟨h1, h2, h3, h4⟩ := RescalePair_spec d d2
  unfold Cmp
  by_cases h : d.exp = d2.exp
  · simp only [h, if_true]
    rw [cmpInt_eq_cmpRat d.value d2.value d2.exp]
    simp [toRat, h]
  · simp only [h, if_false]
    rw [cmpInt_eq_cmpRat _ _ (min d.exp d2.exp), ← h1, ← h2]
    simp only [toRat, h3, h4]

end Decimal

/-! ## Integer division facts -/

theorem tdiv_mul_right (x y c : Int) (hy : 0 < y) (hc : 0 < c) :
    (x * c).tdiv (y * c) = x.tdiv y := by
  have hyc : 0 < y * c := Int.mul_pos hy hc
  rcases le_or_lt 0 x with hx | hx
  · rw [Int.tdiv_eq_ediv (Int.mul_nonneg hx hc.le) hyc.le, Int.tdiv_eq_ediv hx hy.le]
    exact Int.mul_ediv_mul_of_pos_left x y hc
  · have hx1 : 0 ≤ -x := by omega
    have h1 : x * c = -((-x) * c) := by ring
    have h2 : x = -(-x) := by ring
    rw [h1, Int.neg_tdiv, Int.tdiv_eq_ediv (Int.mul_nonneg hx1 hc.le) hyc.le]
    conv_rhs => rw [h2, Int.neg_tdiv, Int.tdiv_eq_ediv hx1 hy.le]
    rw [Int.mul_ediv_mul_of_pos_left (-x) y hc]

theorem tmod_mul_right (x y c : Int) (hy : 0 < y) (hc : 0 < c) :
    (x * c).tmod (y * c) = x.tmod y * c := by
  rw [Int.tmod_def, Int.tmod_def, tdiv_mul_right x y c hy hc]
  ring

theorem roundQuot_mul_right (x y c : Int) (hy : 0 < y) (hc : 0 < c) :
    roundQuot (x * c) (y * c) = roundQuot x y := by
  unfold roundQuot
  rw [tdiv_mul_right x y c hy hc, tmod_mul_right x y c hy hc]
  have h1 : (2 * |x.tmod y * c| < y * c) ↔ (2 * |x.tmod y| < y) := by
    rw [abs_mul, abs_of_pos hc, ← mul_assoc]
    exact mul_lt_mul_right hc
  have h2 : (x * c < 0) ↔ (x < 0) := by
    constructor
    · intro h
      by_contra hx
      push_neg at hx
      have := Int.mul_nonneg hx hc.le
      omega
    · intro h
      exact Int.mul_neg_of_neg_of_pos h hc
  simp only [h1, h2]

theorem tmod_neg_left (x y : Int) : (-x).tmod y = -(x.tmod y) := by
  rw [Int.tmod_def, Int.tmod_def, Int.neg_tdiv]
  ring

theorem roundQuot_neg (x y : Int) (hx : 0 ≤ x) (hy : 0 < y) :
    roundQuot (-x) y = -roundQuot x y := by
  unfold roundQuot
  rw [tmod_neg_left, Int.neg_tdiv, abs_neg]
  by_cases h : 2 * |x.tmod y| < y
  · simp [h]
  · rcases eq_or_lt_of_le hx with h0 | h0
    · subst h0
      simp at h
      omega
    · have h1 : -x < 0 := by omega
      have h2 : ¬ x < 0 := by omega
      simp only [h, h1, h2, if_false, if_true]
      ring

/-- Rounding the quotient at `g` extra digits and then dropping them gives the
truncated quotient, as long as the divisor is below `2 * K`. -/
theorem roundQuot_tdiv_nonneg (A n K : Int) (hA : 0 ≤ A) (hn : 0 < n) (hK : 0 < K)
    (hnK : n < 2 * K) : (roundQuot (A * K) n).tdiv K = A.tdiv n := by
  have hM : 0 ≤ A * K := Int.mul_nonneg hA hK.le
  unfold roundQuot
  rw [Int.tdiv_eq_ediv hM hn.le, Int.tmod_eq_emod hM hn.le, Int.tdiv_eq_ediv hA hn.le]
  have ht0 : 0 ≤ A * K % n := Int.emod_nonneg _ (ne_of_gt hn)
  have ht1 : A * K % n < n := Int.emod_lt_of_pos _ hn
  have hR0 : 0 ≤ A % n := Int.emod_nonneg _ (ne_of_gt hn)
  have hR1 : A % n < n := Int.emod_lt_of_pos _ hn
  have hQ0 : 0 ≤ A / n := Int.ediv_nonneg hA hn.le
  have hq0 : 0 ≤ A * K / n := Int.ediv_nonneg hM hn.le
  have e1 : n * (A * K / n) + A * K % n = A * K := Int.ediv_add_emod _ _
  have e2 : n * (A / n) + A % n = A := Int.ediv_add_emod _ _
  rw [abs_of_nonneg ht0]
  set q := A * K / n with hq
  set t := A * K % n with ht
  set Q := A / n with hQ
  set R := A % n with hR
  -- n * q + t = (n * Q + R) * K
  have e3 : n * q + t = n * (Q * K) + R * K := by
    rw [e1, ← e2]
    ring
  have hRK : R * K ≤ (n - 1) * K := Int.mul_le_mul_of_nonneg_right (by omega) hK.le
  have hRK0 : 0 ≤ R * K := Int.mul_nonneg hR0 hK.le
  -- lower bound Q * K ≤ q
  have hlow : Q * K ≤ q := by
    by_contra hc
    push_neg at hc
    have : n * (q + 1) ≤ n * (Q * K) := Int.mul_le_mul_of_nonneg_left (by omega) hn.le
    have e4 : n * (q + 1) = n * q + n := by ring
    omega
  -- upper bound q < (Q + 1) * K
  have hup : q < (Q + 1) * K := by
    by_contra hc
    push_neg at hc
    have : n * ((Q + 1) * K) ≤ n * q := Int.mul_le_mul_of_nonneg_left hc hn.le
    have e4 : n * ((Q + 1) * K) = n * (Q * K) + n * K := by ring
    have e5 : (n - 1) * K = n * K - K := by ring
    omega
  have hfin : ∀ z : Int, Q * K ≤ z → z < (Q + 1) * K → 0 ≤ z → z.tdiv K = Q := by
    intro z h1 h2 h3
    rw [Int.tdiv_eq_ediv h3 hK.le]
    apply le_antisymm
    · have := Int.ediv_lt_of_lt_mul hK h2
      omega
    · exact Int.le_ediv_of_mul_le hK h1
  by_cases hc : 2 * t < n
  · simp only [hc, if_true]
    exact hfin q hlow hup hq0
  · have hAK : ¬ A * K < 0 := by omega
    simp only [hc, hAK, if_false]
    apply hfin (q + 1) (by omega) _ (by omega)
    by_contra hc2
    push_neg at hc2
    have h5 : n * ((Q + 1) * K - 1) ≤ n * q := Int.mul_le_mul_of_nonneg_left (by omega) hn.le
    have e4 : n * ((Q + 1) * K - 1) = n * (Q * K) + n * K - n := by ring
    have e5 : (n - 1) * K = n * K - K := by ring
    omega

theorem roundQuot_tdiv (A n K : Int) (hn : 0 < n) (hK : 0 < K) (hnK : n < 2 * K) :
    (roundQuot (A * K) n).tdiv K = A.tdiv n := by
  rcases le_or_lt 0 A with hA | hA
  · exact roundQuot_tdiv_nonneg A n K hA hn hK hnK
  · have h1 : A * K = -((-A) * K) := by ring
    have h2 : A = -(-A) := by ring
    have hA1 : 0 ≤ -A := by omega
    rw [h1, roundQuot_neg _ _ (Int.mul_nonneg hA1 hK.le) hn, Int.neg_tdiv,
      roundQuot_tdiv_nonneg (-A) n K hA1 hn hK hnK]
    conv_rhs => rw [h2, Int.neg_tdiv]

namespace Decimal

theorem ten_pow_pos (k : Nat) : (0 : Int) < 10 ^ k := by positivity

theorem quoDen_pos (d : Decimal) (n P : Int) (hn : 0 < n) : 0 < quoDen d n P := by
  unfold quoDen
  split_ifs
  · exact Int.mul_pos hn (ten_pow_pos _)
  · exact hn

theorem quoNum_neg_iff (d : Decimal) (P : Int) : quoNum d P < 0 ↔ d.value < 0 := by
  unfold quoNum
  split_ifs
  · exact Iff.rfl
  · have hp := ten_pow_pos (d.exp + P).natAbs
    constructor
    · intro h
      by_contra hc
      push_neg at hc
      have := Int.mul_nonneg hc hp.le
      omega
    · intro h
      exact Int.mul_neg_of_neg_of_pos h hp

theorem QuoRem_NewFromInt (d : Decimal) (n P : Int) (hn : n ≠ 0) :
    QuoRem d (NewFromInt n) P =
      ret ({ value := (quoNum d P).tdiv (quoDen d n P), exp := -P },
        { value := (quoNum d P).tmod (quoDen d n P),
          exp := if d.exp + P < 0 then d.exp else -P }) := by
  unfold QuoRem quoNum quoDen
  simp only [NewFromInt, hn, if_false, sub_zero, sub_neg_eq_add, add_zero]
  split_ifs <;> rfl

theorem cmpInt_neg_iff (x y : Int) : cmpInt x y < 0 ↔ x < y := by
  unfold cmpInt
  split_ifs with h1 h2
  · simp [h1]
  · simp [h2]
  · simp [h1]

theorem Cmp_rem_neg_iff (d : Decimal) (n P t : Int) (hn : 0 < n) :
    (Cmp { value := 2 * abs t, exp := (if d.exp + P < 0 then d.exp else -P) + P }
        (NewFromInt n).Abs < 0) ↔
      (2 * abs t < quoDen d n P) := by
  by_cases he : d.exp + P < 0
  · have hne : ¬ (d.exp + P = 0) := by omega
    have h3 : ¬ (d.exp + P > 0) := by omega
    simp only [Cmp, RescalePair, rescale, NewFromInt, Abs, he, if_true, hne, if_false,
      cmpInt_neg_iff, quoDen, abs_of_pos hn, h3, Int.natAbs_neg]
    have h0 : ¬ ((0 : Int) = d.exp + P) := by omega
    simp only [h0, if_false, sub_zero]
  · simp only [Cmp, NewFromInt, Abs, he, if_false, neg_add_cancel, if_true, cmpInt_neg_iff,
      quoDen, abs_of_pos hn]

theorem DivRound_NewFromInt (d : Decimal) (n P : Int) (hn : 0 < n) :
    DivRound d (NewFromInt n) P =
      ret { value := roundQuot (quoNum d P) (quoDen d n P), exp := -P } := by
  unfold DivRound
  rw [QuoRem_NewFromInt d n P (ne_of_gt hn)]
  simp only [Outcome.bind]
  have hcmp := Cmp_rem_neg_iff d n P ((quoNum d P).tmod (quoDen d n P)) hn
  have hsign : (d.value.sign * (NewFromInt n).value.sign < 0) ↔ quoNum d P < 0 := by
    rw [quoNum_neg_iff]
    simp only [NewFromInt, Int.sign_eq_one_of_pos hn, mul_one]
    constructor
    · intro h
      by_contra hc
      have := Int.sign_nonneg.mpr (not_lt.mp hc)
      omega
    · intro h
      rw [Int.sign_eq_neg_one_iff_neg.mpr h]
      decide
  unfold roundQuot
  by_cases h1 : 2 * abs ((quoNum d P).tmod (quoDen d n P)) < quoDen d n P
  · rw [if_pos (hcmp.mpr h1), if_pos h1]
  · rw [if_neg (fun h => h1 (hcmp.mp h)), if_neg h1]
    by_cases h2 : quoNum d P < 0
    · rw [if_pos (hsign.mpr h2), if_pos h2]
      simp [Sub, RescalePair, New]
    · rw [if_neg (fun h => h2 (hsign.mp h)), if_neg h2]
      simp [Add, RescalePair, New]

end Decimal

namespace Decimal

theorem ten_ne_zero : (10 : ℚ) ≠ 0 := by norm_num

theorem quoNum_toRat (d : Decimal) (P : Int) :
    (quoNum d P : ℚ) * (10 : ℚ) ^ remExp d P = d.toRat := by
  unfold quoNum remExp toRat
  by_cases he : d.exp + P < 0
  · simp only [he, if_true]
  · simp only [he, if_false]
    have h1 : (((d.exp + P).natAbs : Nat) : Int) = d.exp + P := by omega
    have h2 : (10 : ℚ) ^ d.exp = (10 : ℚ) ^ (((d.exp + P).natAbs : Nat) : Int) * (10 : ℚ) ^ (-P) := by
      rw [← zpow_add₀ ten_ne_zero, h1]
      congr 1
      ring
    rw [h2, zpow_natCast]
    push_cast
    ring

theorem quoDen_toRat (d : Decimal) (n P : Int) :
    (quoDen d n P : ℚ) * (10 : ℚ) ^ remExp d P = (n : ℚ) * (10 : ℚ) ^ (-P) := by
  unfold quoDen remExp
  by_cases he : d.exp + P < 0
  · simp only [he, if_true]
    have h1 : (((-(d.exp + P)).natAbs : Nat) : Int) = -(d.exp + P) := by omega
    have h2 : (10 : ℚ) ^ (-P) = (10 : ℚ) ^ (((-(d.exp + P)).natAbs : Nat) : Int) * (10 : ℚ) ^ d.exp := by
      rw [← zpow_add₀ ten_ne_zero, h1]
      congr 1
      ring
    rw [h2, zpow_natCast]
    push_cast
    ring
  · simp only [he, if_false]

/-- For an amount of `A` units of `10 ^ (-f)`, the integer division behind a
quotient by `n` at `f + g` digits is that of `A * 10 ^ g` by `n`, up to a
common positive factor. -/
theorem quo_whole (d : Decimal) (n A : Int) (f g : Nat)
    (hA : d.toRat = (A : ℚ) * (10 : ℚ) ^ (-(f : Int))) :
    ∃ c : Int, 0 < c ∧ quoNum d ((f : Int) + (g : Int)) = A * 10 ^ g * c ∧
      quoDen d n ((f : Int) + (g : Int)) = n * c := by
  have hN := quoNum_toRat d ((f : Int) + (g : Int))
  unfold quoNum quoDen
  unfold quoNum remExp at hN
  by_cases he : d.exp + ((f : Int) + (g : Int)) < 0
  · simp only [he, if_true] at hN ⊢
    refine ⟨10 ^ (-(d.exp + ((f : Int) + (g : Int)))).natAbs, ten_pow_pos _, ?_, rfl⟩
    have h1 : (((-(d.exp + ((f : Int) + (g : Int)))).natAbs : Nat) : Int)
        = -(d.exp + ((f : Int) + (g : Int))) := by omega
    have h2 : (10 : ℚ) ^ (-(f : Int)) = (10 : ℚ) ^ ((g : Nat) : Int) *
        (10 : ℚ) ^ (((-(d.exp + ((f : Int) + (g : Int)))).natAbs : Nat) : Int) *
        (10 : ℚ) ^ d.exp := by
      rw [← zpow_add₀ ten_ne_zero, ← zpow_add₀ ten_ne_zero, h1]
      congr 1
      ring
    have h3 : (d.value : ℚ) * (10 : ℚ) ^ d.exp = (A : ℚ) * (10 : ℚ) ^ (-(f : Int)) := hA
    rw [h2, zpow_natCast, zpow_natCast, ← mul_assoc] at h3
    have h4 := mul_right_cancel₀ (ne_of_gt (ten_zpow_pos d.exp)) h3
    have h5 : ((d.value : Int) : ℚ) =
        ((A * 10 ^ g * 10 ^ (-(d.exp + ((f : Int) + (g : Int)))).natAbs : Int) : ℚ) := by
      rw [h4]
      push_cast
      ring
    exact_mod_cast h5
  · simp only [he, if_false] at hN ⊢
    refine ⟨1, by norm_num, ?_, by ring⟩
    have h2 : (10 : ℚ) ^ (-(f : Int)) = (10 : ℚ) ^ ((g : Nat) : Int) *
        (10 : ℚ) ^ (-((f : Int) + (g : Int))) := by
      rw [← zpow_add₀ ten_ne_zero]
      congr 1
      ring
    rw [hA, h2, zpow_natCast, ← mul_assoc] at hN
    have h4 := mul_right_cancel₀ (ne_of_gt (ten_zpow_pos (-((f : Int) + (g : Int))))) hN
    have h5 : ((d.value * 10 ^ (d.exp + ((f : Int) + (g : Int))).natAbs : Int) : ℚ) =
        ((A * 10 ^ g * 1 : Int) : ℚ) := by
      push_cast
      push_cast at h4
      rw [h4]
      ring
    exact_mod_cast h5

end Decimal

namespace Decimal

theorem modulus_NewFromInt (d : Decimal) (n P : Int) (hn : n ≠ 0) :
    calculator.modulus d (NewFromInt n) P =
      ret { value := (quoNum d P).tmod (quoDen d n P), exp := remExp d P } := by
  simp [calculator.modulus, QuoRem_NewFromInt d n P hn, Outcome.bind, remExp]

/-- The remainder of an amount of `A` minor units divided by `n` is the
remainder of `A` by `n`, in minor units. -/
theorem modulus_whole (d : Decimal) (n A : Int) (f : Nat) (hn : 0 < n)
    (hA : d.toRat = (A : ℚ) * (10 : ℚ) ^ (-(f : Int))) :
    ∃ r : Decimal, calculator.modulus d (NewFromInt n) f = ret r ∧
      r.toRat = ((A.tmod n : Int) : ℚ) * (10 : ℚ) ^ (-(f : Int)) := by
  refine ⟨_, modulus_NewFromInt d n f (ne_of_gt hn), ?_⟩
  obtain ⟨c, hc, h1, h2⟩ := quo_whole d n A f 0 hA
  simp only [Nat.cast_zero, add_zero, pow_zero, mul_one] at h1 h2
  have hN := quoNum_toRat d (f : Int)
  have hD := quoDen_toRat d n (f : Int)
  have h3 : (quoNum d f).tmod (quoDen d n f) = A.tmod n * c := by
    rw [h1, h2]
    exact tmod_mul_right A n c hn hc
  have h4 : (quoNum d f).tdiv (quoDen d n f) = A.tdiv n := by
    rw [h1, h2]
    exact tdiv_mul_right A n c hn hc
  have h5 := Int.tmod_def (quoNum d f) (quoDen d n f)
  rw [h4] at h5
  have h6 := Int.tmod_def A n
  simp only [toRat]
  rw [h5, h6]
  push_cast
  have e1 : ((quoNum d f : ℚ) - (quoDen d n f : ℚ) * (A.tdiv n : ℚ)) * (10 : ℚ) ^ remExp d f
      = (quoNum d f : ℚ) * (10 : ℚ) ^ remExp d f
        - (quoDen d n f : ℚ) * (10 : ℚ) ^ remExp d f * (A.tdiv n : ℚ) := by ring
  rw [e1, hN, hD, hA]
  ring

/-- The base share of an amount of `A` minor units split `n` ways, for a
fraction of at most 16 digits. -/
theorem divide_whole (d : Decimal) (n A : Int) (f : Nat) (hn : 0 < n) (hf : f ≤ 16)
    (hA : d.toRat = (A : ℚ) * (10 : ℚ) ^ (-(f : Int))) :
    calculator.divide d (NewFromInt n) f =
      ret { value := (roundQuot (A * 10 ^ (16 - f)) n).tdiv (10 ^ (16 - f)), exp := -(f : Int) } := by
  obtain ⟨c, hc, h1, h2⟩ := quo_whole d n A f (16 - f) hA
  have hP : ((f : Int) + ((16 - f : Nat) : Int)) = 16 := by omega
  rw [hP] at h1 h2
  have hD := DivRound_NewFromInt d n 16 hn
  rw [h1, h2, roundQuot_mul_right _ _ _ hn hc] at hD
  simp only [calculator.divide, Div, DivisionPrecision, hD, Outcome.bind, Truncate]
  by_cases h16 : f = 16
  · subst h16
    simp
  · have h3 : ((f : Int) ≥ 0 ∧ -(f : Int) > -16) := by omega
    have h4 : ¬ ((-16 : Int) = -(f : Int)) := by omega
    have h5 : (-(f : Int) - -16).natAbs = 16 - f := by omega
    simp only [h3, and_self, if_true, rescale, h4, if_false, h3.2, h5]

theorem Pow_ten (f : Nat) : (NewFromInt 10).Pow f = NewFromInt (10 ^ f) := by
  induction f with
  | zero => rfl
  | succ k ih =>
    show ((NewFromInt 10).Pow k).Mul (NewFromInt 10) = NewFromInt (10 ^ (k + 1))
    rw [ih]
    simp only [Mul, NewFromInt, add_zero, pow_succ]

/-- The minor unit `one.Div(10^f)`: `10 ^ (-f)` up to 16 fraction digits, and
zero beyond. -/
theorem unit_value (f : Nat) :
    one.Div ((NewFromInt 10).Pow f) =
      ret { value := if f ≤ 16 then 10 ^ (16 - f) else 0, exp := -16 } := by
  rw [Pow_ten, Div, DivisionPrecision, DivRound_NewFromInt one (10 ^ f) 16 (ten_pow_pos f)]
  have hN : quoNum one 16 = 10 ^ 16 := by decide
  have hDn : quoDen one (10 ^ f) 16 = 10 ^ f := by
    simp [quoDen, one, NewFromInt]
  rw [hN, hDn]
  congr 2
  unfold roundQuot
  by_cases hf : f ≤ 16
  · have e : (10 : Int) ^ 16 = 10 ^ (16 - f) * 10 ^ f := by
      rw [← pow_add]
      congr 1
      omega
    have hdvd : (10 : Int) ^ f ∣ 10 ^ 16 := ⟨10 ^ (16 - f), by rw [e]; ring⟩
    have ht : ((10 : Int) ^ 16).tmod (10 ^ f) = 0 := Int.tmod_eq_zero_of_dvd hdvd
    have hq : ((10 : Int) ^ 16).tdiv (10 ^ f) = 10 ^ (16 - f) := by
      rw [Int.tdiv_eq_ediv (by positivity) (by positivity), e]
      exact Int.mul_ediv_cancel _ (ne_of_gt (ten_pow_pos f))
    rw [ht, hq]
    simp [hf, ten_pow_pos f]
  · have h17 : (10 : Int) ^ 17 ≤ 10 ^ f :=
      pow_le_pow_right₀ (by norm_num) (by omega)
    have hlt : (10 : Int) ^ 16 < 10 ^ f := by
      have : (10 : Int) ^ 16 < 10 ^ 17 := by norm_num
      omega
    have ht : ((10 : Int) ^ 16).tmod (10 ^ f) = 10 ^ 16 :=
      Int.tmod_eq_of_lt (by positivity) hlt
    have hq : ((10 : Int) ^ 16).tdiv (10 ^ f) = 0 :=
      Int.tdiv_eq_zero_of_lt (by positivity) hlt
    rw [ht, hq]
    have h2 : 2 * |(10 : Int) ^ 16| < 10 ^ f := by
      rw [abs_of_pos (by positivity)]
      have : 2 * (10 : Int) ^ 16 < 10 ^ 17 := by norm_num
      omega
    rw [if_pos h2, if_neg hf]

end Decimal

/-! ## Comparison -/

namespace Money

theorem assertSameCurrency_of_ne (a b : Money) (ca cb : Currency) (ha : a.currency = some ca)
    (hb : b.currency = some cb) (hne : ca.Code ≠ cb.Code) :
    a.assertSameCurrency b = ret (some Error.ErrCurrencyMismatch) := by
  simp [assertSameCurrency, SameCurrency, Currency.equals, ha, hb, Outcome.bind, hne]

theorem assertSameCurrency_of_eq (a b : Money) (ca cb : Currency) (ha : a.currency = some ca)
    (hb : b.currency = some cb) (he : ca.Code = cb.Code) :
    a.assertSameCurrency b = ret none := by
  simp [assertSameCurrency, SameCurrency, Currency.equals, ha, hb, Outcome.bind, he]

theorem compare_eq_cmpRat (a b : Money) :
    a.compare b = Decimal.cmpRat a.amount.toRat b.amount.toRat := by
  simp [compare, Decimal.Compare, Decimal.Cmp_eq_cmpRat]

end Money

theorem cmpRat_eq_zero (x y : ℚ) : Decimal.cmpRat x y = 0 ↔ x = y := by
  unfold Decimal.cmpRat
  split_ifs with h1 h2
  · simp [ne_of_lt h1]
  · simp [h2]
  · simp [h2]

theorem cmpRat_eq_one (x y : ℚ) : Decimal.cmpRat x y = 1 ↔ x > y := by
  unfold Decimal.cmpRat
  split_ifs with h1 h2
  · simp [le_of_lt h1]
  · simp [h2]
  · have : y < x := lt_of_le_of_ne (not_lt.mp h1) (Ne.symm h2)
    simp [this]

theorem cmpRat_eq_neg_one (x y : ℚ) : Decimal.cmpRat x y = -1 ↔ x < y := by
  unfold Decimal.cmpRat
  split_ifs with h1 h2
  · simp [h1]
  · simp [h2]
  · simp [h1]

theorem cmpRat_nonneg (x y : ℚ) : Decimal.cmpRat x y ≥ 0 ↔ x ≥ y := by
  unfold Decimal.cmpRat
  split_ifs with h1 h2
  · simp [h1]
  · simp [h2]
  · simp [not_lt.mp h1]

theorem cmpRat_nonpos (x y : ℚ) : Decimal.cmpRat x y ≤ 0 ↔ x ≤ y := by
  unfold Decimal.cmpRat
  split_ifs with h1 h2
  · simp [le_of_lt h1]
  · simp [h2]
  · have : y < x := lt_of_le_of_ne (not_lt.mp h1) (Ne.symm h2)
    simp [this]

/-- C6: two Money values with different currency codes make each of Equals,
GreaterThan, GreaterThanOrEqual, LessThan and LessThanOrEqual return
`(false, ErrCurrencyMismatch)`, in both directions and whatever the amounts. -/
theorem comparisons_currency_mismatch (a b : Money) (ca cb : Currency)
    (ha : a.currency = some ca) (hb : b.currency = some cb) (hne : ca.Code ≠ cb.Code) :
    a.Equals b = ret (false, some Error.ErrCurrencyMismatch) ∧
    b.Equals a = ret (false, some Error.ErrCurrencyMismatch) ∧
    a.GreaterThan b = ret (false, some Error.ErrCurrencyMismatch) ∧
    b.GreaterThan a = ret (false, some Error.ErrCurrencyMismatch) ∧
    a.GreaterThanOrEqual b = ret (false, some Error.ErrCurrencyMismatch) ∧
    b.GreaterThanOrEqual a = ret (false, some Error.ErrCurrencyMismatch) ∧
    a.LessThan b = ret (false, some Error.ErrCurrencyMismatch) ∧
    b.LessThan a = ret (false, some Error.ErrCurrencyMismatch) ∧
    a.LessThanOrEqual b = ret (false, some Error.ErrCurrencyMismatch) ∧
    b.LessThanOrEqual a = ret (false, some Error.ErrCurrencyMismatch) := by
  have h1 := Money.assertSameCurrency_of_ne a b ca cb ha hb hne
  have h2 := Money.assertSameCurrency_of_ne b a cb ca hb ha (Ne.symm hne)
  simp [Money.Equals, Money.GreaterThan, Money.GreaterThanOrEqual, Money.LessThan,
    Money.LessThanOrEqual, h1, h2, Outcome.bind]

theorem comparisons_currency_mismatch_witness :
    (mk GBP 100 0).Equals (mk EUR 200 0) = ret (false, some Error.ErrCurrencyMismatch) ∧
    (mk EUR 200 0).LessThan (mk GBP 100 0) = ret (false, some Error.ErrCurrencyMismatch) :=
  have h := comparisons_currency_mismatch (mk GBP 100 0) (mk EUR 200 0) GBP EUR rfl rfl
    (by decide)
  ⟨h.1, h.2.2.2.2.2.2.2.1⟩

/-- C7: for two Money values with the same currency code, Equals, GreaterThan,
GreaterThanOrEqual, LessThan and LessThanOrEqual return, with a nil error, the
truth of `=`, `>`, `≥`, `<` and `≤` on the exact amounts. -/
theorem comparisons_same_currency (a b : Money) (ca cb : Currency)
    (ha : a.currency = some ca) (hb : b.currency = some cb) (he : ca.Code = cb.Code) :
    a.Equals b = ret (decide (a.amount.toRat = b.amount.toRat), none) ∧
    a.GreaterThan b = ret (decide (a.amount.toRat > b.amount.toRat), none) ∧
    a.GreaterThanOrEqual b = ret (decide (a.amount.toRat ≥ b.amount.toRat), none) ∧
    a.LessThan b = ret (decide (a.amount.toRat < b.amount.toRat), none) ∧
    a.LessThanOrEqual b = ret (decide (a.amount.toRat ≤ b.amount.toRat), none) := by
  have h1 := Money.assertSameCurrency_of_eq a b ca cb ha hb he
  simp only [Money.Equals, Money.GreaterThan, Money.GreaterThanOrEqual, Money.LessThan,
    Money.LessThanOrEqual, h1, Outcome.bind, Money.compare_eq_cmpRat, cmpRat_eq_zero,
    cmpRat_eq_one, cmpRat_eq_neg_one, cmpRat_nonneg, cmpRat_nonpos]
  simp

theorem comparisons_same_currency_witness :
    (mk GBP 100 0).LessThan (mk GBP 20000 (-2)) = ret (true, none) ∧
    (mk GBP 100 0).GreaterThan (mk GBP 20000 (-2)) = ret (false, none) := by
  have h := comparisons_same_currency (mk GBP 100 0) (mk GBP 20000 (-2)) GBP GBP rfl rfl rfl
  refine ⟨h.2.2.2.1.trans ?_, h.2.1.trans ?_⟩ <;> norm_num [mk, Decimal.toRat]

/-- C8: Compare returns -1, 0 or 1 as the three-way comparison of the exact
amounts; the error is nil when the currency codes are equal, and with different
codes the same comparison result comes with ErrCurrencyMismatch. -/
theorem Compare_three_way (a b : Money) (ca cb : Currency)
    (ha : a.currency = some ca) (hb : b.currency = some cb) :
    ∃ r : Int,
      a.Compare b =
        ret (r, if ca.Code = cb.Code then none else some Error.ErrCurrencyMismatch) ∧
      (r = -1 ∨ r = 0 ∨ r = 1) ∧
      (r = -1 ↔ a.amount.toRat < b.amount.toRat) ∧
      (r = 0 ↔ a.amount.toRat = b.amount.toRat) ∧
      (r = 1 ↔ a.amount.toRat > b.amount.toRat) := by
  refine ⟨Decimal.cmpRat a.amount.toRat b.amount.toRat, ?_, ?_, cmpRat_eq_neg_one _ _,
    cmpRat_eq_zero _ _, cmpRat_eq_one _ _⟩
  · by_cases he : ca.Code = cb.Code
    · simp [Money.Compare, Money.assertSameCurrency_of_eq a b ca cb ha hb he, Outcome.bind,
        Money.compare_eq_cmpRat, he]
    · simp [Money.Compare, Money.assertSameCurrency_of_ne a b ca cb ha hb he, Outcome.bind,
        Money.compare_eq_cmpRat, he]
  · unfold Decimal.cmpRat
    split_ifs <;> simp

theorem Compare_three_way_witness :
    ∃ r : Int,
      (mk GBP 100 0).Compare (mk EUR 200 0) =
        ret (r, if GBP.Code = EUR.Code then none else some Error.ErrCurrencyMismatch) ∧
      (r = -1 ∨ r = 0 ∨ r = 1) ∧
      (r = -1 ↔ (mk GBP 100 0).amount.toRat < (mk EUR 200 0).amount.toRat) ∧
      (r = 0 ↔ (mk GBP 100 0).amount.toRat = (mk EUR 200 0).amount.toRat) ∧
      (r = 1 ↔ (mk GBP 100 0).amount.toRat > (mk EUR 200 0).amount.toRat) :=
  Compare_three_way (mk GBP 100 0) (mk EUR 200 0) GBP EUR rfl rfl

/-! ## Add and Subtract -/

namespace Money

theorem startK_of_code (get : String → Currency) (m : Money) (c : Currency) (ms : List Money)
    (hc : m.currency = some c) (hcode : c.Code ≠ "") :
    startK get m ms = some (New get (Decimal.NewFromInt 0) c.Code) := by
  simp [startK, hc, hcode]

/-- With operands of the receiver's code the loop adds every amount to `k`. -/
theorem sumOperands_same (m : Money) (c : Currency) (hc : m.currency = some c) :
    ∀ (ms : List Money) (k : Amount),
      (∀ o ∈ ms, ∃ oc, o.currency = some oc ∧ oc.Code = c.Code) →
      ∃ k1 : Amount, sumOperands m ms k = ret (k1, none) ∧
        k1.toRat = k.toRat + (ms.map fun o => o.amount.toRat).sum := by
  intro ms
  induction ms with
  | nil =>
    intro k _
    exact ⟨k, by simp [sumOperands]⟩
  | cons o rest ih =>
    intro k hall
    have hrest : ∀ o1 ∈ rest, ∃ oc, o1.currency = some oc ∧ oc.Code = c.Code :=
      fun o1 h1 => hall o1 (List.mem_cons_of_mem _ h1)
    by_cases hz : o.IsZero = true
    · obtain ⟨k1, h1, h2⟩ := ih k hrest
      refine ⟨k1, by simp [sumOperands, hz, h1], ?_⟩
      have h0 : o.amount.toRat = 0 := by
        rw [Decimal.toRat_eq_zero_iff]
        simpa [IsZero, Decimal.IsZero] using hz
      simp [h2, h0]
    · obtain ⟨oc, ho, hoc⟩ := hall o (List.mem_cons_self _ _)
      obtain ⟨k1, h1, h2⟩ := ih (calculator.add k o.amount) hrest
      have ha := assertSameCurrency_of_eq m o c oc hc ho hoc.symm
      refine ⟨k1, by simp [sumOperands, hz, ha, Outcome.bind, h1], ?_⟩
      rw [h2]
      simp only [calculator.add, Decimal.toRat_Add, List.map_cons, List.sum_cons]
      ring

/-- An operand that is not zero and has another code stops the loop with
ErrCurrencyMismatch, provided no operand before it is dereferenced through a
nil currency. -/
theorem sumOperands_mismatch (m : Money) (c : Currency) (hc : m.currency = some c) :
    ∀ (ms : List Money) (k : Amount),
      (∀ o ∈ ms, o.currency = none → o.amount.value = 0) →
      (∃ o ∈ ms, o.amount.value ≠ 0 ∧ ∃ oc, o.currency = some oc ∧ oc.Code ≠ c.Code) →
      ∃ k1 : Amount, sumOperands m ms k = ret (k1, some Error.ErrCurrencyMismatch) := by
  intro ms
  induction ms with
  | nil =>
    intro k _ hbad
    obtain ⟨o, ho, _⟩ := hbad
    simp at ho
  | cons o rest ih =>
    intro k hwf hbad
    have hwfr : ∀ o1 ∈ rest, o1.currency = none → o1.amount.value = 0 :=
      fun o1 h1 => hwf o1 (List.mem_cons_of_mem _ h1)
    by_cases hz : o.amount.value = 0
    · have hbr : ∃ o1 ∈ rest, o1.amount.value ≠ 0 ∧
          ∃ oc, o1.currency = some oc ∧ oc.Code ≠ c.Code := by
        obtain ⟨b, hb, hbnz, hbc⟩ := hbad
        rcases List.mem_cons.mp hb with h | h
        · exact absurd (h ▸ hz) hbnz
        · exact ⟨b, h, hbnz, hbc⟩
      obtain ⟨k1, h1⟩ := ih k hwfr hbr
      exact ⟨k1, by simp [sumOperands, IsZero, Decimal.IsZero, hz, h1]⟩
    · cases hoc : o.currency with
      | none => exact absurd (hwf o (List.mem_cons_self _ _) hoc) hz
      | some oc =>
        by_cases hcode : c.Code = oc.Code
        · have hbr : ∃ o1 ∈ rest, o1.amount.value ≠ 0 ∧
              ∃ oc1, o1.currency = some oc1 ∧ oc1.Code ≠ c.Code := by
            obtain ⟨b, hb, hbnz, bc, hbc, hbne⟩ := hbad
            rcases List.mem_cons.mp hb with h | h
            · subst h
              rw [hoc] at hbc
              cases hbc
              exact absurd hcode.symm hbne
            · exact ⟨b, h, hbnz, bc, hbc, hbne⟩
          obtain ⟨k1, h1⟩ := ih (calculator.add k o.amount) hwfr hbr
          have ha := assertSameCurrency_of_eq m o c oc hc hoc hcode
          exact ⟨k1, by simp [sumOperands, IsZero, Decimal.IsZero, hz, ha, Outcome.bind, h1]⟩
        · have ha := assertSameCurrency_of_ne m o c oc hc hoc hcode
          exact ⟨k, by simp [sumOperands, IsZero, Decimal.IsZero, hz, ha, Outcome.bind]⟩

end Money

/-- C9: a receiver with a set currency and a non-empty list of operands that
all carry the receiver's currency code: Add returns, without error, a Money of
the receiver's currency whose amount is exactly the receiver's amount plus the
sum of the operands' amounts, and Subtract one whose amount is the receiver's
amount minus that sum. -/
theorem Add_Subtract_same_currency (get : String → Currency) (m : Money) (c : Currency)
    (ms : List Money) (hc : m.currency = some c) (hcode : c.Code ≠ "") (hne : ms ≠ [])
    (hall : ∀ o ∈ ms, ∃ oc, o.currency = some oc ∧ oc.Code = c.Code) :
    (∃ r : Money, m.Add get ms = ret (some r, none) ∧ r.currency = m.currency ∧
      r.amount.toRat = m.amount.toRat + (ms.map fun o => o.amount.toRat).sum) ∧
    (∃ r : Money, m.Subtract get ms = ret (some r, none) ∧ r.currency = m.currency ∧
      r.amount.toRat = m.amount.toRat - (ms.map fun o => o.amount.toRat).sum) := by
  obtain ⟨k1, h1, h2⟩ := Money.sumOperands_same m c hc ms (Decimal.NewFromInt 0) hall
  have hk := Money.startK_of_code get m c ms hc hcode
  have hlen : ms.length ≠ 0 := by simpa using hne
  have h0 : (Decimal.NewFromInt 0).toRat = 0 := by simp [Decimal.toRat_NewFromInt]
  rw [h0, zero_add] at h2
  constructor
  · refine ⟨{ amount := calculator.add m.amount k1, currency := m.currency }, ?_, rfl, ?_⟩
    · simp [Money.Add, hlen, hk, New, h1, Outcome.bind]
    · simp [calculator.add, Decimal.toRat_Add, h2]
  · refine ⟨{ amount := calculator.subtract m.amount k1, currency := m.currency }, ?_, rfl, ?_⟩
    · simp [Money.Subtract, hlen, hk, New, h1, Outcome.bind]
    · simp [calculator.subtract, Decimal.toRat_Sub, h2]

/-- C10: a receiver with a set currency and an operand list holding a non-zero
operand of another currency code: Add and Subtract return a nil result and
ErrCurrencyMismatch, whatever the amounts and codes of the other operands
(every operand without a currency being the zero value). -/
theorem Add_Subtract_mismatch (get : String → Currency) (m : Money) (c : Currency)
    (ms : List Money) (hc : m.currency = some c) (hcode : c.Code ≠ "")
    (hwf : ∀ o ∈ ms, o.currency = none → o.amount.value = 0)
    (hbad : ∃ o ∈ ms, o.amount.value ≠ 0 ∧ ∃ oc, o.currency = some oc ∧ oc.Code ≠ c.Code) :
    m.Add get ms = ret (none, some Error.ErrCurrencyMismatch) ∧
    m.Subtract get ms = ret (none, some Error.ErrCurrencyMismatch) := by
  obtain ⟨k1, h1⟩ := Money.sumOperands_mismatch m c hc ms (Decimal.NewFromInt 0) hwf hbad
  have hk := Money.startK_of_code get m c ms hc hcode
  have hlen : ms.length ≠ 0 := by
    obtain ⟨o, ho, _⟩ := hbad
    intro h
    rw [List.length_eq_zero] at h
    simp [h] at ho
  constructor
  · simp [Money.Add, hlen, hk, New, h1, Outcome.bind]
  · simp [Money.Subtract, hlen, hk, New, h1, Outcome.bind]

/-! ## Split -/

namespace Money

theorem splitLoop_zero (n : Int) (v : Decimal) (fuel : Nat) (ms : List Money) (r : Decimal)
    (p : Nat) (hr : r.value = 0) : splitLoop n v fuel ms r p = ret ms := by
  unfold splitLoop
  simp [Decimal.IsZero, hr]

theorem splitLoop_succ (n : Int) (v : Decimal) (fuel : Nat) (ms : List Money) (r : Decimal)
    (p : Nat) (mp : Money) (hr : r.value ≠ 0) (hp : ms[p]? = some mp) :
    splitLoop n v (fuel + 1) ms r p =
      splitLoop n v fuel (ms.set p { mp with amount := calculator.add mp.amount v }) (r.Sub v)
        ((if (p : Int) = n - 1 then 0 else p) + 1) := by
  rw [splitLoop]
  simp [Decimal.IsZero, hr, hp]

theorem replicate_set_head (cur : Option Currency) (x y : Decimal) (p q : Nat) :
    (List.replicate p (Money.mk cur x) ++ List.replicate (q + 1) (Money.mk cur y)).set p (Money.mk cur x) =
      List.replicate (p + 1) (Money.mk cur x) ++ List.replicate q (Money.mk cur y) := by
  rw [List.set_append_right _ _ (by simp)]
  simp only [List.length_replicate, Nat.sub_self, List.replicate_succ, List.set_cons_zero]
  induction p with
  | zero => simp
  | succ p ih => simp only [List.replicate_succ, List.cons_append, ih]

/-- Running the leftover loop on `k` units: the next `k` parties get one unit
each and the loop returns. -/
theorem splitLoop_run (n : Int) (v : Decimal) (hv : v.value ≠ 0) (cur : Option Currency)
    (b : Decimal) :
    ∀ (k fuel p q : Nat) (r : Decimal), r.toRat = (k : ℚ) * v.toRat → k ≤ fuel → k ≤ q →
      ((p + k : Nat) : Int) < n →
      splitLoop n v fuel
        (List.replicate p (Money.mk cur (b.Add v)) ++ List.replicate q (Money.mk cur b)) r p =
      ret (List.replicate (p + k) (Money.mk cur (b.Add v)) ++ List.replicate (q - k) (Money.mk cur b)) := by
  have hv0 : v.toRat ≠ 0 := fun h => hv ((Decimal.toRat_eq_zero_iff v).mp h)
  intro k
  induction k with
  | zero =>
    intro fuel p q r hr _ _ _
    have : r.value = 0 := by
      rw [← Decimal.toRat_eq_zero_iff, hr]
      simp
    rw [splitLoop_zero _ _ _ _ _ _ this]
    simp
  | succ k ih =>
    intro fuel p q r hr hfuel hq hp
    have hrne : r.value ≠ 0 := by
      intro h
      have h0 := (Decimal.toRat_eq_zero_iff r).mpr h
      rw [hr] at h0
      rcases mul_eq_zero.mp h0 with h1 | h1
      · have : ((k + 1 : Nat) : ℚ) ≠ 0 := by positivity
        exact this h1
      · exact hv0 h1
    obtain ⟨fuel1, rfl⟩ : ∃ fuel1, fuel = fuel1 + 1 := ⟨fuel - 1, by omega⟩
    obtain ⟨q1, rfl⟩ : ∃ q1, q = q1 + 1 := ⟨q - 1, by omega⟩
    have hget : (List.replicate p (Money.mk cur (b.Add v)) ++
        List.replicate (q1 + 1) (Money.mk cur b))[p]? = some (Money.mk cur b) := by
      rw [List.getElem?_append_right (by simp)]
      simp [List.replicate_succ]
    rw [splitLoop_succ _ _ _ _ _ _ _ hrne hget]
    have hpn : ¬ ((p : Int) = n - 1) := by
      push_cast at hp
      omega
    simp only [hpn, if_false, calculator.add]
    rw [replicate_set_head]
    have hr1 : (r.Sub v).toRat = (k : ℚ) * v.toRat := by
      rw [Decimal.toRat_Sub, hr]
      push_cast
      ring
    have := ih fuel1 (p + 1) q1 (r.Sub v) hr1 (by omega) (by omega) (by push_cast at hp ⊢; omega)
    rw [this]
    congr 2
    · congr 1
      omega
    · congr 1
      omega

/-- More fuel does not change a result already returned. -/
theorem splitLoop_mono (n : Int) (v : Decimal) :
    ∀ (fuel : Nat) (ms : List Money) (r : Decimal) (p : Nat) (out : List Money) (j : Nat),
      splitLoop n v fuel ms r p = ret out → splitLoop n v (fuel + j) ms r p = ret out := by
  intro fuel
  induction fuel with
  | zero =>
    intro ms r p out j h
    by_cases hr : r.value = 0
    · rw [splitLoop_zero _ _ _ _ _ _ hr] at h ⊢
      exact h
    · rw [splitLoop] at h
      simp [Decimal.IsZero, hr] at h
  | succ fuel ih =>
    intro ms r p out j h
    by_cases hr : r.value = 0
    · rw [splitLoop_zero _ _ _ _ _ _ hr] at h ⊢
      exact h
    · cases hp : ms[p]? with
      | none =>
        rw [splitLoop] at h
        simp [Decimal.IsZero, hr, hp] at h
      | some mp =>
        rw [splitLoop_succ _ _ _ _ _ _ _ hr hp] at h
        have e : fuel + 1 + j = (fuel + j) + 1 := by omega
        rw [e, splitLoop_succ _ _ _ _ _ _ _ hr hp]
        exact ih _ _ _ _ j h

/-- With a zero unit the loop never returns while a remainder is left. -/
theorem splitLoop_unit_zero (n : Int) (v : Decimal) (hv : v.value = 0) :
    ∀ (fuel : Nat) (ms : List Money) (r : Decimal) (p : Nat) (out : List Money),
      r.value ≠ 0 → splitLoop n v fuel ms r p ≠ ret out := by
  have hv0 : v.toRat = 0 := (Decimal.toRat_eq_zero_iff v).mpr hv
  intro fuel
  induction fuel with
  | zero =>
    intro ms r p out hr h
    rw [splitLoop] at h
    simp [Decimal.IsZero, hr] at h
  | succ fuel ih =>
    intro ms r p out hr h
    cases hp : ms[p]? with
    | none =>
      rw [splitLoop] at h
      simp [Decimal.IsZero, hr, hp] at h
    | some mp =>
      rw [splitLoop_succ _ _ _ _ _ _ _ hr hp] at h
      have hr1 : (r.Sub v).value ≠ 0 := by
        intro h0
        have h1 := (Decimal.toRat_eq_zero_iff _).mpr h0
        rw [Decimal.toRat_Sub, hv0, sub_zero] at h1
        exact hr ((Decimal.toRat_eq_zero_iff r).mp h1)
      exact ih _ _ _ _ hr1 h

end Money

theorem leftover_lt (A n : Int) (hn : 0 < n) : (leftover A n : Int) < n := by
  unfold leftover
  rcases le_or_lt 0 A with hA | hA
  · have h1 := Int.tmod_nonneg n hA
    have h2 := Int.tmod_lt_of_pos A hn
    omega
  · have h0 : A.tmod n = -((-A).tmod n) := by
      rw [← tmod_neg_left, neg_neg]
    have h1 := Int.tmod_nonneg n (show 0 ≤ -A by omega)
    have h2 := Int.tmod_lt_of_pos (-A) hn
    omega

theorem tmod_eq_leftover (A n : Int) :
    A.tmod n = if A < 0 then -(leftover A n : Int) else (leftover A n : Int) := by
  unfold leftover
  rcases le_or_lt 0 A with hA | hA
  · have h1 := Int.tmod_nonneg n hA
    have h2 : ¬ A < 0 := by omega
    simp only [h2, if_false]
    omega
  · have h0 : A.tmod n = -((-A).tmod n) := by
      rw [← tmod_neg_left, neg_neg]
    have h1 := Int.tmod_nonneg n (show 0 ≤ -A by omega)
    simp only [hA, if_true]
    omega

theorem unitShare_toRat (A : Int) (f : Nat) (hf : f ≤ 16) :
    (unitShare A f).toRat = (if A < 0 then -1 else 1) * (10 : ℚ) ^ (-(f : Int)) := by
  have h : (10 : ℚ) ^ (-(f : Int)) = (10 : ℚ) ^ (((16 - f : Nat) : Int)) * (10 : ℚ) ^ (-16 : Int) := by
    rw [← zpow_add₀ Decimal.ten_ne_zero]
    congr 1
    omega
  rw [h, zpow_natCast]
  unfold unitShare
  split_ifs <;> simp [Decimal.toRat]

theorem unitShare_value_ne (A : Int) (f : Nat) : (unitShare A f).value ≠ 0 := by
  unfold unitShare
  have := Decimal.ten_pow_pos (16 - f)
  split_ifs <;> simp

theorem whole_neg_iff (d : Decimal) (A : Int) (f : Nat)
    (hA : d.toRat = (A : ℚ) * (10 : ℚ) ^ (-(f : Int))) : d.value < 0 ↔ A < 0 := by
  rw [← Decimal.toRat_neg_iff, hA]
  have hp := Decimal.ten_zpow_pos (-(f : Int))
  constructor
  · intro h
    by_contra hc
    push_neg at hc
    have : (0 : ℚ) ≤ (A : ℚ) := by exact_mod_cast hc
    have := mul_nonneg this hp.le
    linarith
  · intro h
    have : (A : ℚ) < 0 := by exact_mod_cast h
    exact mul_neg_of_neg_of_pos this hp

/-- What `Split` returns on an amount of `A` minor units of a currency with at
most 16 fraction digits: the first `leftover A n` parties get the base share
plus one unit, the others the base share. -/
theorem Split_whole (m : Money) (c : Currency) (A n : Int) (fuel : Nat)
    (hc : m.currency = some c) (hf : c.Fraction ≤ 16) (hn : 0 < n)
    (hA : m.amount.toRat = (A : ℚ) * (10 : ℚ) ^ (-(c.Fraction : Int)))
    (hfuel : leftover A n ≤ fuel) :
    m.Split fuel n =
      ret (some (List.replicate (leftover A n)
          (Money.mk m.currency ((baseShare A n c.Fraction).Add (unitShare A c.Fraction))) ++
        List.replicate (n.toNat - leftover A n)
          (Money.mk m.currency (baseShare A n c.Fraction))), none) := by
  obtain ⟨r, hr1, hr2⟩ := Decimal.modulus_whole m.amount n A c.Fraction hn hA
  have hd := Decimal.divide_whole m.amount n A c.Fraction hn hf hA
  have hu := Decimal.unit_value c.Fraction
  have hneg := whole_neg_iff m.amount A c.Fraction hA
  have hv : (if m.amount.IsNegative then
        (Decimal.mk (if c.Fraction ≤ 16 then 10 ^ (16 - c.Fraction) else 0) (-16)).Neg
      else Decimal.mk (if c.Fraction ≤ 16 then 10 ^ (16 - c.Fraction) else 0) (-16)) =
      unitShare A c.Fraction := by
    unfold unitShare Decimal.IsNegative
    by_cases h : A < 0
    · simp [hneg.mpr h, h, hf, Decimal.Neg]
    · have : ¬ m.amount.value < 0 := fun h1 => h (hneg.mp h1)
      simp [this, h, hf]
  have hnn : ¬ n ≤ 0 := by omega
  have hlt := leftover_lt A n hn
  have hrun := Money.splitLoop_run n (unitShare A c.Fraction) (unitShare_value_ne A c.Fraction)
    m.currency (baseShare A n c.Fraction) (leftover A n) fuel 0 n.toNat r
    (by
      rw [hr2, unitShare_toRat A c.Fraction hf, tmod_eq_leftover]
      split_ifs <;> push_cast <;> ring)
    hfuel (by omega) (by simpa using hlt)
  simp only [List.replicate_zero, List.nil_append, Nat.zero_add] at hrun
  unfold Money.Split
  simp only [hnn, if_false, hc, hd, hr1, hu, Outcome.bind]
  rw [hv]
  simp only [← hc]
  show (Money.splitLoop n (unitShare A c.Fraction) fuel
    (List.replicate n.toNat (Money.mk m.currency (baseShare A n c.Fraction))) r 0).bind _ = _
  rw [hrun]
  rfl

/-- For a positive count and a receiver with a currency, `Split` is its
leftover loop run on `n` copies of a base share. -/
theorem Split_unfold (m : Money) (c : Currency) (n : Int) (hc : m.currency = some c)
    (hn : 0 < n) :
    ∃ b r v : Decimal, (16 < c.Fraction → v.value = 0) ∧
      ∀ fuel : Nat, m.Split fuel n =
        (Money.splitLoop n v fuel (List.replicate n.toNat (Money.mk m.currency b)) r 0).bind
          fun parts => ret (some parts, none) := by
  have hnn : ¬ n ≤ 0 := by omega
  have hd : calculator.divide m.amount (Decimal.NewFromInt n) c.Fraction =
      ret ((Decimal.mk (roundQuot (Decimal.quoNum m.amount 16) (Decimal.quoDen m.amount n 16))
        (-16)).Truncate c.Fraction) := by
    simp only [calculator.divide, Decimal.Div, Decimal.DivisionPrecision,
      Decimal.DivRound_NewFromInt m.amount n 16 hn, Outcome.bind]
  have hr := Decimal.modulus_NewFromInt m.amount n c.Fraction (ne_of_gt hn)
  have hu := Decimal.unit_value c.Fraction
  refine ⟨(Decimal.mk (roundQuot (Decimal.quoNum m.amount 16) (Decimal.quoDen m.amount n 16))
      (-16)).Truncate c.Fraction,
    Decimal.mk ((Decimal.quoNum m.amount c.Fraction).tmod (Decimal.quoDen m.amount n c.Fraction))
      (Decimal.remExp m.amount c.Fraction),
    if m.amount.IsNegative then
      (Decimal.mk (if c.Fraction ≤ 16 then 10 ^ (16 - c.Fraction) else 0) (-16)).Neg
    else Decimal.mk (if c.Fraction ≤ 16 then 10 ^ (16 - c.Fraction) else 0) (-16), ?_,
    fun fuel => ?_⟩
  rotate_left
  · unfold Money.Split
    simp only [hnn, if_false, hc, hd, hr, hu, Outcome.bind]
  · intro h16
    have : ¬ c.Fraction ≤ 16 := by omega
    by_cases hneg : m.amount.IsNegative = true
    · simp [hneg, this, Decimal.Neg]
    · simp [hneg, this]

theorem Split_mono (m : Money) (c : Currency) (n : Int) (hc : m.currency = some c)
    (hn : 0 < n) (fuel j : Nat) (out : Option (List Money) × Option Error)
    (h : m.Split fuel n = ret out) : m.Split (fuel + j) n = ret out := by
  obtain ⟨b, r, v, _, hS⟩ := Split_unfold m c n hc hn
  rw [hS] at h ⊢
  cases hl : Money.splitLoop n v fuel (List.replicate n.toNat (Money.mk m.currency b)) r 0 with
  | ret parts =>
    rw [Money.splitLoop_mono n v fuel _ r 0 parts j hl]
    rw [hl] at h
    exact h
  | panic =>
    rw [hl] at h
    simp [Outcome.bind] at h
  | diverge =>
    rw [hl] at h
    simp [Outcome.bind] at h

/-- C5: Split returns an error together with a nil result exactly when
`n ≤ 0`; for `n > 0` whatever it returns has a nil error and a non-nil result. -/
theorem Split_error_iff (fuel : Nat) (m : Money) (n : Int) :
    ((∃ e : Error, m.Split fuel n = ret (none, some e)) ↔ n ≤ 0) ∧
    (0 < n → ∀ (res : Option (List Money)) (err : Option Error),
      m.Split fuel n = ret (res, err) → err = none ∧ res ≠ none) := by
  have key : 0 < n → ∀ (res : Option (List Money)) (err : Option Error),
      m.Split fuel n = ret (res, err) → err = none ∧ res ≠ none := by
    intro hn res err h
    cases hc : m.currency with
    | none =>
      have hnn : ¬ n ≤ 0 := by omega
      simp [Money.Split, hnn, hc] at h
    | some c =>
      obtain ⟨b, r, v, _, hS⟩ := Split_unfold m c n hc hn
      rw [hS] at h
      cases hl : Money.splitLoop n v fuel (List.replicate n.toNat (Money.mk (some c) b)) r 0 with
      | ret parts =>
        rw [hc, hl] at h
        simp only [Outcome.bind, Outcome.ret.injEq, Prod.mk.injEq] at h
        exact ⟨h.2.symm, by rw [← h.1]; simp⟩
      | panic =>
        rw [hc, hl] at h
        simp [Outcome.bind] at h
      | diverge =>
        rw [hc, hl] at h
        simp [Outcome.bind] at h
  refine ⟨⟨?_, ?_⟩, key⟩
  · rintro ⟨e, he⟩
    by_contra hn
    have := (key (by omega) none (some e) he).1
    simp at this
  · intro hn
    exact ⟨Error.errorsNew "split must be higher than zero", by simp [Money.Split, hn]⟩

theorem Split_error_iff_witness :
    (∃ e : Error, (mk EUR 100 (-2)).Split 0 (-10) = ret (none, some e)) ∧
    (∀ (res : Option (List Money)) (err : Option Error),
      (mk EUR 100 (-2)).Split 3 3 = ret (res, err) → err = none ∧ res ≠ none) ∧
    (mk EUR 100 (-2)).Split 3 3 =
      ret (some [mk EUR 3400000000000000 (-16), mk EUR 33 (-2), mk EUR 33 (-2)], none) :=
  ⟨(Split_error_iff 0 (mk EUR 100 (-2)) (-10)).1.mpr (by decide),
    (Split_error_iff 3 (mk EUR 100 (-2)) 3).2 (by decide), by decide⟩

theorem roundQuot_nonneg (x y : Int) (hx : 0 ≤ x) (hy : 0 < y) : 0 ≤ roundQuot x y := by
  unfold roundQuot
  have := Int.tdiv_nonneg hx hy.le
  split_ifs <;> omega

theorem baseShare_value_nonneg (A n : Int) (f : Nat) (hA : 0 ≤ A) (hn : 0 < n) :
    0 ≤ (baseShare A n f).value := by
  unfold baseShare
  have hK := Decimal.ten_pow_pos (16 - f)
  exact Int.tdiv_nonneg (roundQuot_nonneg _ _ (Int.mul_nonneg hA hK.le) hn) hK.le

theorem baseShare_value_nonpos (A n : Int) (f : Nat) (hA : A ≤ 0) (hn : 0 < n) :
    (baseShare A n f).value ≤ 0 := by
  unfold baseShare
  have hK := Decimal.ten_pow_pos (16 - f)
  have h1 : A * 10 ^ (16 - f) = -((-A) * 10 ^ (16 - f)) := by ring
  have h2 : 0 ≤ (-A) * 10 ^ (16 - f) := Int.mul_nonneg (by omega) hK.le
  rw [h1, roundQuot_neg _ _ h2 hn, Int.neg_tdiv]
  have := Int.tdiv_nonneg (roundQuot_nonneg _ _ h2 hn) hK.le
  simp only [Decimal.mk.injEq] at *
  omega

/-- Below `2 * 10 ^ (16 - f)` parties the base share is the exact truncated
quotient. -/
theorem baseShare_toRat (A n : Int) (f : Nat) (hn : 0 < n) (hnb : n < 2 * 10 ^ (16 - f)) :
    (baseShare A n f).toRat = ((A.tdiv n : Int) : ℚ) * (10 : ℚ) ^ (-(f : Int)) := by
  unfold baseShare
  rw [roundQuot_tdiv A n (10 ^ (16 - f)) hn (Decimal.ten_pow_pos _) hnb]
  rfl

theorem toNat_sub_leftover (A n : Int) (hn : 0 < n) :
    (((n.toNat - leftover A n : Nat) : ℚ)) = (n : ℚ) - (leftover A n : ℚ) := by
  have h := leftover_lt A n hn
  have h1 : leftover A n ≤ n.toNat := by omega
  rw [Nat.cast_sub h1]
  congr 1
  have : ((n.toNat : Int) : ℚ) = (n : ℚ) := by
    rw [Int.toNat_of_nonneg hn.le]
  exact_mod_cast this

/-- The exact split: with at most 16 fraction digits and fewer than
`2 * 10 ^ (16 - f)` parties, `Split` of `A` minor units returns `n` parts of
the receiver's currency that sum to the amount, each the truncated quotient or
that plus one signed minor unit. -/
theorem Split_exact (m : Money) (c : Currency) (A n : Int) (fuel : Nat)
    (hc : m.currency = some c) (hf : c.Fraction ≤ 16) (hn : 0 < n)
    (hnb : n < 2 * 10 ^ (16 - c.Fraction))
    (hA : m.amount.toRat = (A : ℚ) * (10 : ℚ) ^ (-(c.Fraction : Int)))
    (hfuel : n.toNat ≤ fuel) :
    ∃ parts : List Money, m.Split fuel n = ret (some parts, none) ∧ parts.length = n.toNat ∧
      (parts.map fun p => p.amount.toRat).sum = m.amount.toRat ∧
      ∀ x ∈ parts, x.currency = m.currency ∧
        (x.amount.toRat = ((A.tdiv n : Int) : ℚ) * (10 : ℚ) ^ (-(c.Fraction : Int)) ∨
         x.amount.toRat = ((A.tdiv n : Int) : ℚ) * (10 : ℚ) ^ (-(c.Fraction : Int)) +
            (if A < 0 then -1 else 1) * (10 : ℚ) ^ (-(c.Fraction : Int))) := by
  have hlt := leftover_lt A n hn
  have hS := Split_whole m c A n fuel hc hf hn hA (by omega)
  have hb := baseShare_toRat A n c.Fraction hn hnb
  have hu := unitShare_toRat A c.Fraction hf
  refine ⟨_, hS, ?_, ?_, ?_⟩
  · simp only [List.length_append, List.length_replicate]
    omega
  · simp only [List.map_append, List.map_replicate, List.sum_append, List.sum_replicate,
      nsmul_eq_mul, Decimal.toRat_Add, hb, hu, hA]
    rw [toNat_sub_leftover A n hn]
    have h1 := Int.tdiv_add_tmod A n
    have h2 := tmod_eq_leftover A n
    have h3 : (A : ℚ) = (n : ℚ) * ((A.tdiv n : Int) : ℚ) + ((A.tmod n : Int) : ℚ) := by
      exact_mod_cast h1.symm
    rw [h3, h2]
    split_ifs <;> push_cast <;> ring
  · intro x hx
    rcases List.mem_append.mp hx with h | h
    · rw [List.eq_of_mem_replicate h]
      exact ⟨rfl, Or.inr (by simp only [Decimal.toRat_Add, hb, hu])⟩
    · rw [List.eq_of_mem_replicate h]
      exact ⟨rfl, Or.inl hb⟩

/-- Within the division precision of the engine the split leaks nothing: for a
positive amount that is a whole number `A` of minor units of a currency with
`f ≤ 16` fraction digits, and `0 < n < 2 * 10 ^ (16 - f)`, Split returns `n`
parts whose amounts sum to exactly the amount, any two parts differing by at
most one minor unit `10 ^ (-f)`. -/
theorem Split_zero_leak (m : Money) (c : Currency) (A n : Int) (fuel : Nat)
    (hc : m.currency = some c) (hf : c.Fraction ≤ 16) (hn : 0 < n)
    (hnb : n < 2 * 10 ^ (16 - c.Fraction))
    (hA : m.amount.toRat = (A : ℚ) * (10 : ℚ) ^ (-(c.Fraction : Int))) (hpos : 0 < A)
    (hfuel : n.toNat ≤ fuel) :
    ∃ parts : List Money, m.Split fuel n = ret (some parts, none) ∧ parts.length = n.toNat ∧
      (parts.map fun p => p.amount.toRat).sum = m.amount.toRat ∧
      ∀ x ∈ parts, ∀ y ∈ parts,
        |x.amount.toRat - y.amount.toRat| ≤ (10 : ℚ) ^ (-(c.Fraction : Int)) := by
  obtain ⟨parts, h1, h2, h3, h4⟩ := Split_exact m c A n fuel hc hf hn hnb hA hfuel
  refine ⟨parts, h1, h2, h3, ?_⟩
  intro x hx y hy
  have hp := Decimal.ten_zpow_pos (-(c.Fraction : Int))
  have hA0 : ¬ A < 0 := by omega
  simp only [hA0, if_false, one_mul] at h4
  rcases (h4 x hx).2 with hx1 | hx1 <;> rcases (h4 y hy).2 with hy1 | hy1 <;>
    rw [hx1, hy1, abs_le] <;> constructor <;> linarith

/-- Within the division precision of the engine, the split of a negative amount
is exact: for a whole number `A < 0` of minor units, with `f ≤ 16` fraction
digits and `0 < n < 2 * 10 ^ (16 - f)`, Split returns parts that all carry the
receiver's currency, are all `≤ 0`, sum to exactly the amount, and each equal
the truncated quotient or that plus one unit of `-10 ^ (-f)`. -/
theorem Split_negative (m : Money) (c : Currency) (A n : Int) (fuel : Nat)
    (hc : m.currency = some c) (hf : c.Fraction ≤ 16) (hn : 0 < n)
    (hnb : n < 2 * 10 ^ (16 - c.Fraction))
    (hA : m.amount.toRat = (A : ℚ) * (10 : ℚ) ^ (-(c.Fraction : Int))) (hneg : A < 0)
    (hfuel : n.toNat ≤ fuel) :
    ∃ parts : List Money, m.Split fuel n = ret (some parts, none) ∧
      (parts.map fun p => p.amount.toRat).sum = m.amount.toRat ∧
      ∀ x ∈ parts, x.currency = m.currency ∧ x.amount.toRat ≤ 0 ∧
        (x.amount.toRat = ((A.tdiv n : Int) : ℚ) * (10 : ℚ) ^ (-(c.Fraction : Int)) ∨
         x.amount.toRat = ((A.tdiv n : Int) : ℚ) * (10 : ℚ) ^ (-(c.Fraction : Int)) -
            (10 : ℚ) ^ (-(c.Fraction : Int))) := by
  obtain ⟨parts, h1, _, h3, h4⟩ := Split_exact m c A n fuel hc hf hn hnb hA hfuel
  refine ⟨parts, h1, h3, ?_⟩
  intro x hx
  have hp := Decimal.ten_zpow_pos (-(c.Fraction : Int))
  simp only [hneg, if_true] at h4
  have hq : ((A.tdiv n : Int) : ℚ) ≤ 0 := by
    have h0 : A.tdiv n ≤ 0 := by
      have h5 : A = -(-A) := by ring
      rw [h5, Int.neg_tdiv]
      have := Int.tdiv_nonneg (show 0 ≤ -A by omega) hn.le
      omega
    exact_mod_cast h0
  have hb : ((A.tdiv n : Int) : ℚ) * (10 : ℚ) ^ (-(c.Fraction : Int)) ≤ 0 :=
    mul_nonpos_of_nonpos_of_nonneg hq hp.le
  refine ⟨(h4 x hx).1, ?_, ?_⟩
  · rcases (h4 x hx).2 with h | h <;> rw [h] <;> linarith
  · rcases (h4 x hx).2 with h | h
    · exact Or.inl h
    · exact Or.inr (by rw [h]; ring)

theorem toRat_nonpos_of_value (d : Decimal) (h : d.value ≤ 0) : d.toRat ≤ 0 := by
  by_contra hc
  push_neg at hc
  have := (Decimal.toRat_pos_iff d).mp hc
  omega

theorem toRat_nonneg_of_value (d : Decimal) (h : 0 ≤ d.value) : 0 ≤ d.toRat := by
  by_contra hc
  push_neg at hc
  have := (Decimal.toRat_neg_iff d).mp hc
  omega

/-- The party with the extra unit holds at least as much, in magnitude, as one
without. -/
theorem abs_baseShare_le (A n : Int) (f : Nat) (hf : f ≤ 16) (hn : 0 < n) :
    |(baseShare A n f).toRat| ≤ |((baseShare A n f).Add (unitShare A f)).toRat| := by
  rw [Decimal.toRat_Add, unitShare_toRat A f hf]
  have hp := Decimal.ten_zpow_pos (-(f : Int))
  by_cases hA : A < 0
  · have hb := toRat_nonpos_of_value _ (baseShare_value_nonpos A n f hA.le hn)
    simp only [hA, if_true]
    rw [abs_of_nonpos hb, abs_of_nonpos (by linarith)]
    linarith
  · have hb := toRat_nonneg_of_value _ (baseShare_value_nonneg A n f (by omega) hn)
    simp only [hA, if_false]
    rw [abs_of_nonneg hb, abs_of_nonneg (by linarith)]
    linarith

/-- In a list of `k` copies of `x` followed by copies of `y`, an earlier entry
is `x` or both entries are `y`. -/
theorem replicate_append_pair {α : Type} (x y : α) (k q i j : Nat) (a b : α) (hij : i < j)
    (ha : (List.replicate k x ++ List.replicate q y)[i]? = some a)
    (hb : (List.replicate k x ++ List.replicate q y)[j]? = some b) :
    (a = x ∧ (b = x ∨ b = y)) ∨ (a = y ∧ b = y) := by
  have hbm : b = x ∨ b = y := by
    have := List.getElem?_mem hb
    rcases List.mem_append.mp this with h | h
    · exact Or.inl (List.eq_of_mem_replicate h)
    · exact Or.inr (List.eq_of_mem_replicate h)
  by_cases hi : i < k
  · left
    rw [List.getElem?_append_left (by simpa using hi)] at ha
    exact ⟨List.eq_of_mem_replicate (List.getElem?_mem ha), hbm⟩
  · right
    rw [List.getElem?_append_right (by simp; omega)] at ha hb
    exact ⟨List.eq_of_mem_replicate (List.getElem?_mem ha),
      List.eq_of_mem_replicate (List.getElem?_mem hb)⟩

/-- C3: for an amount that is a whole number `A` of minor units and `n > 0`,
in whatever Split returns the magnitude of an earlier part is at least that of
a later part; and with at most 16 fraction digits Split does return `n` parts. -/
theorem Split_earlier_parties_not_fewer (m : Money) (c : Currency) (A n : Int)
    (hc : m.currency = some c) (hn : 0 < n)
    (hA : m.amount.toRat = (A : ℚ) * (10 : ℚ) ^ (-(c.Fraction : Int))) :
    (∀ (fuel : Nat) (parts : List Money), m.Split fuel n = ret (some parts, none) →
      ∀ (i j : Nat) (x y : Money), i < j → parts[i]? = some x → parts[j]? = some y →
        |y.amount.toRat| ≤ |x.amount.toRat|) ∧
    (c.Fraction ≤ 16 → ∀ fuel : Nat, n.toNat ≤ fuel →
      ∃ parts : List Money, m.Split fuel n = ret (some parts, none) ∧
        parts.length = n.toNat) := by
  have hlt := leftover_lt A n hn
  constructor
  · intro fuel parts hS i j x y hij hx hy
    by_cases hf : c.Fraction ≤ 16
    · have h1 := Split_mono m c n hc hn fuel (leftover A n) _ hS
      rw [Split_whole m c A n (fuel + leftover A n) hc hf hn hA (by omega)] at h1
      simp only [Outcome.ret.injEq, Prod.mk.injEq, Option.some.injEq, and_true] at h1
      rw [← h1] at hx hy
      rcases replicate_append_pair _ _ _ _ i j x y hij hx hy with ⟨h2, h3 | h3⟩ | ⟨h2, h3⟩
      · rw [h2, h3]
      · rw [h2, h3]
        exact abs_baseShare_le A n c.Fraction hf hn
      · rw [h2, h3]
    · obtain ⟨b, r, v, hv, hU⟩ := Split_unfold m c n hc hn
      rw [hU] at hS
      by_cases hr : r.value = 0
      · rw [Money.splitLoop_zero _ _ _ _ _ _ hr] at hS
        simp only [Outcome.bind, Outcome.ret.injEq, Prod.mk.injEq, Option.some.injEq,
          and_true] at hS
        rw [← hS] at hx hy
        rw [List.eq_of_mem_replicate (List.getElem?_mem hx),
          List.eq_of_mem_replicate (List.getElem?_mem hy)]
      · exfalso
        have hno := Money.splitLoop_unit_zero n v (hv (by omega)) fuel
          (List.replicate n.toNat (Money.mk m.currency b)) r 0
        cases hl : Money.splitLoop n v fuel (List.replicate n.toNat (Money.mk m.currency b)) r 0 with
        | ret out => exact hno out hr hl
        | panic =>
          rw [hl] at hS
          simp [Outcome.bind] at hS
        | diverge =>
          rw [hl] at hS
          simp [Outcome.bind] at hS
  · intro hf fuel hfuel
    refine ⟨_, Split_whole m c A n fuel hc hf hn hA (by omega), ?_⟩
    simp only [List.length_append, List.length_replicate]
    omega

/-- With two parties, a unit of `10 ^ 14` at exponent -16 and a remainder below
zero at that exponent, the loop runs out of any fuel: the remainder only moves
away from zero while the index stays on the second party. -/
theorem splitLoop_two_never (fuel : Nat) :
    ∀ (ms : List Money) (r : Decimal), ms.length = 2 → r.exp = -16 → r.value < 0 →
      Money.splitLoop 2 (Decimal.mk (10 ^ 14) (-16)) fuel ms r 1 = diverge := by
  induction fuel with
  | zero =>
    intro ms r _ _ hr
    rw [Money.splitLoop]
    have : r.value ≠ 0 := by omega
    simp [Decimal.IsZero, this]
  | succ fuel ih =>
    intro ms r hlen hexp hr
    have hne : r.value ≠ 0 := by omega
    obtain ⟨mp, hmp⟩ : ∃ mp, ms[1]? = some mp := by
      have h1 : 1 < ms.length := by omega
      exact ⟨ms[1], List.getElem?_eq_getElem h1⟩
    rw [Money.splitLoop_succ _ _ _ _ _ _ _ hne hmp]
    have hp : ((if ((1 : Nat) : Int) = 2 - 1 then 0 else 1) + 1 : Nat) = 1 := by decide
    rw [hp]
    apply ih
    · simpa using hlen
    · simp [Decimal.Sub, Decimal.RescalePair, hexp]
    · simp only [Decimal.Sub, Decimal.RescalePair, hexp, lt_self_iff_false, if_false,
        gt_iff_lt]
      omega

/-- C2 (evaluation at the failing inputs): on 1.005 EUR split two ways the
leftover loop never reaches a zero remainder, whatever the fuel; on -0.125 EUR
split one way the second iteration indexes party 1 of a one-element slice. -/
theorem Split_excess_digits_no_result :
    (∀ fuel : Nat, (mk EUR 1005 (-3)).Split fuel 2 = diverge) ∧
    (∀ fuel : Nat, (mk EUR (-125) (-3)).Split (fuel + 2) 1 = Outcome.panic) := by
  constructor
  · intro fuel
    have hd : calculator.divide (mk EUR 1005 (-3)).amount (Decimal.NewFromInt 2) EUR.Fraction =
        ret (Decimal.mk 50 (-2)) := by decide
    have hr : calculator.modulus (mk EUR 1005 (-3)).amount (Decimal.NewFromInt 2) EUR.Fraction =
        ret (Decimal.mk 5 (-3)) := by decide
    have hu : one.Div ((Decimal.NewFromInt 10).Pow EUR.Fraction) =
        ret (Decimal.mk (10 ^ 14) (-16)) := by decide
    have hneg : (mk EUR 1005 (-3)).amount.IsNegative = false := by decide
    have hcur : (mk EUR 1005 (-3)).currency = some EUR := rfl
    unfold Money.Split
    simp only [show ¬ ((2 : Int) ≤ 0) by decide, if_false, hcur, hd, hr, hu, hneg, Outcome.bind,
      Bool.false_eq_true]
    cases fuel with
    | zero => decide
    | succ fuel =>
      have h0 : (List.replicate (2 : Int).toNat (Money.mk (some EUR) (Decimal.mk 50 (-2))))[0]? =
          some (Money.mk (some EUR) (Decimal.mk 50 (-2))) := by decide
      rw [Money.splitLoop_succ _ _ _ _ _ _ _ (by decide) h0]
      have hp : ((if ((0 : Nat) : Int) = 2 - 1 then 0 else 0) + 1 : Nat) = 1 := by decide
      rw [hp, splitLoop_two_never fuel _ _ (by simp) (by decide) (by decide)]
  · intro fuel
    have hd : calculator.divide (mk EUR (-125) (-3)).amount (Decimal.NewFromInt 1) EUR.Fraction =
        ret (Decimal.mk (-12) (-2)) := by decide
    have hr : calculator.modulus (mk EUR (-125) (-3)).amount (Decimal.NewFromInt 1) EUR.Fraction =
        ret (Decimal.mk (-5) (-3)) := by decide
    have hu : one.Div ((Decimal.NewFromInt 10).Pow EUR.Fraction) =
        ret (Decimal.mk (10 ^ 14) (-16)) := by decide
    have hneg : (mk EUR (-125) (-3)).amount.IsNegative = true := by decide
    have hcur : (mk EUR (-125) (-3)).currency = some EUR := rfl
    unfold Money.Split
    simp only [show ¬ ((1 : Int) ≤ 0) by decide, if_false, hcur, hd, hr, hu, hneg, Outcome.bind,
      if_true]
    have h0 : (List.replicate (1 : Int).toNat (Money.mk (some EUR) (Decimal.mk (-12) (-2))))[0]? =
        some (Money.mk (some EUR) (Decimal.mk (-12) (-2))) := by decide
    rw [Money.splitLoop_succ _ _ _ _ _ _ _ (by decide) h0]
    have hp : ((if ((0 : Nat) : Int) = 1 - 1 then 0 else 0) + 1 : Nat) = 1 := by decide
    rw [hp, Money.splitLoop]
    have hz : ((Decimal.mk (-5) (-3)).Sub (Decimal.mk (10 ^ 14) (-16)).Neg).IsZero = false := by
      decide
    have hnone : ((List.replicate (1 : Int).toNat
        (Money.mk (some EUR) (Decimal.mk (-12) (-2)))).set 0
          { currency := some EUR,
            amount := calculator.add (Decimal.mk (-12) (-2)) (Decimal.mk (10 ^ 14) (-16)).Neg })[1]?
        = none := by decide
    simp only [hz, Bool.false_eq_true, if_false, hnone]

/-- C1 (evaluation at the failing inputs): with sixteen fraction digits, one
minor unit split two ways comes back as two units and one unit, which do not
sum to the amount; and the positive amount 0.125 EUR, which is not a whole
number of cents, split one way gives no parts at all: the second iteration
indexes past the slice. -/
theorem Split_leaks_at_failing_inputs :
    (mk FINE 1 (-16)).Split 2 2 = ret (some [mk FINE 2 (-16), mk FINE 1 (-16)], none) ∧
    ([mk FINE 2 (-16), mk FINE 1 (-16)].map fun p => p.amount.toRat).sum ≠
      (mk FINE 1 (-16)).amount.toRat ∧
    (∀ fuel : Nat, (mk EUR 125 (-3)).Split (fuel + 2) 1 = Outcome.panic) := by
  refine ⟨by decide, ?_, ?_⟩
  · norm_num [mk, Decimal.toRat]
  · intro fuel
    have hd : calculator.divide (mk EUR 125 (-3)).amount (Decimal.NewFromInt 1) EUR.Fraction =
        ret (Decimal.mk 12 (-2)) := by decide
    have hr : calculator.modulus (mk EUR 125 (-3)).amount (Decimal.NewFromInt 1) EUR.Fraction =
        ret (Decimal.mk 5 (-3)) := by decide
    have hu : one.Div ((Decimal.NewFromInt 10).Pow EUR.Fraction) =
        ret (Decimal.mk (10 ^ 14) (-16)) := by decide
    have hneg : (mk EUR 125 (-3)).amount.IsNegative = false := by decide
    have hcur : (mk EUR 125 (-3)).currency = some EUR := rfl
    unfold Money.Split
    simp only [show ¬ ((1 : Int) ≤ 0) by decide, if_false, hcur, hd, hr, hu, hneg, Outcome.bind,
      Bool.false_eq_true]
    have h0 : (List.replicate (1 : Int).toNat (Money.mk (some EUR) (Decimal.mk 12 (-2))))[0]? =
        some (Money.mk (some EUR) (Decimal.mk 12 (-2))) := by decide
    rw [Money.splitLoop_succ _ _ _ _ _ _ _ (by decide) h0]
    have hp : ((if ((0 : Nat) : Int) = 1 - 1 then 0 else 0) + 1 : Nat) = 1 := by decide
    rw [hp, Money.splitLoop]
    have hz : ((Decimal.mk 5 (-3)).Sub (Decimal.mk (10 ^ 14) (-16))).IsZero = false := by
      decide
    have hnone : ((List.replicate (1 : Int).toNat
        (Money.mk (some EUR) (Decimal.mk 12 (-2)))).set 0
          { currency := some EUR,
            amount := calculator.add (Decimal.mk 12 (-2)) (Decimal.mk (10 ^ 14) (-16)) })[1]?
        = none := by decide
    simp only [hz, Bool.false_eq_true, if_false, hnone]

theorem Split_zero_leak_example :
    ∃ parts : List Money, (mk EUR 100 (-2)).Split 3 3 = ret (some parts, none) ∧
      parts.length = (3 : Int).toNat ∧
      (parts.map fun p => p.amount.toRat).sum = (mk EUR 100 (-2)).amount.toRat ∧
      ∀ x ∈ parts, ∀ y ∈ parts,
        |x.amount.toRat - y.amount.toRat| ≤ (10 : ℚ) ^ (-(EUR.Fraction : Int)) :=
  Split_zero_leak (mk EUR 100 (-2)) EUR 100 3 3 rfl (by decide) (by decide) (by decide)
    (by norm_num [mk, Decimal.toRat, EUR]) (by decide) (by decide)

theorem Split_earlier_parties_not_fewer_witness :
    (∀ (i j : Nat) (x y : Money), i < j →
      [mk GBP 6700000000000000 (-16), mk GBP 6700000000000000 (-16), mk GBP 66 (-2)][i]? =
        some x →
      [mk GBP 6700000000000000 (-16), mk GBP 6700000000000000 (-16), mk GBP 66 (-2)][j]? =
        some y →
      |y.amount.toRat| ≤ |x.amount.toRat|) ∧
    (∃ parts : List Money, (mk GBP 200 (-2)).Split 3 3 = ret (some parts, none) ∧
      parts.length = (3 : Int).toNat) :=
  have h := Split_earlier_parties_not_fewer (mk GBP 200 (-2)) GBP 200 3 rfl (by decide)
    (by norm_num [mk, Decimal.toRat, GBP])
  ⟨h.1 3 _ (by decide), h.2 (by decide) 3 (by decide)⟩

/-- C4 (evaluation at the failing input): with sixteen fraction digits, minus
one minor unit split two ways comes back as minus two units and minus one unit,
which do not sum to the amount: the base share is rounded by `Div` where the
remainder assumes a truncated quotient. -/
theorem Split_negative_sixteen_digits :
    (mk FINE (-1) (-16)).Split 2 2 =
      ret (some [mk FINE (-2) (-16), mk FINE (-1) (-16)], none) ∧
    ([mk FINE (-2) (-16), mk FINE (-1) (-16)].map fun p => p.amount.toRat).sum ≠
      (mk FINE (-1) (-16)).amount.toRat := by
  refine ⟨by decide, ?_⟩
  norm_num [mk, Decimal.toRat]

/-- The exact split of -0.02 EUR three ways. -/
theorem Split_negative_exact_example :
    ∃ parts : List Money, (mk EUR (-2) (-2)).Split 3 3 = ret (some parts, none) ∧
      (parts.map fun p => p.amount.toRat).sum = (mk EUR (-2) (-2)).amount.toRat ∧
      ∀ x ∈ parts, x.currency = (mk EUR (-2) (-2)).currency ∧ x.amount.toRat ≤ 0 ∧
        (x.amount.toRat = (((-2 : Int).tdiv 3 : Int) : ℚ) * (10 : ℚ) ^ (-(EUR.Fraction : Int)) ∨
         x.amount.toRat = (((-2 : Int).tdiv 3 : Int) : ℚ) * (10 : ℚ) ^ (-(EUR.Fraction : Int)) -
            (10 : ℚ) ^ (-(EUR.Fraction : Int))) :=
  Split_negative (mk EUR (-2) (-2)) EUR (-2) 3 3 rfl (by decide) (by decide) (by decide)
    (by norm_num [mk, Decimal.toRat, EUR]) (by decide) (by decide)

theorem Add_Subtract_same_currency_witness :
    (∃ r : Money, (mk EUR 5 0).Add sampleGet [mk EUR 5 0, mk EUR 3 0] = ret (some r, none) ∧
      r.currency = (mk EUR 5 0).currency ∧
      r.amount.toRat = (mk EUR 5 0).amount.toRat +
        ([mk EUR 5 0, mk EUR 3 0].map fun o => o.amount.toRat).sum) ∧
    (∃ r : Money, (mk EUR 5 0).Subtract sampleGet [mk EUR 5 0, mk EUR 3 0] = ret (some r, none) ∧
      r.currency = (mk EUR 5 0).currency ∧
      r.amount.toRat = (mk EUR 5 0).amount.toRat -
        ([mk EUR 5 0, mk EUR 3 0].map fun o => o.amount.toRat).sum) :=
  Add_Subtract_same_currency sampleGet (mk EUR 5 0) EUR [mk EUR 5 0, mk EUR 3 0] rfl (by decide)
    (by decide)
    (by
      intro o ho
      simp only [List.mem_cons, List.mem_singleton, List.not_mem_nil, or_false] at ho
      rcases ho with h | h <;> exact ⟨EUR, by rw [h]; rfl, rfl⟩)

theorem Add_Subtract_mismatch_witness :
    (mk EUR 100 0).Add sampleGet [mk EUR 1 0, mk GBP 100 0] =
      ret (none, some Error.ErrCurrencyMismatch) ∧
    (mk EUR 100 0).Subtract sampleGet [mk EUR 1 0, mk GBP 100 0] =
      ret (none, some Error.ErrCurrencyMismatch) :=
  Add_Subtract_mismatch sampleGet (mk EUR 100 0) EUR [mk EUR 1 0, mk GBP 100 0] rfl (by decide)
    (by
      intro o ho hnone
      simp only [List.mem_cons, List.mem_singleton, List.not_mem_nil, or_false] at ho
      rcases ho with h | h <;> rw [h] at hnone <;> simp [mk] at hnone)
    ⟨mk GBP 100 0, by simp, by decide, GBP, rfl, by decide⟩

/-! ## Add and Subtract: zero operands, empty accumulators -/

/-- C13: with no operands, Add and Subtract return the receiver itself and a
nil error, for every Money. -/
theorem Add_Subtract_no_operands (get : String → Currency) (m : Money) :
    m.Add get [] = ret (some m, none) ∧ m.Subtract get [] = ret (some m, none) := by
  constructor <;> rfl

theorem find_hasCode_none (ms : List Money) (hall : ∀ o ∈ ms, o.hasCode = false) :
    ms.find? Money.hasCode = none := by
  rw [List.find?_eq_none]
  intro o ho
  simp [hall o ho]

theorem startK_none (get : String → Currency) (m : Money) (ms : List Money)
    (hm : m.hasCode = false) (hall : ∀ o ∈ ms, o.hasCode = false) :
    Money.startK get m ms = none := by
  have hf := find_hasCode_none ms hall
  unfold Money.startK
  cases hc : m.currency with
  | none => simp [hf]
  | some c =>
    have : c.Code = "" := by
      simpa [Money.hasCode, hc] using hm
    simp [this, hf]

/-- C14: a receiver without a set currency (nil, or empty code) and a non-empty
operand list in which no operand has a set currency: Add and Subtract return a
nil result and the error "no currency found". -/
theorem Add_Subtract_no_currency (get : String → Currency) (m : Money) (ms : List Money)
    (hm : m.hasCode = false) (hne : ms ≠ []) (hall : ∀ o ∈ ms, o.hasCode = false) :
    m.Add get ms = ret (none, some (Error.errorsNew "no currency found")) ∧
    m.Subtract get ms = ret (none, some (Error.errorsNew "no currency found")) := by
  have hk := startK_none get m ms hm hall
  have hlen : ms.length ≠ 0 := by simpa using hne
  constructor
  · simp [Money.Add, hlen, hk]
  · simp [Money.Subtract, hlen, hk]

theorem Add_Subtract_no_currency_witness :
    (Money.mk none (Decimal.NewFromInt 0)).Add sampleGet
        [Money.mk none (Decimal.NewFromInt 7), Money.Zero sampleGet] =
      ret (none, some (Error.errorsNew "no currency found")) ∧
    (Money.Zero sampleGet).Subtract sampleGet [Money.Zero sampleGet] =
      ret (none, some (Error.errorsNew "no currency found")) :=
  ⟨(Add_Subtract_no_currency sampleGet (Money.mk none (Decimal.NewFromInt 0))
      [Money.mk none (Decimal.NewFromInt 7), Money.Zero sampleGet] rfl (by decide)
      (by decide)).1,
   (Add_Subtract_no_currency sampleGet (Money.Zero sampleGet) [Money.Zero sampleGet] (by decide)
      (by decide) (by decide)).2⟩

/-- With every non-zero operand of the receiver's code the loop adds every
amount to `k`: the zero operands are skipped whatever their currency. -/
theorem sumOperands_nonzero_same (m : Money) (c : Currency) (hc : m.currency = some c) :
    ∀ (ms : List Money) (k : Amount),
      (∀ o ∈ ms, o.amount.value ≠ 0 → ∃ oc, o.currency = some oc ∧ oc.Code = c.Code) →
      ∃ k1 : Amount, Money.sumOperands m ms k = ret (k1, none) ∧
        k1.toRat = k.toRat + (ms.map fun o => o.amount.toRat).sum := by
  intro ms
  induction ms with
  | nil =>
    intro k _
    exact ⟨k, by simp [Money.sumOperands]⟩
  | cons o rest ih =>
    intro k hall
    have hrest : ∀ o1 ∈ rest, o1.amount.value ≠ 0 →
        ∃ oc, o1.currency = some oc ∧ oc.Code = c.Code :=
      fun o1 h1 => hall o1 (List.mem_cons_of_mem _ h1)
    by_cases hz : o.amount.value = 0
    · obtain ⟨k1, h1, h2⟩ := ih k hrest
      refine ⟨k1, by simp [Money.sumOperands, Money.IsZero, Decimal.IsZero, hz, h1], ?_⟩
      have h0 : o.amount.toRat = 0 := (Decimal.toRat_eq_zero_iff _).mpr hz
      simp [h2, h0]
    · obtain ⟨oc, ho, hoc⟩ := hall o (List.mem_cons_self _ _) hz
      obtain ⟨k1, h1, h2⟩ := ih (calculator.add k o.amount) hrest
      have ha := Money.assertSameCurrency_of_eq m o c oc hc ho hoc.symm
      refine ⟨k1, by simp [Money.sumOperands, Money.IsZero, Decimal.IsZero, hz, ha,
        Outcome.bind, h1], ?_⟩
      rw [h2]
      simp only [calculator.add, Decimal.toRat_Add, List.map_cons, List.sum_cons]
      ring

/-- C11 (counterexample): adding 0 USD to 5 EUR, or subtracting it, does not
fail: the zero operand is skipped and 5 EUR comes back without error. -/
theorem Add_zero_other_currency_counterexample :
    (mk EUR 5 0).Add sampleGet [mk USD 0 0] = ret (some (mk EUR 5 0), none) ∧
    (mk EUR 5 0).Subtract sampleGet [mk USD 0 0] = ret (some (mk EUR 5 0), none) := by
  constructor <;> decide

/-- C11 (amended): Add and Subtract ignore an operand exactly when its amount
is zero, whatever its currency.  For a receiver with a set currency and a
non-empty operand list: when every operand with a non-zero amount carries the
receiver's code, they return the receiver's amount plus (minus) the sum of the
operands, in the receiver's currency and without error; when some operand with
a non-zero amount carries another code, they return a nil result and
ErrCurrencyMismatch. -/
theorem Add_Subtract_skip_zero (get : String → Currency) (m : Money) (c : Currency)
    (ms : List Money) (hc : m.currency = some c) (hcode : c.Code ≠ "") (hne : ms ≠ [])
    (hwf : ∀ o ∈ ms, o.currency = none → o.amount.value = 0) :
    ((∀ o ∈ ms, o.amount.value ≠ 0 → ∃ oc, o.currency = some oc ∧ oc.Code = c.Code) →
      (∃ r : Money, m.Add get ms = ret (some r, none) ∧ r.currency = m.currency ∧
        r.amount.toRat = m.amount.toRat + (ms.map fun o => o.amount.toRat).sum) ∧
      (∃ r : Money, m.Subtract get ms = ret (some r, none) ∧ r.currency = m.currency ∧
        r.amount.toRat = m.amount.toRat - (ms.map fun o => o.amount.toRat).sum)) ∧
    ((∃ o ∈ ms, o.amount.value ≠ 0 ∧ ∃ oc, o.currency = some oc ∧ oc.Code ≠ c.Code) →
      m.Add get ms = ret (none, some Error.ErrCurrencyMismatch) ∧
      m.Subtract get ms = ret (none, some Error.ErrCurrencyMismatch)) := by
  have hk := Money.startK_of_code get m c ms hc hcode
  have hlen : ms.length ≠ 0 := by simpa using hne
  constructor
  · intro hall
    obtain ⟨k1, h1, h2⟩ := sumOperands_nonzero_same m c hc ms (Decimal.NewFromInt 0) hall
    have h0 : (Decimal.NewFromInt 0).toRat = 0 := by simp [Decimal.toRat_NewFromInt]
    rw [h0, zero_add] at h2
    constructor
    · refine ⟨{ amount := calculator.add m.amount k1, currency := m.currency }, ?_, rfl, ?_⟩
      · simp [Money.Add, hlen, hk, New, h1, Outcome.bind]
      · simp [calculator.add, Decimal.toRat_Add, h2]
    · refine ⟨{ amount := calculator.subtract m.amount k1, currency := m.currency }, ?_, rfl, ?_⟩
      · simp [Money.Subtract, hlen, hk, New, h1, Outcome.bind]
      · simp [calculator.subtract, Decimal.toRat_Sub, h2]
  · intro hbad
    obtain ⟨k1, h1⟩ := Money.sumOperands_mismatch m c hc ms (Decimal.NewFromInt 0) hwf hbad
    constructor
    · simp [Money.Add, hlen, hk, New, h1, Outcome.bind]
    · simp [Money.Subtract, hlen, hk, New, h1, Outcome.bind]

theorem Add_Subtract_skip_zero_witness :
    (∃ r : Money, (mk EUR 5 0).Add sampleGet [mk USD 0 0, mk EUR 3 0] = ret (some r, none) ∧
      r.currency = (mk EUR 5 0).currency ∧
      r.amount.toRat = (mk EUR 5 0).amount.toRat +
        ([mk USD 0 0, mk EUR 3 0].map fun o => o.amount.toRat).sum) ∧
    ((mk EUR 5 0).Subtract sampleGet [mk USD 0 0, mk USD 1 0] =
      ret (none, some Error.ErrCurrencyMismatch)) :=
  ⟨((Add_Subtract_skip_zero sampleGet (mk EUR 5 0) EUR [mk USD 0 0, mk EUR 3 0] rfl (by decide)
      (by decide) (by decide)).1 (by decide)).1,
   ((Add_Subtract_skip_zero sampleGet (mk EUR 5 0) EUR [mk USD 0 0, mk USD 1 0] rfl (by decide)
      (by decide) (by decide)).2 (by decide)).2⟩

/-- C12 (evaluation at the failing inputs): adding 5 EUR to the empty
accumulator `Zero` returns a nil result and ErrCurrencyMismatch; adding it to
the zero value `Money{}` dereferences the nil currency and panics; and adding
0 EUR to `Zero` succeeds, but the result keeps the empty code of the receiver. -/
theorem Add_empty_accumulator_fails :
    (Money.Zero sampleGet).Add sampleGet [mk EUR 5 0] =
      ret (none, some Error.ErrCurrencyMismatch) ∧
    (Money.mk none (Decimal.NewFromInt 0)).Add sampleGet [mk EUR 5 0] = Outcome.panic ∧
    (Money.Zero sampleGet).Add sampleGet [mk EUR 0 0] =
      ret (some (Money.mk (some (sampleGet "")) (Decimal.mk 0 0)), none) := by
  refine ⟨by decide, by decide, by decide⟩
/-! ## Multiply -/

theorem toInt64_of_fits (x : Int) (h1 : -2 ^ 63 ≤ x) (h2 : x < 2 ^ 63) : toInt64 x = x := by
  unfold toInt64
  omega

theorem toRat_Mul (d d2 : Decimal) : (d.Mul d2).toRat = d.toRat * d2.toRat := by
  simp only [Decimal.Mul, Decimal.toRat]
  rw [zpow_add₀ Decimal.ten_ne_zero]
  push_cast
  ring

/-- An argument that fits `int64` is converted to a decimal of the same value. -/
theorem ConvertToDecimal_toRat (x : Numeric) (h : x.FitsInt64) :
    (ConvertToDecimal x).toRat = x.toRat := by
  cases x with
  | int v => simp [ConvertToDecimal, Numeric.toRat, Decimal.toRat_NewFromInt, toInt64_of_fits v h.1 h.2]
  | int8 v => simp [ConvertToDecimal, Numeric.toRat, Decimal.toRat_NewFromInt, toInt64_of_fits v h.1 h.2]
  | int16 v => simp [ConvertToDecimal, Numeric.toRat, Decimal.toRat_NewFromInt, toInt64_of_fits v h.1 h.2]
  | int32 v => simp [ConvertToDecimal, Numeric.toRat, Decimal.toRat_NewFromInt, toInt64_of_fits v h.1 h.2]
  | int64 v => simp [ConvertToDecimal, Numeric.toRat, Decimal.toRat_NewFromInt]
  | uint v =>
    have h' : ((v : Nat) : Int) < 2 ^ 63 := by exact_mod_cast (show v < 2 ^ 63 from h)
    simp [ConvertToDecimal, Numeric.toRat, Decimal.toRat_NewFromInt,
      toInt64_of_fits v (by omega) h']
  | uint8 v =>
    have h' : ((v : Nat) : Int) < 2 ^ 63 := by exact_mod_cast (show v < 2 ^ 63 from h)
    simp [ConvertToDecimal, Numeric.toRat, Decimal.toRat_NewFromInt,
      toInt64_of_fits v (by omega) h']
  | uint16 v =>
    have h' : ((v : Nat) : Int) < 2 ^ 63 := by exact_mod_cast (show v < 2 ^ 63 from h)
    simp [ConvertToDecimal, Numeric.toRat, Decimal.toRat_NewFromInt,
      toInt64_of_fits v (by omega) h']
  | uint32 v =>
    have h' : ((v : Nat) : Int) < 2 ^ 63 := by exact_mod_cast (show v < 2 ^ 63 from h)
    simp [ConvertToDecimal, Numeric.toRat, Decimal.toRat_NewFromInt,
      toInt64_of_fits v (by omega) h']
  | uint64 v =>
    have h' : ((v : Nat) : Int) < 2 ^ 63 := by exact_mod_cast (show v < 2 ^ 63 from h)
    simp [ConvertToDecimal, Numeric.toRat, Decimal.toRat_NewFromInt,
      toInt64_of_fits v (by omega) h']
  | decimal d => rfl

/-- The multiplier loop computes the product of the converted multipliers. -/
theorem foldl_multiply_toRat (muls : List Numeric) (hex : ∀ x ∈ muls, x.FitsInt64) :
    ∀ k : Decimal,
      (muls.foldl (fun k m2 => calculator.multiply k (ConvertToDecimal m2)) k).toRat =
        k.toRat * (muls.map Numeric.toRat).prod := by
  induction muls with
  | nil =>
    intro k
    simp
  | cons x rest ih =>
    intro k
    have hrest : ∀ y ∈ rest, y.FitsInt64 := fun y hy => hex y (List.mem_cons_of_mem _ hy)
    simp only [List.foldl_cons, List.map_cons, List.prod_cons]
    rw [ih hrest, calculator.multiply, toRat_Mul,
      ConvertToDecimal_toRat x (hex x (List.mem_cons_self _ _))]
    ring

/-- C17 (counterexample): Multiply on the zero value `Money{}` dereferences the
nil currency and panics instead of returning; and the multiplier
`uint64(2^63)` is converted to `-2^63`, so that 1 EUR times it is negative. -/
theorem Multiply_counterexample :
    (Money.mk none (Decimal.NewFromInt 0)).Multiply sampleGet [Numeric.int 2] = Outcome.panic ∧
    (mk EUR 1 0).Multiply sampleGet [Numeric.uint64 (2 ^ 63)] =
      ret (mk EUR (-9223372036854775808) 0) := by
  constructor <;> decide

/-- C17 (amended): for every Money with a currency and every non-empty list of
multipliers that are decimals or integers fitting `int64`, Multiply returns a
Money of the same currency whose amount is exactly the amount times the
product of all multipliers; `Multiply(x, y)` equals `Multiply(x).Multiply(y)`;
and with an empty list Multiply panics. -/
theorem Multiply_product (get : String → Currency) (m : Money) (c : Currency)
    (hc : m.currency = some c) :
    (∀ muls : List Numeric, muls ≠ [] → (∀ x ∈ muls, x.FitsInt64) →
      ∃ r : Money, m.Multiply get muls = ret r ∧ r.currency = m.currency ∧
        r.amount.toRat = m.amount.toRat * (muls.map Numeric.toRat).prod) ∧
    (∀ x y : Numeric,
      m.Multiply get [x, y] = (m.Multiply get [x]).bind fun r => r.Multiply get [y]) ∧
    m.Multiply get [] = Outcome.panic := by
  refine ⟨?_, ?_, rfl⟩
  · intro muls hne hex
    have hlen : muls.length ≠ 0 := by simpa using hne
    refine ⟨Money.mk m.currency (calculator.multiply m.amount
        (muls.foldl (fun k m2 => calculator.multiply k (ConvertToDecimal m2))
          (New get (ConvertToDecimal (Numeric.int 1)) c.Code).amount)),
      by simp only [Money.Multiply, hlen, if_false, hc], rfl, ?_⟩
    simp only [calculator.multiply, toRat_Mul]
    have h := foldl_multiply_toRat muls hex (New get (ConvertToDecimal (Numeric.int 1)) c.Code).amount
    simp only [calculator.multiply] at h
    rw [h]
    have h1 : (New get (ConvertToDecimal (Numeric.int 1)) c.Code).amount.toRat = 1 := by
      simp [New, ConvertToDecimal, Decimal.toRat_NewFromInt, toInt64]
    rw [h1, one_mul]
  · intro x y
    have h1 : ConvertToDecimal (Numeric.int 1) = Decimal.mk 1 0 := by decide
    simp only [Money.Multiply, List.length_cons, List.length_nil, hc, Outcome.bind,
      List.foldl_cons, List.foldl_nil, calculator.multiply, New, h1, Decimal.Mul,
      Nat.reduceAdd, OfNat.ofNat_ne_zero, one_ne_zero, if_false, Outcome.ret.injEq,
      Money.mk.injEq, true_and, Decimal.mk.injEq]
    constructor <;> ring

theorem Multiply_product_witness :
    (∃ r : Money, (mk EUR 10 0).Multiply sampleGet [Numeric.int64 5, Numeric.int64 (-3)] = ret r ∧
      r.currency = (mk EUR 10 0).currency ∧
      r.amount.toRat = (mk EUR 10 0).amount.toRat *
        ([Numeric.int64 5, Numeric.int64 (-3)].map Numeric.toRat).prod) ∧
    (mk EUR 10 0).Multiply sampleGet [] = Outcome.panic :=
  have h := Multiply_product sampleGet (mk EUR 10 0) EUR rfl
  ⟨h.1 [Numeric.int64 5, Numeric.int64 (-3)] (by decide)
      (by
        intro x hx
        simp only [List.mem_cons, List.mem_singleton, List.not_mem_nil, or_false] at hx
        rcases hx with h1 | h1 <;> rw [h1] <;> trivial),
    h.2.2⟩
/-! ## Round and Truncate -/

/-- What `rescale` keeps of a number: the value at the new exponent is the
number cut toward zero, the rest `s` being smaller than one unit `D` and of the
sign of the number. -/
theorem rescale_spec (d : Decimal) (e : Int) :
    ∃ D s : Int, 0 < D ∧ |s| < D ∧ (0 ≤ d.value → 0 ≤ s ∧ 0 ≤ (d.rescale e).value) ∧
      (d.value ≤ 0 → s ≤ 0 ∧ (d.rescale e).value ≤ 0) ∧
      d.toRat * (D : ℚ) = ((D * (d.rescale e).value + s : Int) : ℚ) * (10 : ℚ) ^ e ∧
      (d.rescale e).exp = e := by
  by_cases hle : e ≤ d.exp
  · obtain ⟨h1, h2⟩ := Decimal.toRat_rescale_of_le d e hle
    refine ⟨1, 0, by norm_num, by norm_num, ?_, ?_, ?_, h2⟩
    · intro hv
      refine ⟨le_refl _, ?_⟩
      unfold Decimal.rescale
      split_ifs
      · exact hv
      · exact Int.tdiv_nonneg hv (Decimal.ten_pow_pos _).le
      · exact Int.mul_nonneg hv (Decimal.ten_pow_pos _).le
    · intro hv
      refine ⟨le_refl _, ?_⟩
      unfold Decimal.rescale
      split_ifs with h3 h4
      · exact hv
      · omega
      · exact Int.mul_nonpos_of_nonpos_of_nonneg hv (Decimal.ten_pow_pos _).le
    · rw [← h1]
      simp only [Decimal.toRat, h2]
      push_cast
      ring
  · have hgt : e > d.exp := by omega
    have hne : ¬ d.exp = e := by omega
    have hD := Decimal.ten_pow_pos (e - d.exp).natAbs
    have hval : (d.rescale e).value = d.value.tdiv (10 ^ (e - d.exp).natAbs) := by
      simp [Decimal.rescale, hne, hgt]
    have hexp : (d.rescale e).exp = e := by
      simp [Decimal.rescale, hne, hgt]
    rw [hval]
    refine ⟨10 ^ (e - d.exp).natAbs, d.value.tmod (10 ^ (e - d.exp).natAbs), hD, ?_, ?_, ?_, ?_,
      hexp⟩
    · rcases le_or_lt 0 d.value with hv | hv
      · have h1 := Int.tmod_nonneg (10 ^ (e - d.exp).natAbs) hv
        have h2 := Int.tmod_lt_of_pos d.value hD
        rw [abs_of_nonneg h1]
        exact h2
      · have h0 : d.value.tmod (10 ^ (e - d.exp).natAbs) =
            -((-d.value).tmod (10 ^ (e - d.exp).natAbs)) := by
          rw [← tmod_neg_left, neg_neg]
        have h1 := Int.tmod_nonneg (10 ^ (e - d.exp).natAbs) (show 0 ≤ -d.value by omega)
        have h2 := Int.tmod_lt_of_pos (-d.value) hD
        rw [h0, abs_neg, abs_of_nonneg h1]
        exact h2
    · intro hv
      exact ⟨Int.tmod_nonneg _ hv, Int.tdiv_nonneg hv hD.le⟩
    · intro hv
      have h0 : d.value.tmod (10 ^ (e - d.exp).natAbs) =
          -((-d.value).tmod (10 ^ (e - d.exp).natAbs)) := by
        rw [← tmod_neg_left, neg_neg]
      have h1 := Int.tmod_nonneg (10 ^ (e - d.exp).natAbs) (show 0 ≤ -d.value by omega)
      have h3 : d.value.tdiv (10 ^ (e - d.exp).natAbs) =
          -((-d.value).tdiv (10 ^ (e - d.exp).natAbs)) := by
        rw [Int.neg_tdiv, neg_neg]
      have h4 := Int.tdiv_nonneg (show 0 ≤ -d.value by omega) hD.le
      constructor <;> omega
    · rw [Int.tdiv_add_tmod]
      simp only [Decimal.toRat]
      have hk : (((e - d.exp).natAbs : Nat) : Int) = e - d.exp := by omega
      have hz : (10 : ℚ) ^ e = (10 : ℚ) ^ d.exp * (10 : ℚ) ^ (((e - d.exp).natAbs : Nat) : Int) := by
        rw [← zpow_add₀ Decimal.ten_ne_zero, hk]
        congr 1
        ring
      rw [hz, zpow_natCast]
      push_cast
      ring

/-- The integer step of `Round`: with `t` the number cut to one digit and `s`,
below one unit `D`, what was cut, the result is within `5 * D` of `D * t + s`,
and at that distance it is the larger in magnitude. -/
theorem round_core (t s D : Int) (hD : 0 < D) (hs : |s| < D)
    (h1 : 0 ≤ t → 0 ≤ s ∨ t = 0) (h2 : t < 0 → s ≤ 0) :
    -(5 * D) ≤ D * (t - 10 * roundDigit t) + s ∧
    D * (t - 10 * roundDigit t) + s ≤ 5 * D ∧
    (D * (t - 10 * roundDigit t) + s = -(5 * D) → 1 ≤ roundDigit t) ∧
    (D * (t - 10 * roundDigit t) + s = 5 * D → roundDigit t ≤ -1) := by
  have hs1 := (abs_lt.mp hs).1
  have hs2 := (abs_lt.mp hs).2
  generalize hz : roundDigit t = z
  unfold roundDigit at hz
  by_cases ht : t < 0
  · have hs0 := h2 ht
    simp only [ht, if_true] at hz
    have ha : -4 ≤ t - 10 * z ∧ t - 10 * z ≤ 5 := by
      split_ifs at hz <;> omega
    obtain ⟨a, hat⟩ : ∃ a, a = t - 10 * z := ⟨_, rfl⟩
    rw [← hat] at ha ⊢
    obtain ⟨ha1, ha2⟩ := ha
    interval_cases a <;> refine ⟨by omega, by omega, fun h => by omega, fun h => by omega⟩
  · simp only [ht, if_false] at hz
    have ha : -5 ≤ t - 10 * z ∧ t - 10 * z ≤ 4 ∧ (t = 0 → z = 0) := by
      split_ifs at hz <;> omega
    rcases h1 (by omega) with hs0 | ht0
    · obtain ⟨a, hat⟩ : ∃ a, a = t - 10 * z := ⟨_, rfl⟩
      rw [← hat] at ha ⊢
      obtain ⟨ha1, ha2, _⟩ := ha
      interval_cases a <;> refine ⟨by omega, by omega, fun h => by omega, fun h => by omega⟩
    · have hz0 := ha.2.2 ht0
      subst ht0
      subst hz0
      simp only [mul_zero, sub_self, zero_add]
      refine ⟨by omega, by omega, fun h => by omega, fun h => by omega⟩

theorem Round_zero_eq (d : Decimal) (h : d.exp ≠ 0) :
    d.Round 0 = { value := roundDigit (d.rescale (-1)).value, exp := 0 } := by
  obtain ⟨_, _, _, _, _, _, _, hexp⟩ := rescale_spec d (-1)
  simp only [Decimal.Round, neg_zero, h, if_false, zero_sub, hexp, roundDigit]
  rfl

/-- A number `x` with `10 * D * x = D * t + s` as in the integer step is rounded
by it to the nearest whole number, halves away from zero. -/
theorem nearest_of_core (x : ℚ) (z N D : Int) (hD : 0 < D)
    (hx : (x - (z : ℚ)) * (10 * (D : ℚ)) = (N : ℚ))
    (h1 : -(5 * D) ≤ N) (h2 : N ≤ 5 * D) (h3 : N = -(5 * D) → 1 ≤ z)
    (h4 : N = 5 * D → z ≤ -1) : IsNearestWhole x z := by
  have hDq : (0 : ℚ) < 10 * (D : ℚ) := by
    have : (0 : ℚ) < (D : ℚ) := by exact_mod_cast hD
    linarith
  have h1q : -(5 * (D : ℚ)) ≤ (N : ℚ) := by exact_mod_cast h1
  have h2q : (N : ℚ) ≤ 5 * (D : ℚ) := by exact_mod_cast h2
  have hup : x - (z : ℚ) ≤ 1 / 2 := by
    apply le_of_mul_le_mul_right _ hDq
    rw [hx]
    linarith
  have hlow : -(1 / 2) ≤ x - (z : ℚ) := by
    apply le_of_mul_le_mul_right _ hDq
    rw [hx]
    linarith
  refine ⟨abs_le.mpr ⟨hlow, hup⟩, ?_⟩
  intro htie
  rcases abs_eq (by norm_num : (0 : ℚ) ≤ 1 / 2) |>.mp htie with he | he
  · have hN : (N : ℚ) = ((5 * D : Int) : ℚ) := by
      rw [← hx, he]
      push_cast
      ring
    have hz : z ≤ -1 := h4 (by exact_mod_cast hN)
    have hzq : (z : ℚ) ≤ -1 := by exact_mod_cast hz
    have hxv : x = (z : ℚ) + 1 / 2 := by linarith
    rw [hxv, abs_of_neg (by linarith), abs_of_neg (by linarith)]
    linarith
  · have hN : (N : ℚ) = ((-(5 * D) : Int) : ℚ) := by
      rw [← hx, he]
      push_cast
      ring
    have hz : 1 ≤ z := h3 (by exact_mod_cast hN)
    have hzq : (1 : ℚ) ≤ (z : ℚ) := by exact_mod_cast hz
    have hxv : x = (z : ℚ) - 1 / 2 := by linarith
    rw [hxv, abs_of_pos (by linarith), abs_of_pos (by linarith)]
    linarith

/-- Engine `Round(0)` gives a whole number, the nearest to the input with
halves away from zero. -/
theorem Round_zero_spec (d : Decimal) :
    ∃ z : Int, d.Round 0 = { value := z, exp := 0 } ∧ IsNearestWhole d.toRat z := by
  by_cases h : d.exp = 0
  · refine ⟨d.value, ?_, ?_⟩
    · have : d.Round 0 = d := by simp [Decimal.Round, h]
      rw [this]
      cases d
      simp only [Decimal.mk.injEq, true_and]
      exact h
    · have hx : d.toRat = (d.value : ℚ) := by simp [Decimal.toRat, h]
      rw [hx]
      refine ⟨by simp, ?_⟩
      intro htie
      simp at htie
  · refine ⟨roundDigit (d.rescale (-1)).value, Round_zero_eq d h, ?_⟩
    obtain ⟨D, s, hD, hs, hpos, hneg, hrat, _⟩ := rescale_spec d (-1)
    have hc := round_core (d.rescale (-1)).value s D hD hs
      (by
        intro ht
        rcases le_or_lt 0 d.value with hv | hv
        · exact Or.inl (hpos hv).1
        · have := (hneg hv.le).2
          exact Or.inr (by omega))
      (by
        intro ht
        rcases le_or_lt 0 d.value with hv | hv
        · have := (hpos hv).2
          omega
        · exact (hneg hv.le).1)
    obtain ⟨c1, c2, c3, c4⟩ := hc
    apply nearest_of_core d.toRat _ _ D hD _ c1 c2 c3 c4
    have h10 : (10 : ℚ) ^ (-1 : Int) = 1 / 10 := by norm_num
    rw [h10] at hrat
    push_cast at hrat ⊢
    linarith
/-- C18: for every Money, whatever its currency, Round returns a Money of the
same currency whose amount is a whole number, the nearest to the amount, exact
halves going away from zero. -/
theorem Round_nearest_whole (m : Money) :
    m.Round.currency = m.currency ∧
    ∃ z : Int, m.Round.amount = { value := z, exp := 0 } ∧ m.Round.amount.toRat = (z : ℚ) ∧
      IsNearestWhole m.amount.toRat z := by
  refine ⟨rfl, ?_⟩
  obtain ⟨z, h1, h2⟩ := Round_zero_spec m.amount
  refine ⟨z, h1, ?_, h2⟩
  show (m.amount.Round 0).toRat = (z : ℚ)
  rw [h1]
  simp [Decimal.toRat]

/-- Engine `Truncate` at `f ≥ 0` digits is truncation toward zero. -/
theorem Truncate_spec (d : Decimal) (f : Nat) :
    IsTruncation d.toRat (d.Truncate f).toRat f := by
  have hu := Decimal.ten_zpow_pos (-(f : Int))
  by_cases hcond : (f : Int) ≥ 0 ∧ -(f : Int) > d.exp
  · have hT : d.Truncate f = d.rescale (-(f : Int)) := by
      simp only [Decimal.Truncate, hcond, and_self, if_true]
    rw [hT]
    obtain ⟨D, s, hD, hs, hpos, hneg, hrat, hexp⟩ := rescale_spec d (-(f : Int))
    have hr : (d.rescale (-(f : Int))).toRat =
        ((d.rescale (-(f : Int))).value : ℚ) * (10 : ℚ) ^ (-(f : Int)) := by
      simp only [Decimal.toRat, hexp]
    have hDq : (0 : ℚ) < (D : ℚ) := by exact_mod_cast hD
    have hs1 : -(D : ℚ) < (s : ℚ) := by exact_mod_cast (abs_lt.mp hs).1
    have hs2 : (s : ℚ) < (D : ℚ) := by exact_mod_cast (abs_lt.mp hs).2
    have hdiff : (d.toRat - (d.rescale (-(f : Int))).toRat) * (D : ℚ) =
        (s : ℚ) * (10 : ℚ) ^ (-(f : Int)) := by
      rw [sub_mul, hrat, hr]
      push_cast
      ring
    have hlt : d.toRat - (d.rescale (-(f : Int))).toRat < (10 : ℚ) ^ (-(f : Int)) := by
      apply lt_of_mul_lt_mul_right _ hDq.le
      rw [hdiff]
      nlinarith
    have hgt : -((10 : ℚ) ^ (-(f : Int))) < d.toRat - (d.rescale (-(f : Int))).toRat := by
      apply lt_of_mul_lt_mul_right _ hDq.le
      rw [hdiff]
      nlinarith
    refine ⟨⟨_, hr⟩, ?_, abs_lt.mpr ⟨hgt, hlt⟩, ?_⟩
    · rcases le_or_lt 0 d.value with hv | hv
      · obtain ⟨hs0, ht0⟩ := hpos hv
        have hr0 : 0 ≤ (d.rescale (-(f : Int))).toRat := toRat_nonneg_of_value _ ht0
        have hs0q : (0 : ℚ) ≤ (s : ℚ) := by exact_mod_cast hs0
        have hd0 : 0 ≤ d.toRat - (d.rescale (-(f : Int))).toRat := by
          apply le_of_mul_le_mul_right _ hDq
          rw [hdiff, zero_mul]
          exact mul_nonneg hs0q hu.le
        rw [abs_of_nonneg hr0, abs_of_nonneg (by linarith)]
        linarith
      · obtain ⟨hs0, ht0⟩ := hneg hv.le
        have hr0 : (d.rescale (-(f : Int))).toRat ≤ 0 := toRat_nonpos_of_value _ ht0
        have hs0q : (s : ℚ) ≤ 0 := by exact_mod_cast hs0
        have hd0 : d.toRat - (d.rescale (-(f : Int))).toRat ≤ 0 := by
          apply le_of_mul_le_mul_right _ hDq
          rw [hdiff, zero_mul]
          exact mul_nonpos_of_nonpos_of_nonneg hs0q hu.le
        rw [abs_of_nonpos hr0, abs_of_nonpos (by linarith)]
        linarith
    · rcases le_or_lt 0 d.value with hv | hv
      · exact mul_nonneg (toRat_nonneg_of_value _ hv) (toRat_nonneg_of_value _ (hpos hv).2)
      · exact mul_nonneg_of_nonpos_of_nonpos (toRat_nonpos_of_value _ hv.le)
          (toRat_nonpos_of_value _ (hneg hv.le).2)
  · have hT : d.Truncate f = d := by
      simp only [Decimal.Truncate, hcond, if_false]
    rw [hT]
    have hle : -(f : Int) ≤ d.exp := by omega
    obtain ⟨h1, h2⟩ := Decimal.toRat_rescale_of_le d (-(f : Int)) hle
    refine ⟨⟨(d.rescale (-(f : Int))).value, ?_⟩, le_refl _, ?_, mul_self_nonneg _⟩
    · rw [← h1]
      simp only [Decimal.toRat, h2]
    · simp

/-! ## Divide and the calculator's divide and modulus -/

/-- C15 (evaluation at the failing inputs): 0.99999999999999995 EUR divided by 1
comes back as 1.00, and 1999999999999.99 EUR divided by 200000000000000 as
0.01; neither is the exact quotient truncated toward zero to two digits (0.99
and 0.00), both exceed it in magnitude: `Div` has rounded the quotient at 16
digits before `Truncate` cuts it. -/
theorem Divide_rounds_before_truncating :
    (mk EUR 99999999999999995 (-17)).Divide (Numeric.int 1) = ret (mk EUR 100 (-2)) ∧
    ¬ IsTruncation ((mk EUR 99999999999999995 (-17)).amount.toRat / (Numeric.int 1).toRat)
        (mk EUR 100 (-2)).amount.toRat 2 ∧
    (mk EUR 199999999999999 (-2)).Divide (Numeric.int 200000000000000) =
      ret (mk EUR 1 (-2)) ∧
    ¬ IsTruncation
        ((mk EUR 199999999999999 (-2)).amount.toRat / (Numeric.int 200000000000000).toRat)
        (mk EUR 1 (-2)).amount.toRat 2 := by
  refine ⟨by decide, ?_, by decide, ?_⟩
  · intro h
    have h2 := h.2.1
    norm_num [mk, Decimal.toRat, Numeric.toRat] at h2
    rw [abs_of_pos (by norm_num)] at h2
    linarith
  · intro h
    have h2 := h.2.1
    norm_num [mk, Decimal.toRat, Numeric.toRat] at h2
    rw [abs_of_pos (by norm_num), abs_of_pos (by norm_num)] at h2
    linarith

/-- Within the division precision of the engine Divide truncates: an amount of
`A` minor units of a currency with `f ≤ 16` fraction digits divided by a whole
number `0 < n < 2 * 10 ^ (16 - f)` gives the truncated quotient of `A` by `n`,
in minor units. -/
theorem Divide_whole_exact (m : Money) (c : Currency) (A n : Int)
    (hc : m.currency = some c) (hf : c.Fraction ≤ 16) (hn : 0 < n)
    (hnb : n < 2 * 10 ^ (16 - c.Fraction))
    (hA : m.amount.toRat = (A : ℚ) * (10 : ℚ) ^ (-(c.Fraction : Int))) :
    ∃ r : Money, m.Divide (Numeric.int64 n) = ret r ∧ r.currency = m.currency ∧
      r.amount.toRat = ((A.tdiv n : Int) : ℚ) * (10 : ℚ) ^ (-(c.Fraction : Int)) := by
  have hd := Decimal.divide_whole m.amount n A c.Fraction hn hf hA
  refine ⟨Money.mk m.currency (baseShare A n c.Fraction), ?_, rfl,
    baseShare_toRat A n c.Fraction hn hnb⟩
  simp only [Money.Divide, hc, ConvertToDecimal, hd, Outcome.bind, baseShare]

/-- C16 (evaluation at the failing inputs): at 16 digits, 2 divided by 3 is
0.6666666666666667 for `divide` while `modulus` leaves 0.0000000000000002, the
rest of the truncated quotient; at 2 digits, 0.99999999999999995 divided by 1
is 1.00 for `divide` while `modulus` leaves 0.00999999999999995.  In both cases
`b * divide + modulus` is not `a`. -/
theorem divide_modulus_not_paired :
    calculator.divide (Decimal.mk 2 0) (Decimal.mk 3 0) 16 =
      ret (Decimal.mk 6666666666666667 (-16)) ∧
    calculator.modulus (Decimal.mk 2 0) (Decimal.mk 3 0) 16 = ret (Decimal.mk 2 (-16)) ∧
    (Decimal.mk 3 0).toRat * (Decimal.mk 6666666666666667 (-16)).toRat +
      (Decimal.mk 2 (-16)).toRat ≠ (Decimal.mk 2 0).toRat ∧
    calculator.divide (Decimal.mk 99999999999999995 (-17)) (Decimal.mk 1 0) 2 =
      ret (Decimal.mk 100 (-2)) ∧
    calculator.modulus (Decimal.mk 99999999999999995 (-17)) (Decimal.mk 1 0) 2 =
      ret (Decimal.mk 999999999999995 (-17)) ∧
    (Decimal.mk 1 0).toRat * (Decimal.mk 100 (-2)).toRat +
      (Decimal.mk 999999999999995 (-17)).toRat ≠
        (Decimal.mk 99999999999999995 (-17)).toRat := by
  refine ⟨by decide, by decide, ?_, by decide, by decide, ?_⟩ <;>
    norm_num [Decimal.toRat]
theorem abs_tmod_lt (x y : Int) (hy : y ≠ 0) : |x.tmod y| < |y| := by
  have key : ∀ z : Int, 0 < z → |x.tmod z| < z := by
    intro z hz
    rcases le_or_lt 0 x with hx | hx
    · have h1 := Int.tmod_nonneg z hx
      have h2 := Int.tmod_lt_of_pos x hz
      rw [abs_of_nonneg h1]
      exact h2
    · have h0 : x.tmod z = -((-x).tmod z) := by
        rw [← tmod_neg_left, neg_neg]
      have h1 := Int.tmod_nonneg z (show 0 ≤ -x by omega)
      have h2 := Int.tmod_lt_of_pos (-x) hz
      rw [h0, abs_neg, abs_of_nonneg h1]
      exact h2
  rcases lt_or_gt_of_ne hy with h | h
  · have h1 : x.tmod y = x.tmod (-y) := by rw [Int.tmod_neg]
    rw [h1, abs_of_neg h]
    exact key (-y) (by omega)
  · rw [abs_of_pos h]
    exact key y h

theorem mul_tmod_nonneg (x y : Int) : 0 ≤ x * x.tmod y := by
  rcases le_or_lt 0 x with hx | hx
  · exact Int.mul_nonneg hx (Int.tmod_nonneg y hx)
  · have h0 : x.tmod y = -((-x).tmod y) := by
      rw [← tmod_neg_left, neg_neg]
    have h1 := Int.tmod_nonneg y (show 0 ≤ -x by omega)
    have h2 : x * x.tmod y = (-x) * (-x).tmod y := by
      rw [h0]
      ring
    rw [h2]
    exact Int.mul_nonneg (by omega) h1

/-- Engine `QuoRem` on a non-zero divisor: the quotient has `P` fractional
digits, quotient and remainder recompose the dividend exactly, and the
remainder is smaller in magnitude than one unit `10 ^ (-P)` of the divisor and
has the sign of the dividend. -/
theorem QuoRem_spec (d d2 : Decimal) (P : Int) (h : d2.value ≠ 0) :
    ∃ q r : Decimal, d.QuoRem d2 P = ret (q, r) ∧ q.exp = -P ∧
      d.toRat = d2.toRat * q.toRat + r.toRat ∧
      |r.toRat| < |d2.toRat| * (10 : ℚ) ^ (-P) ∧ 0 ≤ d.toRat * r.toRat := by
  by_cases he : d.exp - d2.exp - -P < 0
  · have hk : ((((-(d.exp - d2.exp - -P)).natAbs : Nat)) : Int) = -(d.exp - d2.exp - -P) := by
      omega
    have hbb : d2.value * 10 ^ (-(d.exp - d2.exp - -P)).natAbs ≠ 0 :=
      Int.mul_ne_zero h (ne_of_gt (Decimal.ten_pow_pos _))
    have hz : (10 : ℚ) ^ (((-(d.exp - d2.exp - -P)).natAbs : Nat) : Int) * (10 : ℚ) ^ d.exp =
        (10 : ℚ) ^ d2.exp * (10 : ℚ) ^ (-P) := by
      rw [← zpow_add₀ Decimal.ten_ne_zero, ← zpow_add₀ Decimal.ten_ne_zero, hk]
      congr 1
      ring
    rw [zpow_natCast] at hz
    have hdiv := Int.tdiv_add_tmod d.value (d2.value * 10 ^ (-(d.exp - d2.exp - -P)).natAbs)
    have hdivq : (d.value : ℚ) =
        (d2.value : ℚ) * (10 : ℚ) ^ (-(d.exp - d2.exp - -P)).natAbs *
          ((d.value.tdiv (d2.value * 10 ^ (-(d.exp - d2.exp - -P)).natAbs) : Int) : ℚ) +
          ((d.value.tmod (d2.value * 10 ^ (-(d.exp - d2.exp - -P)).natAbs) : Int) : ℚ) := by
      exact_mod_cast hdiv.symm
    have habs := abs_tmod_lt d.value _ hbb
    have habsq : |((d.value.tmod (d2.value * 10 ^ (-(d.exp - d2.exp - -P)).natAbs) : Int) : ℚ)| <
        |(d2.value : ℚ)| * (10 : ℚ) ^ (-(d.exp - d2.exp - -P)).natAbs := by
      have h1 : ((|d.value.tmod (d2.value * 10 ^ (-(d.exp - d2.exp - -P)).natAbs)| : Int) : ℚ) <
          ((|d2.value * 10 ^ (-(d.exp - d2.exp - -P)).natAbs| : Int) : ℚ) := by
        exact_mod_cast habs
      rw [abs_mul, abs_of_pos (Decimal.ten_pow_pos _)] at h1
      push_cast at h1
      exact h1
    have hsign := mul_tmod_nonneg d.value (d2.value * 10 ^ (-(d.exp - d2.exp - -P)).natAbs)
    have hsignq : (0 : ℚ) ≤ (d.value : ℚ) *
        ((d.value.tmod (d2.value * 10 ^ (-(d.exp - d2.exp - -P)).natAbs) : Int) : ℚ) := by
      exact_mod_cast hsign
    refine ⟨Decimal.mk (d.value.tdiv (d2.value * 10 ^ (-(d.exp - d2.exp - -P)).natAbs)) (-P),
      Decimal.mk (d.value.tmod (d2.value * 10 ^ (-(d.exp - d2.exp - -P)).natAbs)) d.exp,
      by simp only [Decimal.QuoRem, h, if_false, he, if_true], rfl, ?_, ?_, ?_⟩
    · simp only [Decimal.toRat]
      have e1 : (d2.value : ℚ) * (10 : ℚ) ^ d2.exp *
          (((d.value.tdiv (d2.value * 10 ^ (-(d.exp - d2.exp - -P)).natAbs) : Int) : ℚ) *
            (10 : ℚ) ^ (-P)) +
          ((d.value.tmod (d2.value * 10 ^ (-(d.exp - d2.exp - -P)).natAbs) : Int) : ℚ) *
            (10 : ℚ) ^ d.exp =
          ((d2.value : ℚ) *
            ((d.value.tdiv (d2.value * 10 ^ (-(d.exp - d2.exp - -P)).natAbs) : Int) : ℚ)) *
            ((10 : ℚ) ^ d2.exp * (10 : ℚ) ^ (-P)) +
          ((d.value.tmod (d2.value * 10 ^ (-(d.exp - d2.exp - -P)).natAbs) : Int) : ℚ) *
            (10 : ℚ) ^ d.exp := by ring
      rw [e1, ← hz]
      conv_lhs => rw [hdivq]
      ring
    · simp only [Decimal.toRat, abs_mul, abs_of_pos (Decimal.ten_zpow_pos d.exp),
        abs_of_pos (Decimal.ten_zpow_pos d2.exp)]
      rw [mul_assoc, ← hz, ← mul_assoc]
      exact mul_lt_mul_of_pos_right habsq (Decimal.ten_zpow_pos d.exp)
    · simp only [Decimal.toRat]
      have e2 : (d.value : ℚ) * (10 : ℚ) ^ d.exp *
          (((d.value.tmod (d2.value * 10 ^ (-(d.exp - d2.exp - -P)).natAbs) : Int) : ℚ) *
            (10 : ℚ) ^ d.exp) =
          ((d.value : ℚ) *
            ((d.value.tmod (d2.value * 10 ^ (-(d.exp - d2.exp - -P)).natAbs) : Int) : ℚ)) *
            ((10 : ℚ) ^ d.exp * (10 : ℚ) ^ d.exp) := by ring
      rw [e2]
      exact mul_nonneg hsignq (mul_nonneg (Decimal.ten_zpow_pos _).le (Decimal.ten_zpow_pos _).le)
  · have hk : ((((d.exp - d2.exp - -P).natAbs : Nat)) : Int) = d.exp - d2.exp - -P := by omega
    have hz : (10 : ℚ) ^ (((d.exp - d2.exp - -P).natAbs : Nat) : Int) *
        (10 : ℚ) ^ (-P + d2.exp) = (10 : ℚ) ^ d.exp := by
      rw [← zpow_add₀ Decimal.ten_ne_zero, hk]
      congr 1
      ring
    rw [zpow_natCast] at hz
    have hdiv := Int.tdiv_add_tmod (d.value * 10 ^ (d.exp - d2.exp - -P).natAbs) d2.value
    have hdivq : (d.value : ℚ) * (10 : ℚ) ^ (d.exp - d2.exp - -P).natAbs =
        (d2.value : ℚ) *
          (((d.value * 10 ^ (d.exp - d2.exp - -P).natAbs).tdiv d2.value : Int) : ℚ) +
          (((d.value * 10 ^ (d.exp - d2.exp - -P).natAbs).tmod d2.value : Int) : ℚ) := by
      exact_mod_cast hdiv.symm
    have habs := abs_tmod_lt (d.value * 10 ^ (d.exp - d2.exp - -P).natAbs) d2.value h
    have habsq : |(((d.value * 10 ^ (d.exp - d2.exp - -P).natAbs).tmod d2.value : Int) : ℚ)| <
        |(d2.value : ℚ)| := by
      exact_mod_cast habs
    have hsign := mul_tmod_nonneg (d.value * 10 ^ (d.exp - d2.exp - -P).natAbs) d2.value
    have hsignq : (0 : ℚ) ≤ (d.value : ℚ) * (10 : ℚ) ^ (d.exp - d2.exp - -P).natAbs *
        (((d.value * 10 ^ (d.exp - d2.exp - -P).natAbs).tmod d2.value : Int) : ℚ) := by
      exact_mod_cast hsign
    have hP : (10 : ℚ) ^ (-P + d2.exp) = (10 : ℚ) ^ d2.exp * (10 : ℚ) ^ (-P) := by
      rw [← zpow_add₀ Decimal.ten_ne_zero]
      congr 1
      ring
    refine ⟨Decimal.mk ((d.value * 10 ^ (d.exp - d2.exp - -P).natAbs).tdiv d2.value) (-P),
      Decimal.mk ((d.value * 10 ^ (d.exp - d2.exp - -P).natAbs).tmod d2.value) (-P + d2.exp),
      by simp only [Decimal.QuoRem, h, if_false, he], rfl, ?_, ?_, ?_⟩
    · simp only [Decimal.toRat]
      rw [← hz]
      have e1 : (d.value : ℚ) * ((10 : ℚ) ^ (d.exp - d2.exp - -P).natAbs *
          (10 : ℚ) ^ (-P + d2.exp)) =
          ((d.value : ℚ) * (10 : ℚ) ^ (d.exp - d2.exp - -P).natAbs) *
            (10 : ℚ) ^ (-P + d2.exp) := by ring
      rw [e1, hdivq, hP]
      ring
    · simp only [Decimal.toRat, abs_mul, abs_of_pos (Decimal.ten_zpow_pos (-P + d2.exp)),
        abs_of_pos (Decimal.ten_zpow_pos d2.exp)]
      rw [hP, mul_assoc]
      exact mul_lt_mul_of_pos_right habsq
        (mul_pos (Decimal.ten_zpow_pos _) (Decimal.ten_zpow_pos _))
    · simp only [Decimal.toRat]
      have hpow : (0 : ℚ) < (10 : ℚ) ^ (d.exp - d2.exp - -P).natAbs := by positivity
      have hprod : (0 : ℚ) ≤ (d.value : ℚ) *
          (((d.value * 10 ^ (d.exp - d2.exp - -P).natAbs).tmod d2.value : Int) : ℚ) := by
        by_contra hc
        push_neg at hc
        have := mul_neg_of_neg_of_pos hc hpow
        nlinarith
      have e2 : (d.value : ℚ) * (10 : ℚ) ^ d.exp *
          ((((d.value * 10 ^ (d.exp - d2.exp - -P).natAbs).tmod d2.value : Int) : ℚ) *
            (10 : ℚ) ^ (-P + d2.exp)) =
          ((d.value : ℚ) *
            (((d.value * 10 ^ (d.exp - d2.exp - -P).natAbs).tmod d2.value : Int) : ℚ)) *
            ((10 : ℚ) ^ d.exp * (10 : ℚ) ^ (-P + d2.exp)) := by ring
      rw [e2]
      exact mul_nonneg hprod (mul_nonneg (Decimal.ten_zpow_pos _).le (Decimal.ten_zpow_pos _).le)

/-- The remainder half of the pairing: `calculator.modulus` on a non-zero
divisor returns the remainder of `QuoRem`, which recomposes the dividend with
`QuoRem`'s own quotient, is smaller in magnitude than `|b| * 10 ^ (-p)` and has
the sign of the dividend or is zero. -/
theorem modulus_pairs_with_QuoRem (a b : Decimal) (p : Int) (hb : b.value ≠ 0) :
    ∃ q r : Decimal, a.QuoRem b p = ret (q, r) ∧ calculator.modulus a b p = ret r ∧
      b.toRat * q.toRat + r.toRat = a.toRat ∧
      |r.toRat| < |b.toRat| * (10 : ℚ) ^ (-p) ∧ 0 ≤ a.toRat * r.toRat := by
  obtain ⟨q, r, h1, _, h3, h4, h5⟩ := QuoRem_spec a b p hb
  exact ⟨q, r, h1, by simp [calculator.modulus, h1, Outcome.bind], h3.symm, h4, h5⟩

/-! ## Sum, Min and Max -/

theorem Money.LessThan_same (a b : Money) (ca cb : Currency)
    (ha : a.currency = some ca) (hb : b.currency = some cb) (he : ca.Code = cb.Code) :
    a.LessThan b = ret (decide (a.amount.toRat < b.amount.toRat), none) := by
  have h1 := Money.assertSameCurrency_of_eq a b ca cb ha hb he
  simp only [Money.LessThan, h1, Outcome.bind, Money.compare_eq_cmpRat, cmpRat_eq_neg_one]

theorem Money.GreaterThan_same (a b : Money) (ca cb : Currency)
    (ha : a.currency = some ca) (hb : b.currency = some cb) (he : ca.Code = cb.Code) :
    a.GreaterThan b = ret (decide (a.amount.toRat > b.amount.toRat), none) := by
  have h1 := Money.assertSameCurrency_of_eq a b ca cb ha hb he
  simp only [Money.GreaterThan, h1, Outcome.bind, Money.compare_eq_cmpRat, cmpRat_eq_one]

theorem Money.LessThan_diff (a b : Money) (ca cb : Currency)
    (ha : a.currency = some ca) (hb : b.currency = some cb) (hne : ca.Code ≠ cb.Code) :
    a.LessThan b = ret (false, some Error.ErrCurrencyMismatch) := by
  have h1 := Money.assertSameCurrency_of_ne a b ca cb ha hb hne
  simp only [Money.LessThan, h1, Outcome.bind]

theorem Money.GreaterThan_diff (a b : Money) (ca cb : Currency)
    (ha : a.currency = some ca) (hb : b.currency = some cb) (hne : ca.Code ≠ cb.Code) :
    a.GreaterThan b = ret (false, some Error.ErrCurrencyMismatch) := by
  have h1 := Money.assertSameCurrency_of_ne a b ca cb ha hb hne
  simp only [Money.GreaterThan, h1, Outcome.bind]

/-- Adding one operand that is zero or of the receiver's code. -/
theorem Money.Add_single_ok (get : String → Currency) (m o : Money) (c : Currency)
    (hc : m.currency = some c) (hcode : c.Code ≠ "")
    (ho : o.amount.value ≠ 0 → ∃ oc, o.currency = some oc ∧ oc.Code = c.Code) :
    ∃ r : Money, m.Add get [o] = ret (some r, none) ∧ r.currency = m.currency ∧
      r.amount.toRat = m.amount.toRat + o.amount.toRat := by
  have hall : ∀ o1 ∈ [o], o1.amount.value ≠ 0 → ∃ oc, o1.currency = some oc ∧ oc.Code = c.Code := by
    intro o1 h1
    rw [List.mem_singleton] at h1
    rw [h1]
    exact ho
  obtain ⟨k1, h1, h2⟩ := sumOperands_nonzero_same m c hc [o] (Decimal.NewFromInt 0) hall
  have hk := Money.startK_of_code get m c [o] hc hcode
  have h0 : (Decimal.NewFromInt 0).toRat = 0 := by simp [Decimal.toRat_NewFromInt]
  rw [h0, zero_add] at h2
  refine ⟨Money.mk m.currency (calculator.add m.amount k1), ?_, rfl, ?_⟩
  · simp [Money.Add, hk, New, h1, Outcome.bind]
  · simp [calculator.add, Decimal.toRat_Add, h2]

/-- Adding one non-zero operand of another code. -/
theorem Money.Add_single_bad (get : String → Currency) (m o : Money) (c oc : Currency)
    (hc : m.currency = some c) (hcode : c.Code ≠ "") (hv : o.amount.value ≠ 0)
    (ho : o.currency = some oc) (hne : oc.Code ≠ c.Code) :
    m.Add get [o] = ret (none, some Error.ErrCurrencyMismatch) := by
  have hwf : ∀ o1 ∈ [o], o1.currency = none → o1.amount.value = 0 := by
    intro o1 h1 h2
    rw [List.mem_singleton] at h1
    rw [h1, ho] at h2
    cases h2
  obtain ⟨k1, h1⟩ := Money.sumOperands_mismatch m c hc [o] (Decimal.NewFromInt 0) hwf
    ⟨o, List.mem_singleton.mpr rfl, hv, oc, ho, hne⟩
  have hk := Money.startK_of_code get m c [o] hc hcode
  simp [Money.Add, hk, New, h1, Outcome.bind]

/-- The loop of `Sum` from a running sum with a set code, over elements that
are zero or of that code: every amount is added. -/
theorem sumLoop_ok (get : String → Currency) (c : Currency) (hcode : c.Code ≠ "") :
    ∀ (rest : List Money) (s : Money), s.currency = some c →
      (∀ o ∈ rest, o.amount.value ≠ 0 → ∃ oc, o.currency = some oc ∧ oc.Code = c.Code) →
      ∃ r : Money, sumLoop get rest (some s) = ret (some r, none) ∧ r.currency = some c ∧
        r.amount.toRat = s.amount.toRat + (rest.map fun o => o.amount.toRat).sum := by
  intro rest
  induction rest with
  | nil =>
    intro s hs _
    exact ⟨s, by simp [sumLoop], hs, by simp⟩
  | cons o rest ih =>
    intro s hs hall
    obtain ⟨r1, h1, h2, h3⟩ := Money.Add_single_ok get s o c hs hcode
      (hall o (List.mem_cons_self _ _))
    obtain ⟨r, h4, h5, h6⟩ := ih r1 (h2.trans hs)
      (fun o1 ho1 => hall o1 (List.mem_cons_of_mem _ ho1))
    refine ⟨r, ?_, h5, ?_⟩
    · simp only [sumLoop, h1, Outcome.bind, h4]
    · rw [h6, h3, List.map_cons, List.sum_cons]
      ring

/-- The loop of `Sum` from a running sum with a set code, over elements one of
which is non-zero and of another code: the currency mismatch is returned. -/
theorem sumLoop_bad (get : String → Currency) (c : Currency) (hcode : c.Code ≠ "") :
    ∀ (rest : List Money) (s : Money), s.currency = some c →
      (∀ o ∈ rest, ∃ oc, o.currency = some oc) →
      (∃ o ∈ rest, o.amount.value ≠ 0 ∧ ∃ oc, o.currency = some oc ∧ oc.Code ≠ c.Code) →
      sumLoop get rest (some s) = ret (none, some Error.ErrCurrencyMismatch) := by
  intro rest
  induction rest with
  | nil =>
    intro s _ _ hbad
    obtain ⟨o, ho, _⟩ := hbad
    simp at ho
  | cons o rest ih =>
    intro s hs hcur hbad
    obtain ⟨oc, hoc⟩ := hcur o (List.mem_cons_self _ _)
    by_cases hgood : o.amount.value ≠ 0 → oc.Code = c.Code
    · obtain ⟨r1, h1, h2, _⟩ := Money.Add_single_ok get s o c hs hcode
        (fun hv => ⟨oc, hoc, hgood hv⟩)
      have hbad1 : ∃ o1 ∈ rest, o1.amount.value ≠ 0 ∧
          ∃ oc1, o1.currency = some oc1 ∧ oc1.Code ≠ c.Code := by
        obtain ⟨b, hb, hbv, bc, hbc, hbne⟩ := hbad
        rcases List.mem_cons.mp hb with hb1 | hb1
        · subst hb1
          rw [hoc] at hbc
          cases hbc
          exact absurd (hgood hbv) hbne
        · exact ⟨b, hb1, hbv, bc, hbc, hbne⟩
      have h4 := ih r1 (h2.trans hs) (fun o1 ho1 => hcur o1 (List.mem_cons_of_mem _ ho1)) hbad1
      simp only [sumLoop, h1, Outcome.bind, h4]
    · push_neg at hgood
      have h1 := Money.Add_single_bad get s o c oc hs hcode hgood.1 hoc hgood.2
      simp only [sumLoop, h1, Outcome.bind]

/-- The loop of `Min` over elements of the code of the running minimum. -/
theorem minLoop_same (code : String) :
    ∀ (rest : List Money) (mn : Money),
      (∀ o ∈ mn :: rest, ∃ oc, o.currency = some oc ∧ oc.Code = code) →
      ∃ x : Money, minLoop rest (some mn) = ret (some x, none) ∧ x ∈ mn :: rest ∧
        ∀ y ∈ mn :: rest, x.amount.toRat ≤ y.amount.toRat := by
  intro rest
  induction rest with
  | nil =>
    intro mn _
    exact ⟨mn, by simp [minLoop], by simp, by simp⟩
  | cons o rest ih =>
    intro mn hall
    obtain ⟨mc, hmc, hmcode⟩ := hall mn (List.mem_cons_self _ _)
    obtain ⟨oc, hoc, hocode⟩ := hall o (List.mem_cons_of_mem _ (List.mem_cons_self _ _))
    have hlt := Money.LessThan_same o mn oc mc hoc hmc (hocode.trans hmcode.symm)
    by_cases h : o.amount.toRat < mn.amount.toRat
    · obtain ⟨x, h1, h2, h3⟩ := ih o (fun y hy => hall y (List.mem_cons_of_mem _ hy))
      refine ⟨x, ?_, List.mem_cons_of_mem _ h2, ?_⟩
      · simp only [minLoop, hlt, Outcome.bind, h, decide_True, if_true, h1]
      · intro y hy
        rcases List.mem_cons.mp hy with hy1 | hy1
        · rw [hy1]
          exact le_trans (h3 o (List.mem_cons_self _ _)) (le_of_lt h)
        · exact h3 y hy1
    · obtain ⟨x, h1, h2, h3⟩ := ih mn (fun y hy => hall y (by
        rcases List.mem_cons.mp hy with hy1 | hy1
        · rw [hy1]; exact List.mem_cons_self _ _
        · exact List.mem_cons_of_mem _ (List.mem_cons_of_mem _ hy1)))
      refine ⟨x, ?_, ?_, ?_⟩
      · simp only [minLoop, hlt, Outcome.bind, h, decide_False, Bool.false_eq_true, if_false, h1]
      · rcases List.mem_cons.mp h2 with hx | hx
        · rw [hx]; exact List.mem_cons_self _ _
        · exact List.mem_cons_of_mem _ (List.mem_cons_of_mem _ hx)
      · intro y hy
        rcases List.mem_cons.mp hy with hy1 | hy1
        · rw [hy1]; exact h3 mn (List.mem_cons_self _ _)
        · rcases List.mem_cons.mp hy1 with hy2 | hy2
          · rw [hy2]
            exact le_trans (h3 mn (List.mem_cons_self _ _)) (not_lt.mp h)
          · exact h3 y (List.mem_cons_of_mem _ hy2)

/-- The loop of `Max` over elements of the code of the running maximum. -/
theorem maxLoop_same (code : String) :
    ∀ (rest : List Money) (mx : Money),
      (∀ o ∈ mx :: rest, ∃ oc, o.currency = some oc ∧ oc.Code = code) →
      ∃ x : Money, maxLoop rest (some mx) = ret (some x, none) ∧ x ∈ mx :: rest ∧
        ∀ y ∈ mx :: rest, y.amount.toRat ≤ x.amount.toRat := by
  intro rest
  induction rest with
  | nil =>
    intro mx _
    exact ⟨mx, by simp [maxLoop], by simp, by simp⟩
  | cons o rest ih =>
    intro mx hall
    obtain ⟨mc, hmc, hmcode⟩ := hall mx (List.mem_cons_self _ _)
    obtain ⟨oc, hoc, hocode⟩ := hall o (List.mem_cons_of_mem _ (List.mem_cons_self _ _))
    have hgt := Money.GreaterThan_same o mx oc mc hoc hmc (hocode.trans hmcode.symm)
    by_cases h : o.amount.toRat > mx.amount.toRat
    · obtain ⟨x, h1, h2, h3⟩ := ih o (fun y hy => hall y (List.mem_cons_of_mem _ hy))
      refine ⟨x, ?_, List.mem_cons_of_mem _ h2, ?_⟩
      · simp only [maxLoop, hgt, Outcome.bind, h, decide_True, if_true, h1]
      · intro y hy
        rcases List.mem_cons.mp hy with hy1 | hy1
        · rw [hy1]
          exact le_trans (le_of_lt h) (h3 o (List.mem_cons_self _ _))
        · exact h3 y hy1
    · obtain ⟨x, h1, h2, h3⟩ := ih mx (fun y hy => hall y (by
        rcases List.mem_cons.mp hy with hy1 | hy1
        · rw [hy1]; exact List.mem_cons_self _ _
        · exact List.mem_cons_of_mem _ (List.mem_cons_of_mem _ hy1)))
      refine ⟨x, ?_, ?_, ?_⟩
      · simp only [maxLoop, hgt, Outcome.bind, h, decide_False, Bool.false_eq_true, if_false, h1]
      · rcases List.mem_cons.mp h2 with hx | hx
        · rw [hx]; exact List.mem_cons_self _ _
        · exact List.mem_cons_of_mem _ (List.mem_cons_of_mem _ hx)
      · intro y hy
        rcases List.mem_cons.mp hy with hy1 | hy1
        · rw [hy1]; exact h3 mx (List.mem_cons_self _ _)
        · rcases List.mem_cons.mp hy1 with hy2 | hy2
          · rw [hy2]
            exact le_trans (not_lt.mp h) (h3 mx (List.mem_cons_self _ _))
          · exact h3 y (List.mem_cons_of_mem _ hy2)

/-- The loop of `Min` over a list holding an element of another code than the
running minimum: the currency mismatch is returned. -/
theorem minLoop_bad (code : String) :
    ∀ (rest : List Money) (mn : Money), (∃ mc, mn.currency = some mc ∧ mc.Code = code) →
      (∀ o ∈ rest, ∃ oc, o.currency = some oc) →
      (∃ o ∈ rest, ∃ oc, o.currency = some oc ∧ oc.Code ≠ code) →
      minLoop rest (some mn) = ret (none, some Error.ErrCurrencyMismatch) := by
  intro rest
  induction rest with
  | nil =>
    intro mn _ _ hbad
    obtain ⟨o, ho, _⟩ := hbad
    simp at ho
  | cons o rest ih =>
    intro mn hmn hcur hbad
    obtain ⟨mc, hmc, hmcode⟩ := hmn
    obtain ⟨oc, hoc⟩ := hcur o (List.mem_cons_self _ _)
    by_cases hgood : oc.Code = code
    · have hlt := Money.LessThan_same o mn oc mc hoc hmc (hgood.trans hmcode.symm)
      have hbad1 : ∃ o1 ∈ rest, ∃ oc1, o1.currency = some oc1 ∧ oc1.Code ≠ code := by
        obtain ⟨b, hb, bc, hbc, hbne⟩ := hbad
        rcases List.mem_cons.mp hb with hb1 | hb1
        · subst hb1
          rw [hoc] at hbc
          cases hbc
          exact absurd hgood hbne
        · exact ⟨b, hb1, bc, hbc, hbne⟩
      have hcur1 : ∀ o1 ∈ rest, ∃ oc1, o1.currency = some oc1 :=
        fun o1 ho1 => hcur o1 (List.mem_cons_of_mem _ ho1)
      by_cases h : o.amount.toRat < mn.amount.toRat
      · have h4 := ih o ⟨oc, hoc, hgood⟩ hcur1 hbad1
        simp only [minLoop, hlt, Outcome.bind, h, decide_True, if_true, h4]
      · have h4 := ih mn ⟨mc, hmc, hmcode⟩ hcur1 hbad1
        simp only [minLoop, hlt, Outcome.bind, h, decide_False, Bool.false_eq_true, if_false, h4]
    · have hlt := Money.LessThan_diff o mn oc mc hoc hmc (fun he => hgood (he.trans hmcode))
      simp only [minLoop, hlt, Outcome.bind]

/-- The loop of `Max` over a list holding an element of another code than the
running maximum: the currency mismatch is returned. -/
theorem maxLoop_bad (code : String) :
    ∀ (rest : List Money) (mx : Money), (∃ mc, mx.currency = some mc ∧ mc.Code = code) →
      (∀ o ∈ rest, ∃ oc, o.currency = some oc) →
      (∃ o ∈ rest, ∃ oc, o.currency = some oc ∧ oc.Code ≠ code) →
      maxLoop rest (some mx) = ret (none, some Error.ErrCurrencyMismatch) := by
  intro rest
  induction rest with
  | nil =>
    intro mx _ _ hbad
    obtain ⟨o, ho, _⟩ := hbad
    simp at ho
  | cons o rest ih =>
    intro mx hmx hcur hbad
    obtain ⟨mc, hmc, hmcode⟩ := hmx
    obtain ⟨oc, hoc⟩ := hcur o (List.mem_cons_self _ _)
    by_cases hgood : oc.Code = code
    · have hgt := Money.GreaterThan_same o mx oc mc hoc hmc (hgood.trans hmcode.symm)
      have hbad1 : ∃ o1 ∈ rest, ∃ oc1, o1.currency = some oc1 ∧ oc1.Code ≠ code := by
        obtain ⟨b, hb, bc, hbc, hbne⟩ := hbad
        rcases List.mem_cons.mp hb with hb1 | hb1
        · subst hb1
          rw [hoc] at hbc
          cases hbc
          exact absurd hgood hbne
        · exact ⟨b, hb1, bc, hbc, hbne⟩
      have hcur1 : ∀ o1 ∈ rest, ∃ oc1, o1.currency = some oc1 :=
        fun o1 ho1 => hcur o1 (List.mem_cons_of_mem _ ho1)
      by_cases h : o.amount.toRat > mx.amount.toRat
      · have h4 := ih o ⟨oc, hoc, hgood⟩ hcur1 hbad1
        simp only [maxLoop, hgt, Outcome.bind, h, decide_True, if_true, h4]
      · have h4 := ih mx ⟨mc, hmc, hmcode⟩ hcur1 hbad1
        simp only [maxLoop, hgt, Outcome.bind, h, decide_False, Bool.false_eq_true, if_false, h4]
    · have hgt := Money.GreaterThan_diff o mx oc mc hoc hmc (fun he => hgood (he.trans hmcode))
      simp only [maxLoop, hgt, Outcome.bind]

/-- In a list of values with currencies two of which differ in code, some
element after the first differs in code from the first. -/
theorem differs_from_first (first : Money) (rest : List Money) (c : Currency)
    (hc : first.currency = some c)
    (hdiff : ∃ a ∈ first :: rest, ∃ b ∈ first :: rest, ∃ ca cb, a.currency = some ca ∧
      b.currency = some cb ∧ ca.Code ≠ cb.Code) :
    ∃ o ∈ rest, ∃ oc, o.currency = some oc ∧ oc.Code ≠ c.Code := by
  obtain ⟨a, ha, b, hb, ca, cb, hca, hcb, hne⟩ := hdiff
  by_cases h1 : ca.Code = c.Code
  · rcases List.mem_cons.mp hb with hb1 | hb1
    · subst hb1
      rw [hc] at hcb
      cases hcb
      exact absurd h1 hne
    · exact ⟨b, hb1, cb, hcb, fun h2 => hne (h1.trans h2.symm)⟩
  · rcases List.mem_cons.mp ha with ha1 | ha1
    · subst ha1
      rw [hc] at hca
      cases hca
      exact absurd rfl h1
    · exact ⟨a, ha1, ca, hca, h1⟩
/-! ## Sort -/

theorem getElem?_append_cons_length {α : Type} (pre : List α) (x : α) (t : List α) :
    (pre ++ x :: t)[pre.length]? = some x := by
  induction pre with
  | nil => simp
  | cons a pre ih => simpa using ih

theorem set_append_cons_length {α : Type} (pre : List α) (x y : α) (t : List α) :
    (pre ++ x :: t).set pre.length y = pre ++ y :: t := by
  induction pre with
  | nil => simp
  | cons a pre ih => simp

/-- The two entries the inner loop of `Sort` compares, and the slice after
exchanging them. -/
theorem sort_entries (i : Nat) (pre mid rest : List Money) (x y : Money) (hi : pre.length = i) :
    (pre ++ x :: (mid ++ y :: rest))[i + 1 + mid.length]? = some y ∧
    (pre ++ x :: (mid ++ y :: rest))[i]? = some x ∧
    ((pre ++ x :: (mid ++ y :: rest)).set i y).set (i + 1 + mid.length) x =
      pre ++ y :: (mid ++ x :: rest) := by
  have hlen : (pre ++ x :: mid).length = i + 1 + mid.length := by
    simp [hi]
    omega
  have hlen2 : (pre ++ y :: mid).length = i + 1 + mid.length := by
    simp [hi]
    omega
  have e1 : pre ++ x :: (mid ++ y :: rest) = (pre ++ x :: mid) ++ y :: rest := by simp
  have e2 : pre ++ y :: (mid ++ y :: rest) = (pre ++ y :: mid) ++ y :: rest := by simp
  have e3 : pre ++ y :: (mid ++ x :: rest) = (pre ++ y :: mid) ++ x :: rest := by simp
  refine ⟨?_, ?_, ?_⟩
  · rw [e1, ← hlen]
    exact getElem?_append_cons_length _ _ _
  · rw [← hi]
    exact getElem?_append_cons_length _ _ _
  · rw [← hi, set_append_cons_length, hi, e2, ← hlen2, set_append_cons_length, e3]

/-- One turn of the inner loop of `Sort` when the comparison succeeds. -/
theorem sortInner_step (i k : Nat) (pre mid rest : List Money) (x y : Money)
    (hi : pre.length = i) (b : Bool) (h : y.LessThan x = ret (b, none)) :
    sortInner i (k + 1) (i + 1 + mid.length) (pre ++ x :: (mid ++ y :: rest)) =
      sortInner i k (i + 1 + mid.length + 1)
        (if b then pre ++ y :: (mid ++ x :: rest) else pre ++ x :: (mid ++ y :: rest)) := by
  obtain ⟨h1, h2, h3⟩ := sort_entries i pre mid rest x y hi
  rw [sortInner, h1, h2]
  simp only [h, Outcome.bind, h3]

/-- One turn of the inner loop of `Sort` when the comparison fails. -/
theorem sortInner_step_error (i k : Nat) (pre mid rest : List Money) (x y : Money)
    (hi : pre.length = i) (b : Bool) (e : Error) (h : y.LessThan x = ret (b, some e)) :
    sortInner i (k + 1) (i + 1 + mid.length) (pre ++ x :: (mid ++ y :: rest)) =
      ret (pre ++ x :: (mid ++ y :: rest), some e) := by
  obtain ⟨h1, h2, _⟩ := sort_entries i pre mid rest x y hi
  rw [sortInner, h1, h2]
  simp only [h, Outcome.bind]

/-- The inner loop of `Sort` over entries of one code: the entry at `i` ends
no larger than any later entry, the entries before `i` are untouched and the
others are rearranged. -/
theorem sortInner_same (code : String) (i : Nat) (pre : List Money) (hi : pre.length = i) :
    ∀ (rest : List Money) (x : Money) (mid : List Money),
      (∀ o ∈ x :: (mid ++ rest), ∃ oc, o.currency = some oc ∧ oc.Code = code) →
      (∀ y ∈ mid, x.amount.toRat ≤ y.amount.toRat) →
      ∃ (x1 : Money) (mid1 : List Money),
        sortInner i rest.length (i + 1 + mid.length) (pre ++ x :: (mid ++ rest)) =
          ret (pre ++ x1 :: mid1, none) ∧
        (x1 :: mid1).Perm (x :: (mid ++ rest)) ∧
        ∀ y ∈ mid1, x1.amount.toRat ≤ y.amount.toRat := by
  intro rest
  induction rest with
  | nil =>
    intro x mid _ hmin
    exact ⟨x, mid, by simp [sortInner], by simp, hmin⟩
  | cons y rest ih =>
    intro x mid hall hmin
    obtain ⟨xc, hxc, hxcode⟩ := hall x (List.mem_cons_self _ _)
    obtain ⟨yc, hyc, hycode⟩ := hall y (by simp)
    have hlt := Money.LessThan_same y x yc xc hyc hxc (hycode.trans hxcode.symm)
    have hstep := sortInner_step i rest.length pre mid rest x y hi _ hlt
    have hlen : i + 1 + mid.length + 1 = i + 1 + (mid ++ [x]).length := by simp; omega
    have hlen2 : i + 1 + mid.length + 1 = i + 1 + (mid ++ [y]).length := by simp; omega
    by_cases h : y.amount.toRat < x.amount.toRat
    · have hall1 : ∀ o ∈ y :: ((mid ++ [x]) ++ rest), ∃ oc, o.currency = some oc ∧ oc.Code = code := by
        intro o ho
        apply hall o
        simp only [List.mem_cons, List.mem_append, List.mem_singleton, List.not_mem_nil,
          or_false] at ho ⊢
        tauto
      have hmin1 : ∀ z ∈ mid ++ [x], y.amount.toRat ≤ z.amount.toRat := by
        intro z hz
        rcases List.mem_append.mp hz with hz1 | hz1
        · exact le_trans (le_of_lt h) (hmin z hz1)
        · rw [List.mem_singleton] at hz1
          rw [hz1]
          exact le_of_lt h
      obtain ⟨x1, mid1, h1, h2, h3⟩ := ih y (mid ++ [x]) hall1 hmin1
      refine ⟨x1, mid1, ?_, ?_, h3⟩
      · rw [List.length_cons, hstep]
        simp only [h, decide_True, if_true]
        rw [hlen]
        simpa using h1
      · refine h2.trans ?_
        have p1 : (y :: ((mid ++ [x]) ++ rest)).Perm (y :: x :: (mid ++ rest)) := by
          refine List.Perm.cons y ?_
          rw [List.append_assoc]
          exact List.perm_middle
        have p2 : (y :: x :: (mid ++ rest)).Perm (x :: y :: (mid ++ rest)) := List.Perm.swap _ _ _
        have p3 : (x :: y :: (mid ++ rest)).Perm (x :: (mid ++ y :: rest)) :=
          List.Perm.cons x List.perm_middle.symm
        exact p1.trans (p2.trans p3)
    · have hall1 : ∀ o ∈ x :: ((mid ++ [y]) ++ rest), ∃ oc, o.currency = some oc ∧ oc.Code = code := by
        intro o ho
        apply hall o
        simp only [List.mem_cons, List.mem_append, List.mem_singleton, List.not_mem_nil,
          or_false] at ho ⊢
        tauto
      have hmin1 : ∀ z ∈ mid ++ [y], x.amount.toRat ≤ z.amount.toRat := by
        intro z hz
        rcases List.mem_append.mp hz with hz1 | hz1
        · exact hmin z hz1
        · rw [List.mem_singleton] at hz1
          rw [hz1]
          exact not_lt.mp h
      obtain ⟨x1, mid1, h1, h2, h3⟩ := ih x (mid ++ [y]) hall1 hmin1
      refine ⟨x1, mid1, ?_, ?_, h3⟩
      · rw [List.length_cons, hstep]
        simp only [h, decide_False, Bool.false_eq_true, if_false]
        rw [hlen2]
        simpa using h1
      · refine h2.trans ?_
        rw [List.append_assoc]
        rfl
/-- The outer loop of `Sort` from index `i`, the entries before `i` being in
order and no larger than the later ones, all of one code: the later entries
are rearranged and the whole slice ends in order. -/
theorem sortOuter_same (code : String) :
    ∀ (k i : Nat) (pre suf : List Money), pre.length = i → suf.length = k →
      (∀ o ∈ suf, ∃ oc, o.currency = some oc ∧ oc.Code = code) →
      pre.Pairwise (fun a b => a.amount.toRat ≤ b.amount.toRat) →
      (∀ a ∈ pre, ∀ b ∈ suf, a.amount.toRat ≤ b.amount.toRat) →
      ∃ suf1 : List Money, sortOuter k i (pre ++ suf) = ret (pre ++ suf1, none) ∧
        suf1.Perm suf ∧
        (pre ++ suf1).Pairwise (fun a b => a.amount.toRat ≤ b.amount.toRat) := by
  intro k
  induction k with
  | zero =>
    intro i pre suf _ hk _ hpre _
    have hs : suf = [] := List.length_eq_zero.mp hk
    subst hs
    exact ⟨[], by simp [sortOuter], List.Perm.refl _, by simpa using hpre⟩
  | succ k ih =>
    intro i pre suf hi hk hall hpre hcross
    obtain ⟨x, rest, hs⟩ : ∃ x rest, suf = x :: rest := by
      cases suf with
      | nil => simp at hk
      | cons x rest => exact ⟨x, rest, rfl⟩
    subst hs
    have hrest : rest.length = k := by simpa using hk
    obtain ⟨x1, mid1, h1, h2, h3⟩ := sortInner_same code i pre hi rest x []
      (by simpa using hall) (by simp)
    have hlen : (pre ++ x :: rest).length - (i + 1) = rest.length := by
      simp [hi]
      omega
    have hmid : mid1.length = k := by
      have := h2.length_eq
      simp at this
      omega
    have hall1 : ∀ o ∈ mid1, ∃ oc, o.currency = some oc ∧ oc.Code = code := by
      intro o ho
      have : o ∈ x :: ([] ++ rest) := h2.subset (List.mem_cons_of_mem _ ho)
      exact hall o (by simpa using this)
    have hx1 : x1 ∈ x :: rest := by
      have : x1 ∈ x :: ([] ++ rest) := h2.subset (List.mem_cons_self _ _)
      simpa using this
    have hpre1 : (pre ++ [x1]).Pairwise (fun a b => a.amount.toRat ≤ b.amount.toRat) := by
      rw [List.pairwise_append]
      refine ⟨hpre, List.pairwise_singleton _ _, ?_⟩
      intro a ha b hb
      rw [List.mem_singleton] at hb
      rw [hb]
      exact hcross a ha x1 hx1
    have hcross1 : ∀ a ∈ pre ++ [x1], ∀ b ∈ mid1, a.amount.toRat ≤ b.amount.toRat := by
      intro a ha b hb
      rcases List.mem_append.mp ha with ha1 | ha1
      · have : b ∈ x :: ([] ++ rest) := h2.subset (List.mem_cons_of_mem _ hb)
        exact hcross a ha1 b (by simpa using this)
      · rw [List.mem_singleton] at ha1
        rw [ha1]
        exact h3 b hb
    obtain ⟨suf1, h4, h5, h6⟩ := ih (i + 1) (pre ++ [x1]) mid1 (by simp [hi]) hmid hall1
      hpre1 hcross1
    refine ⟨x1 :: suf1, ?_, ?_, ?_⟩
    · rw [sortOuter, hlen]
      have h1' : sortInner i rest.length (i + 1) (pre ++ x :: rest) =
          ret (pre ++ x1 :: mid1, none) := by simpa using h1
      simp only [h1', Outcome.bind]
      have e1 : pre ++ x1 :: mid1 = (pre ++ [x1]) ++ mid1 := by simp
      have e2 : pre ++ x1 :: suf1 = (pre ++ [x1]) ++ suf1 := by simp
      rw [e1, h4, e2]
    · have : (x1 :: suf1).Perm (x1 :: mid1) := List.Perm.cons x1 h5
      exact this.trans (by simpa using h2)
    · have e2 : pre ++ x1 :: suf1 = (pre ++ [x1]) ++ suf1 := by simp
      rw [e2]
      exact h6

/-- Function `Sort` on a list of one code: a rearrangement of the input in
non-decreasing order of amount, without error. -/
theorem SortMoneys_same (code : String) (ms : List Money)
    (hall : ∀ o ∈ ms, ∃ oc, o.currency = some oc ∧ oc.Code = code) :
    ∃ sorted : List Money, SortMoneys ms = ret (some sorted, none) ∧ sorted.Perm ms ∧
      sorted.Pairwise (fun a b => a.amount.toRat ≤ b.amount.toRat) := by
  obtain ⟨suf1, h1, h2, h3⟩ := sortOuter_same code ms.length 0 [] ms rfl rfl hall
    List.Pairwise.nil (by simp)
  refine ⟨suf1, ?_, h2, by simpa using h3⟩
  have h1' : sortOuter ms.length 0 ms = ret (suf1, none) := by simpa using h1
  simp only [SortMoneys, h1', Outcome.bind]

/-- The inner loop of `Sort` meeting an entry of another code than the entry at
`i`: the currency mismatch ends it. -/
theorem sortInner_bad (code : String) (i : Nat) (pre : List Money) (hi : pre.length = i) :
    ∀ (rest : List Money) (x : Money) (mid : List Money),
      (∃ xc, x.currency = some xc ∧ xc.Code = code) →
      (∀ o ∈ rest, ∃ oc, o.currency = some oc) →
      (∃ o ∈ rest, ∃ oc, o.currency = some oc ∧ oc.Code ≠ code) →
      ∃ s : List Money,
        sortInner i rest.length (i + 1 + mid.length) (pre ++ x :: (mid ++ rest)) =
          ret (s, some Error.ErrCurrencyMismatch) := by
  intro rest
  induction rest with
  | nil =>
    intro x mid _ _ hbad
    obtain ⟨o, ho, _⟩ := hbad
    simp at ho
  | cons y rest ih =>
    intro x mid hx hcur hbad
    obtain ⟨xc, hxc, hxcode⟩ := hx
    obtain ⟨yc, hyc⟩ := hcur y (List.mem_cons_self _ _)
    by_cases hgood : yc.Code = code
    · have hlt := Money.LessThan_same y x yc xc hyc hxc (hgood.trans hxcode.symm)
      have hstep := sortInner_step i rest.length pre mid rest x y hi _ hlt
      have hbad1 : ∃ o1 ∈ rest, ∃ oc1, o1.currency = some oc1 ∧ oc1.Code ≠ code := by
        obtain ⟨b, hb, bc, hbc, hbne⟩ := hbad
        rcases List.mem_cons.mp hb with hb1 | hb1
        · subst hb1
          rw [hyc] at hbc
          cases hbc
          exact absurd hgood hbne
        · exact ⟨b, hb1, bc, hbc, hbne⟩
      have hcur1 : ∀ o1 ∈ rest, ∃ oc1, o1.currency = some oc1 :=
        fun o1 ho1 => hcur o1 (List.mem_cons_of_mem _ ho1)
      have hlen : i + 1 + mid.length + 1 = i + 1 + (mid ++ [x]).length := by simp; omega
      have hlen2 : i + 1 + mid.length + 1 = i + 1 + (mid ++ [y]).length := by simp; omega
      by_cases h : y.amount.toRat < x.amount.toRat
      · obtain ⟨s, hs⟩ := ih y (mid ++ [x]) ⟨yc, hyc, hgood⟩ hcur1 hbad1
        refine ⟨s, ?_⟩
        rw [List.length_cons, hstep]
        simp only [h, decide_True, if_true]
        rw [hlen]
        simpa using hs
      · obtain ⟨s, hs⟩ := ih x (mid ++ [y]) ⟨xc, hxc, hxcode⟩ hcur1 hbad1
        refine ⟨s, ?_⟩
        rw [List.length_cons, hstep]
        simp only [h, decide_False, Bool.false_eq_true, if_false]
        rw [hlen2]
        simpa using hs
    · have hlt := Money.LessThan_diff y x yc xc hyc hxc (fun he => hgood (he.trans hxcode))
      exact ⟨_, sortInner_step_error i rest.length pre mid rest x y hi _ _ hlt⟩

/-- Function `Sort` on a list of values with currencies two of which differ in
code: the currency mismatch and no slice. -/
theorem SortMoneys_bad (ms : List Money) (hcur : ∀ o ∈ ms, ∃ oc, o.currency = some oc)
    (hdiff : ∃ a ∈ ms, ∃ b ∈ ms, ∃ ca cb, a.currency = some ca ∧ b.currency = some cb ∧
      ca.Code ≠ cb.Code) :
    SortMoneys ms = ret (none, some Error.ErrCurrencyMismatch) := by
  cases ms with
  | nil =>
    obtain ⟨a, ha, _⟩ := hdiff
    simp at ha
  | cons x rest =>
    obtain ⟨xc, hxc⟩ := hcur x (List.mem_cons_self _ _)
    have hbad := differs_from_first x rest xc hxc hdiff
    obtain ⟨s, hs⟩ := sortInner_bad xc.Code 0 [] rfl rest x [] ⟨xc, hxc, rfl⟩
      (fun o ho => hcur o (List.mem_cons_of_mem _ ho)) hbad
    have hs' : sortInner 0 rest.length 1 (x :: rest) = ret (s, some Error.ErrCurrencyMismatch) := by
      simpa using hs
    simp [SortMoneys, sortOuter, hs', Outcome.bind]

/-- The inner loop of `Sort` when the entry at `i` is no larger than any later
entry: nothing is exchanged. -/
theorem sortInner_noswap (code : String) (i : Nat) (pre : List Money) (hi : pre.length = i) :
    ∀ (rest : List Money) (x : Money) (mid : List Money),
      (∀ o ∈ x :: rest, ∃ oc, o.currency = some oc ∧ oc.Code = code) →
      (∀ y ∈ rest, x.amount.toRat ≤ y.amount.toRat) →
      sortInner i rest.length (i + 1 + mid.length) (pre ++ x :: (mid ++ rest)) =
        ret (pre ++ x :: (mid ++ rest), none) := by
  intro rest
  induction rest with
  | nil =>
    intro x mid _ _
    simp [sortInner]
  | cons y rest ih =>
    intro x mid hall hmin
    obtain ⟨xc, hxc, hxcode⟩ := hall x (List.mem_cons_self _ _)
    obtain ⟨yc, hyc, hycode⟩ := hall y (by simp)
    have hlt := Money.LessThan_same y x yc xc hyc hxc (hycode.trans hxcode.symm)
    have hstep := sortInner_step i rest.length pre mid rest x y hi _ hlt
    have h : ¬ y.amount.toRat < x.amount.toRat := not_lt.mpr (hmin y (List.mem_cons_self _ _))
    have hlen2 : i + 1 + mid.length + 1 = i + 1 + (mid ++ [y]).length := by simp; omega
    have h1 := ih x (mid ++ [y])
      (fun o ho => hall o (by
        rcases List.mem_cons.mp ho with ho1 | ho1
        · rw [ho1]; exact List.mem_cons_self _ _
        · exact List.mem_cons_of_mem _ (List.mem_cons_of_mem _ ho1)))
      (fun z hz => hmin z (List.mem_cons_of_mem _ hz))
    rw [List.length_cons, hstep]
    simp only [h, decide_False, Bool.false_eq_true, if_false]
    rw [hlen2]
    simpa using h1

/-- The outer loop of `Sort` over later entries already in order: the slice is
left as it is. -/
theorem sortOuter_sorted (code : String) :
    ∀ (k i : Nat) (pre suf : List Money), pre.length = i → suf.length = k →
      (∀ o ∈ suf, ∃ oc, o.currency = some oc ∧ oc.Code = code) →
      suf.Pairwise (fun a b => a.amount.toRat ≤ b.amount.toRat) →
      sortOuter k i (pre ++ suf) = ret (pre ++ suf, none) := by
  intro k
  induction k with
  | zero =>
    intro i pre suf _ _ _ _
    simp [sortOuter]
  | succ k ih =>
    intro i pre suf hi hk hall hsorted
    obtain ⟨x, rest, hs⟩ : ∃ x rest, suf = x :: rest := by
      cases suf with
      | nil => simp at hk
      | cons x rest => exact ⟨x, rest, rfl⟩
    subst hs
    have hrest : rest.length = k := by simpa using hk
    rw [List.pairwise_cons] at hsorted
    have h1 := sortInner_noswap code i pre hi rest x [] hall hsorted.1
    have hlen : (pre ++ x :: rest).length - (i + 1) = rest.length := by
      simp [hi]
      omega
    have h1' : sortInner i rest.length (i + 1) (pre ++ x :: rest) =
        ret (pre ++ x :: rest, none) := by simpa using h1
    have h4 := ih (i + 1) (pre ++ [x]) rest (by simp [hi]) hrest
      (fun o ho => hall o (List.mem_cons_of_mem _ ho)) hsorted.2
    rw [sortOuter, hlen]
    simp only [h1', Outcome.bind]
    have e1 : pre ++ x :: rest = (pre ++ [x]) ++ rest := by simp
    rw [e1, h4]
/-! ## Sum, Min, Max and Sort: the claims -/

/-- C21: for a non-empty list of Money values that all carry one non-empty
currency code, Sum returns without error a Money of that code whose amount is
exactly the sum of the amounts; for the empty list Sum returns a nil result and
no error. -/
theorem Sum_same_currency (get : String → Currency) (code : String) (ms : List Money)
    (hcode : code ≠ "") (hne : ms ≠ [])
    (hall : ∀ o ∈ ms, ∃ oc, o.currency = some oc ∧ oc.Code = code) :
    (∃ (r : Money) (c : Currency), Sum get ms = ret (some r, none) ∧ r.currency = some c ∧
      c.Code = code ∧ r.amount.toRat = (ms.map fun o => o.amount.toRat).sum) ∧
    Sum get [] = ret (none, none) := by
  refine ⟨?_, by simp [Sum, sumLoop]⟩
  cases ms with
  | nil => exact absurd rfl hne
  | cons first rest =>
    obtain ⟨c, hc, hccode⟩ := hall first (List.mem_cons_self _ _)
    have hcode1 : c.Code ≠ "" := by rw [hccode]; exact hcode
    obtain ⟨r, h1, h2, h3⟩ := sumLoop_ok get c hcode1 rest first hc
      (fun o ho _ => by
        obtain ⟨oc, h4, h5⟩ := hall o (List.mem_cons_of_mem _ ho)
        exact ⟨oc, h4, h5.trans hccode.symm⟩)
    refine ⟨r, c, ?_, h2, hccode, ?_⟩
    · simp only [Sum, sumLoop, h1]
    · rw [h3, List.map_cons, List.sum_cons]

theorem Sum_same_currency_witness :
    ∃ (r : Money) (c : Currency),
      Sum sampleGet [mk GBP 1 0, mk GBP 2 0, mk GBP 3 0] = ret (some r, none) ∧
      r.currency = some c ∧ c.Code = "GBP" ∧
      r.amount.toRat =
        ([mk GBP 1 0, mk GBP 2 0, mk GBP 3 0].map fun o => o.amount.toRat).sum :=
  (Sum_same_currency sampleGet "GBP" [mk GBP 1 0, mk GBP 2 0, mk GBP 3 0] (by decide)
    (by simp) (by
      intro o ho
      simp only [List.mem_cons, List.mem_singleton, List.not_mem_nil, or_false] at ho
      rcases ho with h | h | h <;> exact ⟨GBP, by rw [h]; rfl, rfl⟩)).1

/-- C22 (counterexample): the sum and the average of 5 EUR and 0 USD are
computed, 5 EUR and 2.50 EUR, without error. -/
theorem Sum_zero_other_currency_counterexample :
    Sum sampleGet [mk EUR 5 0, mk USD 0 0] = ret (some (mk EUR 5 0), none) ∧
    Average sampleGet [mk EUR 5 0, mk USD 0 0] = ret (some (mk EUR 250 (-2)), none) := by
  decide

/-- C22 (amended): for a list of Money values with currencies that holds two
values of different codes, Min, Max, Sort and Median return the
CurrencyMismatch error and no result; Sum and Average, the first element
having a non-empty code, return it exactly when some later element has a
non-zero amount and another code than the first. -/
theorem aggregates_currency_mismatch (get : String → Currency) (first : Money)
    (rest : List Money) (c : Currency) (hc : first.currency = some c)
    (hcur : ∀ o ∈ rest, ∃ oc, o.currency = some oc)
    (hdiff : ∃ a ∈ first :: rest, ∃ b ∈ first :: rest, ∃ ca cb, a.currency = some ca ∧
      b.currency = some cb ∧ ca.Code ≠ cb.Code) :
    Min (first :: rest) = ret (none, some Error.ErrCurrencyMismatch) ∧
    Max (first :: rest) = ret (none, some Error.ErrCurrencyMismatch) ∧
    SortMoneys (first :: rest) = ret (none, some Error.ErrCurrencyMismatch) ∧
    Median get (first :: rest) = ret (none, some Error.ErrCurrencyMismatch) ∧
    (c.Code ≠ "" →
      (Sum get (first :: rest) = ret (none, some Error.ErrCurrencyMismatch) ↔
        ∃ o ∈ rest, o.amount.value ≠ 0 ∧ ∃ oc, o.currency = some oc ∧ oc.Code ≠ c.Code) ∧
      (Average get (first :: rest) = ret (none, some Error.ErrCurrencyMismatch) ↔
        ∃ o ∈ rest, o.amount.value ≠ 0 ∧ ∃ oc, o.currency = some oc ∧ oc.Code ≠ c.Code)) := by
  have hbad := differs_from_first first rest c hc hdiff
  have hcurall : ∀ o ∈ first :: rest, ∃ oc, o.currency = some oc := by
    intro o ho
    rcases List.mem_cons.mp ho with h | h
    · exact ⟨c, by rw [h]; exact hc⟩
    · exact hcur o h
  have hsort := SortMoneys_bad (first :: rest) hcurall hdiff
  refine ⟨?_, ?_, hsort, ?_, ?_⟩
  · simp only [Min, minLoop]
    exact minLoop_bad c.Code rest first ⟨c, hc, rfl⟩ hcur hbad
  · simp only [Max, maxLoop]
    exact maxLoop_bad c.Code rest first ⟨c, hc, rfl⟩ hcur hbad
  · simp only [Median, hsort, Outcome.bind]
  · intro hcode
    have hsum : Sum get (first :: rest) = sumLoop get rest (some first) := by
      simp only [Sum, sumLoop]
    by_cases hex : ∃ o ∈ rest, o.amount.value ≠ 0 ∧ ∃ oc, o.currency = some oc ∧ oc.Code ≠ c.Code
    · have h1 := sumLoop_bad get c hcode rest first hc hcur hex
      refine ⟨⟨fun _ => hex, fun _ => hsum.trans h1⟩, ⟨fun _ => hex, fun _ => ?_⟩⟩
      simp only [Average, hsum, h1, Outcome.bind]
    · have hgood : ∀ o ∈ rest, o.amount.value ≠ 0 →
          ∃ oc, o.currency = some oc ∧ oc.Code = c.Code := by
        intro o ho hv
        obtain ⟨oc, hoc⟩ := hcur o ho
        refine ⟨oc, hoc, ?_⟩
        by_contra hne
        exact hex ⟨o, ho, hv, oc, hoc, hne⟩
      obtain ⟨r, h1, _, _⟩ := sumLoop_ok get c hcode rest first hc hgood
      refine ⟨⟨fun h => ?_, fun h => absurd h hex⟩, ⟨fun h => ?_, fun h => absurd h hex⟩⟩
      · rw [hsum, h1] at h
        cases h
      · exfalso
        simp only [Average, hsum, h1, Outcome.bind] at h
        cases hd : r.Divide (Numeric.decimal (Decimal.NewFromInt ((first :: rest).length : Int))) with
        | ret a =>
          rw [hd] at h
          cases h
        | panic =>
          rw [hd] at h
          cases h
        | diverge =>
          rw [hd] at h
          cases h

theorem aggregates_currency_mismatch_witness :
    Min [mk EUR 5 0, mk USD 0 0] = ret (none, some Error.ErrCurrencyMismatch) ∧
    SortMoneys [mk EUR 5 0, mk USD 0 0] = ret (none, some Error.ErrCurrencyMismatch) ∧
    Median sampleGet [mk EUR 5 0, mk USD 0 0] = ret (none, some Error.ErrCurrencyMismatch) ∧
    Sum sampleGet [mk EUR 5 0, mk USD 1 0] = ret (none, some Error.ErrCurrencyMismatch) := by
  have hcur : ∀ v : Int, ∀ o ∈ [mk USD v 0], ∃ oc, o.currency = some oc := by
    intro v o ho
    rw [List.mem_singleton] at ho
    exact ⟨USD, by rw [ho]; rfl⟩
  have hdiff : ∀ v : Int, ∃ a ∈ mk EUR 5 0 :: [mk USD v 0], ∃ b ∈ mk EUR 5 0 :: [mk USD v 0],
      ∃ ca cb, a.currency = some ca ∧ b.currency = some cb ∧ ca.Code ≠ cb.Code :=
    fun v => ⟨mk EUR 5 0, by simp, mk USD v 0, by simp, EUR, USD, rfl, rfl, by decide⟩
  have h0 := aggregates_currency_mismatch sampleGet (mk EUR 5 0) [mk USD 0 0] EUR rfl
    (hcur 0) (hdiff 0)
  have h1 := aggregates_currency_mismatch sampleGet (mk EUR 5 0) [mk USD 1 0] EUR rfl
    (hcur 1) (hdiff 1)
  exact ⟨h0.1, h0.2.2.1, h0.2.2.2.1,
    (h1.2.2.2.2 (by decide)).1.mpr ⟨mk USD 1 0, by simp, by decide, USD, rfl, by decide⟩⟩

/-- C23: for a list of Money values of one currency code, Sort returns without
error a list that is a permutation of the input, of the same length, in
non-decreasing order of amount. -/
theorem Sort_permutation_ordered (code : String) (ms : List Money)
    (hall : ∀ o ∈ ms, ∃ oc, o.currency = some oc ∧ oc.Code = code) :
    ∃ sorted : List Money, SortMoneys ms = ret (some sorted, none) ∧ sorted.Perm ms ∧
      sorted.length = ms.length ∧
      sorted.Pairwise (fun a b => a.amount.toRat ≤ b.amount.toRat) := by
  obtain ⟨sorted, h1, h2, h3⟩ := SortMoneys_same code ms hall
  exact ⟨sorted, h1, h2, h2.length_eq, h3⟩

theorem Sort_permutation_ordered_witness :
    ∃ sorted : List Money,
      SortMoneys [mk GBP 4 0, mk GBP 1 0, mk GBP 2 0] = ret (some sorted, none) ∧
      sorted.Perm [mk GBP 4 0, mk GBP 1 0, mk GBP 2 0] ∧
      sorted.length = [mk GBP 4 0, mk GBP 1 0, mk GBP 2 0].length ∧
      sorted.Pairwise (fun a b => a.amount.toRat ≤ b.amount.toRat) :=
  Sort_permutation_ordered "GBP" [mk GBP 4 0, mk GBP 1 0, mk GBP 2 0] (by
    intro o ho
    simp only [List.mem_cons, List.mem_singleton, List.not_mem_nil, or_false] at ho
    rcases ho with h | h | h <;> exact ⟨GBP, by rw [h]; rfl, rfl⟩)

/-- C24 (counterexample): sorting 2, 2.0, 1 EUR gives 1, 2.0, 2: the two
elements of equal amount, 2 and 2.0, come out in the opposite order. -/
theorem Sort_not_stable_counterexample :
    SortMoneys [mk EUR 2 0, mk EUR 20 (-1), mk EUR 1 0] =
      ret (some [mk EUR 1 0, mk EUR 20 (-1), mk EUR 2 0], none) ∧
    (mk EUR 2 0).amount.Cmp (mk EUR 20 (-1)).amount = 0 := by
  decide

/-- C24 (amended): a list of Money values of one currency code that is already
in non-decreasing order of amount is returned by Sort as it is, every element
at its place, so that elements of equal amount keep their order. -/
theorem Sort_sorted_input_unchanged (code : String) (ms : List Money)
    (hall : ∀ o ∈ ms, ∃ oc, o.currency = some oc ∧ oc.Code = code)
    (hsorted : ms.Pairwise (fun a b => a.amount.toRat ≤ b.amount.toRat)) :
    SortMoneys ms = ret (some ms, none) := by
  have h1 := sortOuter_sorted code ms.length 0 [] ms rfl rfl hall hsorted
  have h1' : sortOuter ms.length 0 ms = ret (ms, none) := by simpa using h1
  simp only [SortMoneys, h1', Outcome.bind]

theorem Sort_sorted_input_unchanged_witness :
    SortMoneys [mk EUR 1 0, mk EUR 2 0, mk EUR 20 (-1)] =
      ret (some [mk EUR 1 0, mk EUR 2 0, mk EUR 20 (-1)], none) :=
  Sort_sorted_input_unchanged "EUR" [mk EUR 1 0, mk EUR 2 0, mk EUR 20 (-1)] (by
    intro o ho
    simp only [List.mem_cons, List.mem_singleton, List.not_mem_nil, or_false] at ho
    rcases ho with h | h | h <;> exact ⟨EUR, by rw [h]; rfl, rfl⟩) (by
    simp only [List.pairwise_cons, List.mem_cons, List.mem_singleton, List.not_mem_nil,
      or_false, forall_eq_or_imp, forall_eq, List.Pairwise.nil, and_true, IsEmpty.forall_iff,
      implies_true]
    norm_num [mk, Decimal.toRat])

/-- C25: for a non-empty list of Money values of one currency code, Min returns
without error an element of the list whose amount is no larger than any
element's, and Max one whose amount is no smaller than any element's. -/
theorem Min_Max_extremes (code : String) (ms : List Money) (hne : ms ≠ [])
    (hall : ∀ o ∈ ms, ∃ oc, o.currency = some oc ∧ oc.Code = code) :
    (∃ x : Money, Min ms = ret (some x, none) ∧ x ∈ ms ∧
      ∀ y ∈ ms, x.amount.toRat ≤ y.amount.toRat) ∧
    (∃ x : Money, Max ms = ret (some x, none) ∧ x ∈ ms ∧
      ∀ y ∈ ms, y.amount.toRat ≤ x.amount.toRat) := by
  cases ms with
  | nil => exact absurd rfl hne
  | cons first rest =>
    obtain ⟨x, h1, h2, h3⟩ := minLoop_same code rest first hall
    obtain ⟨z, h4, h5, h6⟩ := maxLoop_same code rest first hall
    exact ⟨⟨x, by simp only [Min, minLoop, h1], h2, h3⟩,
      ⟨z, by simp only [Max, maxLoop, h4], h5, h6⟩⟩

theorem Min_Max_extremes_witness :
    (∃ x : Money, Min [mk GBP 2 0, mk GBP 1 0, mk GBP 4 0] = ret (some x, none) ∧
      x ∈ [mk GBP 2 0, mk GBP 1 0, mk GBP 4 0] ∧
      ∀ y ∈ [mk GBP 2 0, mk GBP 1 0, mk GBP 4 0], x.amount.toRat ≤ y.amount.toRat) ∧
    (∃ x : Money, Max [mk GBP 2 0, mk GBP 1 0, mk GBP 4 0] = ret (some x, none) ∧
      x ∈ [mk GBP 2 0, mk GBP 1 0, mk GBP 4 0] ∧
      ∀ y ∈ [mk GBP 2 0, mk GBP 1 0, mk GBP 4 0], y.amount.toRat ≤ x.amount.toRat) :=
  Min_Max_extremes "GBP" [mk GBP 2 0, mk GBP 1 0, mk GBP 4 0] (by simp) (by
    intro o ho
    simp only [List.mem_cons, List.mem_singleton, List.not_mem_nil, or_false] at ho
    rcases ho with h | h | h <;> exact ⟨GBP, by rw [h]; rfl, rfl⟩)
/-! ## Format: the integer part -/

theorem groupRev_short (sep : List Char) (ds : List Char) (h : ds.length ≤ 3) :
    groupRev sep ds = ds := by
  match ds, h with
  | [], _ => rfl
  | [_], _ => rfl
  | [_, _], _ => rfl
  | [_, _, _], _ => rfl
  | _ :: _ :: _ :: _ :: _, h => simp at h

theorem groupRev_long (sep : List Char) (a b c d : Char) (tl : List Char) :
    groupRev sep (a :: b :: c :: d :: tl) =
      a :: b :: c :: (sep.reverse ++ groupRev sep (d :: tl)) := by
  rw [groupRev]

theorem groupThousands_short (sep ds : List Char) (h : ds.length ≤ 3) :
    groupThousands sep ds = ds := by
  unfold groupThousands
  rw [groupRev_short sep ds.reverse (by simpa using h), List.reverse_reverse]

/-- Three digits after a non-empty front: the front is grouped on its own and
the separator comes before the three digits. -/
theorem groupThousands_append (sep p : List Char) (a b c : Char) (hp : p ≠ []) :
    groupThousands sep (p ++ [a, b, c]) = groupThousands sep p ++ sep ++ [a, b, c] := by
  unfold groupThousands
  obtain ⟨d, tl, hd⟩ : ∃ d tl, p.reverse = d :: tl := by
    cases h : p.reverse with
    | nil => exact absurd (List.reverse_eq_nil_iff.mp h) hp
    | cons d tl => exact ⟨d, tl, rfl⟩
  have h1 : (p ++ [a, b, c]).reverse = c :: b :: a :: d :: tl := by
    simp [hd]
  rw [h1, groupRev_long, hd]
  simp

/-- The loop of `Format` touches only the characters before the index. -/
theorem thousandLoop_append (sep : List Char) :
    ∀ (turns : Nat) (p t : List Char) (i : Int), i ≤ p.length →
      thousandLoop sep turns (p ++ t) i = thousandLoop sep turns p i ++ t := by
  intro turns
  induction turns with
  | zero =>
    intro p t i _
    simp [thousandLoop]
  | succ turns ih =>
    intro p t i hi
    by_cases hpos : i > 0
    · have hn : i.toNat ≤ p.length := by omega
      have e1 : (p ++ t).take i.toNat = p.take i.toNat := List.take_append_of_le_length hn
      have e2 : (p ++ t).drop i.toNat = p.drop i.toNat ++ t := List.drop_append_of_le_length hn
      have hlen : i - 3 ≤ ((p.take i.toNat ++ sep ++ p.drop i.toNat).length : Int) := by
        simp only [List.length_append, List.length_take, List.length_drop]
        omega
      have h := ih (p.take i.toNat ++ sep ++ p.drop i.toNat) t (i - 3) hlen
      simp only [thousandLoop, hpos, if_true, e1, e2]
      rw [← h]
      simp
    · simp [thousandLoop, hpos]

/-- The loop of `Format` groups the digits by three from the right. -/
theorem thousandLoop_spec (sep : List Char) :
    ∀ (n : Nat) (ds : List Char) (turns : Nat), ds.length ≤ n → ds.length ≤ turns →
      thousandLoop sep turns ds ((ds.length : Int) - 3) = groupThousands sep ds := by
  intro n
  induction n with
  | zero =>
    intro ds turns hn _
    have h0 : ds = [] := List.length_eq_zero.mp (Nat.le_zero.mp hn)
    subst h0
    cases turns <;> simp [thousandLoop, groupThousands, groupRev]
  | succ n ih =>
    intro ds turns hn hturns
    by_cases hshort : ds.length ≤ 3
    · rw [groupThousands_short sep ds hshort]
      cases turns with
      | zero => simp [thousandLoop]
      | succ turns =>
        have : ¬ ((ds.length : Int) - 3 > 0) := by omega
        simp [thousandLoop, this]
    · push_neg at hshort
      obtain ⟨turns1, ht⟩ : ∃ turns1, turns = turns1 + 1 := ⟨turns - 1, by omega⟩
      subst ht
      have hpos : (ds.length : Int) - 3 > 0 := by omega
      have hnat : ((ds.length : Int) - 3).toNat = ds.length - 3 := by omega
      have hsplit : ds = ds.take (ds.length - 3) ++ ds.drop (ds.length - 3) :=
        (List.take_append_drop _ _).symm
      have hplen : (ds.take (ds.length - 3)).length = ds.length - 3 := by
        simp
      have htlen : (ds.drop (ds.length - 3)).length = 3 := by
        simp
        omega
      obtain ⟨a, b, c, habc⟩ : ∃ a b c, ds.drop (ds.length - 3) = [a, b, c] := by
        match hd : ds.drop (ds.length - 3), htlen with
        | [a, b, c], _ => exact ⟨a, b, c, rfl⟩
      have hpne : ds.take (ds.length - 3) ≠ [] := by
        intro h
        rw [h] at hplen
        simp at hplen
        omega
      have hrec := ih (ds.take (ds.length - 3)) turns1 (by rw [hplen]; omega)
        (by rw [hplen]; omega)
      rw [hplen] at hrec
      have hidx : ((ds.length : Int) - 3 - 3) = ((ds.length - 3 : Nat) : Int) - 3 := by omega
      have hloc := thousandLoop_append sep turns1 (ds.take (ds.length - 3))
        (sep ++ ds.drop (ds.length - 3)) ((ds.length : Int) - 3 - 3) (by rw [hplen]; omega)
      have hstep : thousandLoop sep (turns1 + 1) ds ((ds.length : Int) - 3) =
          thousandLoop sep turns1
            (ds.take (ds.length - 3) ++ (sep ++ ds.drop (ds.length - 3)))
            ((ds.length : Int) - 3 - 3) := by
        simp only [thousandLoop, hpos, if_true, hnat, List.append_assoc]
      rw [hstep, hloc, hidx, hrec]
      conv_rhs => rw [hsplit, habc, groupThousands_append sep _ a b c hpne]
      rw [habc]
      simp
/-- The value of `rescale(0)` is the number truncated toward zero to a whole
number. -/
theorem rescale_zero_truncation (d : Decimal) :
    IsTruncation d.toRat (((d.rescale 0).value : Int) : ℚ) 0 := by
  obtain ⟨D, s, hD, hs, hpos, hneg, hrat, _⟩ := rescale_spec d 0
  have hDq : (0 : ℚ) < (D : ℚ) := by exact_mod_cast hD
  have hs1 : -(D : ℚ) < (s : ℚ) := by exact_mod_cast (abs_lt.mp hs).1
  have hs2 : (s : ℚ) < (D : ℚ) := by exact_mod_cast (abs_lt.mp hs).2
  generalize (d.rescale 0).value = v at hpos hneg hrat
  generalize d.toRat = x at hrat
  have hx : (x - v) * D = s := by
    push_cast at hrat
    simp only [zpow_zero, mul_one] at hrat
    linarith
  have hlt : |x - (v : ℚ)| < 1 := by
    rw [abs_lt]
    constructor
    · by_contra hcon
      push_neg at hcon
      nlinarith
    · by_contra hcon
      push_neg at hcon
      nlinarith
  refine ⟨⟨v, by simp⟩, ?_, by simpa using hlt, ?_⟩
  · rcases le_total 0 d.value with hv | hv
    · obtain ⟨h1, h2⟩ := hpos hv
      have h1q : (0 : ℚ) ≤ (s : ℚ) := by exact_mod_cast h1
      have h2q : (0 : ℚ) ≤ (v : ℚ) := by exact_mod_cast h2
      have hxv : (v : ℚ) ≤ x := by
        by_contra hcon
        push_neg at hcon
        nlinarith
      rw [abs_of_nonneg h2q, abs_of_nonneg (le_trans h2q hxv)]
      exact hxv
    · obtain ⟨h1, h2⟩ := hneg hv
      have h1q : (s : ℚ) ≤ 0 := by exact_mod_cast h1
      have h2q : (v : ℚ) ≤ 0 := by exact_mod_cast h2
      have hxv : x ≤ (v : ℚ) := by
        by_contra hcon
        push_neg at hcon
        nlinarith
      rw [abs_of_nonpos h2q, abs_of_nonpos (le_trans hxv h2q)]
      linarith
  · rcases le_total 0 d.value with hv | hv
    · obtain ⟨h1, h2⟩ := hpos hv
      have h1q : (0 : ℚ) ≤ (s : ℚ) := by exact_mod_cast h1
      have h2q : (0 : ℚ) ≤ (v : ℚ) := by exact_mod_cast h2
      have hxv : (v : ℚ) ≤ x := by
        by_contra hcon
        push_neg at hcon
        nlinarith
      exact mul_nonneg (le_trans h2q hxv) h2q
    · obtain ⟨h1, h2⟩ := hneg hv
      have h1q : (s : ℚ) ≤ 0 := by exact_mod_cast h1
      have h2q : (v : ℚ) ≤ 0 := by exact_mod_cast h2
      have hxv : x ≤ (v : ℚ) := by
        by_contra hcon
        push_neg at hcon
        nlinarith
      exact mul_nonneg_of_nonpos_of_nonpos (le_trans hxv h2q) h2q

theorem digitChar_ne_minus (k : Nat) (hk : k < 10) : Nat.digitChar k ≠ '-' := by
  interval_cases k <;> decide

theorem toDigitsCore_no_minus :
    ∀ (fuel n : Nat) (ds : List Char), (∀ c ∈ ds, c ≠ '-') →
      ∀ c ∈ Nat.toDigitsCore 10 fuel n ds, c ≠ '-' := by
  intro fuel
  induction fuel with
  | zero =>
    intro n ds hds c hc
    simp only [Nat.toDigitsCore] at hc
    exact hds c hc
  | succ fuel ih =>
    intro n ds hds c hc
    have hcons : ∀ c1 ∈ Nat.digitChar (n % 10) :: ds, c1 ≠ '-' := by
      intro c1 hc1
      rcases List.mem_cons.mp hc1 with h | h
      · rw [h]
        exact digitChar_ne_minus _ (Nat.mod_lt _ (by norm_num))
      · exact hds c1 h
    simp only [Nat.toDigitsCore] at hc
    split_ifs at hc
    · exact hcons c hc
    · exact ih _ _ hcons c hc

/-- The sign is all that `TrimPrefix` takes off the digits of `cast.ToString`. -/
theorem trimMinus_castToString (v : Int) :
    trimMinus (castToString v) = Nat.toDigits 10 v.natAbs := by
  unfold castToString
  split_ifs
  · rfl
  · have hno : ∀ c ∈ Nat.toDigits 10 v.natAbs, c ≠ '-' :=
      toDigitsCore_no_minus _ _ [] (by simp)
    generalize Nat.toDigits 10 v.natAbs = ds at hno
    cases ds with
    | nil => rfl
    | cons c tl =>
      have hc : c ≠ '-' := hno c (List.mem_cons_self _ _)
      unfold trimMinus
      split
      · rename_i heq
        simp only [List.cons.injEq] at heq
        exact absurd heq.1 hc
      · rfl

theorem groupRev_getLast (sep : List Char) :
    ∀ (n : Nat) (l : List Char), l.length ≤ n → (groupRev sep l).getLast? = l.getLast? := by
  intro n
  induction n using Nat.strong_induction_on with
  | _ n ih =>
    intro l hl
    by_cases hshort : l.length ≤ 3
    · rw [groupRev_short sep l hshort]
    · push_neg at hshort
      match l, hl, hshort with
      | a :: b :: c :: d :: tl, hl, _ =>
        have hrec := ih (d :: tl).length (by simp at hl ⊢; omega) (d :: tl) (le_refl _)
        have hne : groupRev sep (d :: tl) ≠ [] := by
          intro h
          rw [h] at hrec
          have h2 : (d :: tl).getLast? = some ((d :: tl).getLast (by simp)) :=
            List.getLast?_eq_getLast _ _
          rw [h2] at hrec
          simp at hrec
        rw [groupRev_long]
        have e : a :: b :: c :: (sep.reverse ++ groupRev sep (d :: tl)) =
            (a :: b :: c :: sep.reverse) ++ groupRev sep (d :: tl) := by simp
        rw [e, List.getLast?_append_of_ne_nil _ hne, hrec]
        simp

theorem groupThousands_head (sep ds : List Char) :
    (groupThousands sep ds).head? = ds.head? := by
  unfold groupThousands
  rw [List.head?_reverse, groupRev_getLast sep _ _ (le_refl _), List.getLast?_reverse]

/-- The integer part of 9223372036854775809 euros, one above 2^63, is rendered
as 9,223,372,036,854,775,807, which is not the grouping of its digits. -/
theorem integerPart_wraps_example :
    euroFormatter.integerPart (Decimal.mk (2 ^ 63 + 1) 0) =
      "9,223,372,036,854,775,807".toList ∧
    groupThousands ",".toList (Nat.toDigits 10 (2 ^ 63 + 1)) =
      "9,223,372,036,854,775,809".toList := by
  decide

/-- Within the range of `int64` the integer part is grouped as described: for
every Formatter with a non-empty thousands separator and every amount of
magnitude below 2^63, the integer part rendered by Format is the decimal
digits of the amount truncated toward zero to a whole number, sign dropped,
with the separator between every group of three digits counted from the right;
at most three digits are left as they are, and the rendering starts with the
first digit, never with the separator. -/
theorem Format_integer_part_grouped (f : Formatter) (amount : Decimal)
    (hsep : f.Thousand ≠ "") (hfit : |amount.toRat| < 2 ^ 63) :
    ∃ z : Int, IsTruncation amount.toRat (z : ℚ) 0 ∧
      f.integerPart amount = groupThousands f.Thousand.toList (Nat.toDigits 10 z.natAbs) ∧
      ((Nat.toDigits 10 z.natAbs).length ≤ 3 →
        f.integerPart amount = Nat.toDigits 10 z.natAbs) ∧
      (f.integerPart amount).head? = (Nat.toDigits 10 z.natAbs).head? := by
  have htr := rescale_zero_truncation amount
  have hbound : |(((amount.rescale 0).value : Int) : ℚ)| < 2 ^ 63 := lt_of_le_of_lt htr.2.1 hfit
  have hint : |(amount.rescale 0).value| < 2 ^ 63 := by exact_mod_cast hbound
  have hz : amount.IntPart = (amount.rescale 0).value := by
    unfold Decimal.IntPart
    exact toInt64_of_fits _ (by have := (abs_lt.mp hint).1; omega) (abs_lt.mp hint).2
  have hpart : f.integerPart amount =
      groupThousands f.Thousand.toList (Nat.toDigits 10 (amount.rescale 0).value.natAbs) := by
    simp only [Formatter.integerPart, hsep, ne_eq, not_false_eq_true, if_true, hz,
      trimMinus_castToString]
    exact thousandLoop_spec _ _ _ _ (le_refl _) (le_refl _)
  refine ⟨(amount.rescale 0).value, htr, hpart, ?_, ?_⟩
  · intro hlen
    rw [hpart, groupThousands_short _ _ hlen]
  · rw [hpart, groupThousands_head]

theorem Format_integer_part_grouped_example :
    ∃ z : Int, IsTruncation (Decimal.mk 123456789 (-2)).toRat (z : ℚ) 0 ∧
      euroFormatter.integerPart (Decimal.mk 123456789 (-2)) =
        groupThousands euroFormatter.Thousand.toList (Nat.toDigits 10 z.natAbs) ∧
      ((Nat.toDigits 10 z.natAbs).length ≤ 3 →
        euroFormatter.integerPart (Decimal.mk 123456789 (-2)) = Nat.toDigits 10 z.natAbs) ∧
      (euroFormatter.integerPart (Decimal.mk 123456789 (-2))).head? =
        (Nat.toDigits 10 z.natAbs).head? :=
  Format_integer_part_grouped euroFormatter (Decimal.mk 123456789 (-2)) (by decide)
    (by
      rw [abs_lt]
      constructor <;> norm_num [Decimal.toRat])

/-- The example of the documentation: 1234567.89 EUR has the integer part
1,234,567 and 123.45 EUR the integer part 123. -/
theorem Format_integer_part_examples :
    euroFormatter.integerPart (Decimal.mk 123456789 (-2)) = "1,234,567".toList ∧
    euroFormatter.integerPart (Decimal.mk (-123456789) (-2)) = "1,234,567".toList ∧
    euroFormatter.integerPart (Decimal.mk 12345 (-2)) = "123".toList := by
  decide
/-! ## Average, Median and ConvertToDecimal -/

/-- Within the division precision of the engine Average truncates: when the
amounts of a list of one non-empty code add up to `A` minor units of the first
element's currency, of `f ≤ 16` fraction digits, and the count `n` is below
`2 * 10 ^ (16 - f)`, the result is the truncated quotient of `A` by `n`, in
minor units. -/
theorem Average_whole_exact (get : String → Currency) (first : Money) (rest : List Money)
    (c : Currency) (A : Int) (hc : first.currency = some c) (hcode : c.Code ≠ "")
    (hf : c.Fraction ≤ 16)
    (hall : ∀ o ∈ rest, ∃ oc, o.currency = some oc ∧ oc.Code = c.Code)
    (hn : (((first :: rest).length : Nat) : Int) < 2 * 10 ^ (16 - c.Fraction))
    (hA : ((first :: rest).map fun o => o.amount.toRat).sum =
      (A : ℚ) * (10 : ℚ) ^ (-(c.Fraction : Int))) :
    ∃ r : Money, Average get (first :: rest) = ret (some r, none) ∧ r.currency = some c ∧
      r.amount.toRat =
        ((A.tdiv (((first :: rest).length : Nat) : Int) : Int) : ℚ) *
          (10 : ℚ) ^ (-(c.Fraction : Int)) := by
  obtain ⟨s, h1, h2, h3⟩ := sumLoop_ok get c hcode rest first hc (fun o ho _ => hall o ho)
  have hsum : s.amount.toRat = (A : ℚ) * (10 : ℚ) ^ (-(c.Fraction : Int)) := by
    rw [h3, ← hA, List.map_cons, List.sum_cons]
  have hpos : (0 : Int) < (((first :: rest).length : Nat) : Int) := by
    simp only [List.length_cons]
    omega
  obtain ⟨r, h4, h5, h6⟩ := Divide_whole_exact s c A _ h2 hf hpos hn hsum
  have hdiv : s.Divide (Numeric.decimal (Decimal.NewFromInt (((first :: rest).length : Nat) : Int))) =
      s.Divide (Numeric.int64 (((first :: rest).length : Nat) : Int)) := by
    simp only [Money.Divide, ConvertToDecimal]
  refine ⟨r, ?_, h5.trans h2, h6⟩
  have hS : Sum get (first :: rest) = ret (some s, none) := by
    simp only [Sum, sumLoop, h1]
  simp only [Average, hS, Outcome.bind, hdiv, h4]

/-- Function `Median` on a non-empty list of one non-empty code: with the
sorted rearrangement of `Sort`, an odd count gives its middle entry; an even
count gives `Divide` by 2 of a Money whose amount is the exact sum of the two
middle entries, which is the truncated half of that sum when the sum is a
whole number `A` of minor units of a currency of at most 15 fraction
digits. -/
theorem Median_same (get : String → Currency) (code : String) (ms : List Money)
    (hne : ms ≠ []) (hcode : code ≠ "")
    (hall : ∀ o ∈ ms, ∃ oc, o.currency = some oc ∧ oc.Code = code) :
    ∃ sorted : List Money, SortMoneys ms = ret (some sorted, none) ∧ sorted.Perm ms ∧
      sorted.Pairwise (fun a b => a.amount.toRat ≤ b.amount.toRat) ∧
      (ms.length % 2 = 1 →
        ∃ x : Money, sorted[ms.length / 2]? = some x ∧ Median get ms = ret (some x, none)) ∧
      (ms.length % 2 = 0 →
        ∃ a b s : Money, sorted[ms.length / 2 - 1]? = some a ∧
          sorted[ms.length / 2]? = some b ∧ s.currency = a.currency ∧
          s.amount.toRat = a.amount.toRat + b.amount.toRat ∧
          Median get ms =
            (s.Divide (Numeric.decimal (Decimal.NewFromInt 2))).bind
              (fun d => ret (some d, none)) ∧
          ∀ (c : Currency) (A : Int), a.currency = some c → c.Fraction ≤ 15 →
            a.amount.toRat + b.amount.toRat = (A : ℚ) * (10 : ℚ) ^ (-(c.Fraction : Int)) →
            ∃ r : Money, Median get ms = ret (some r, none) ∧ r.currency = some c ∧
              r.amount.toRat = ((A.tdiv 2 : Int) : ℚ) * (10 : ℚ) ^ (-(c.Fraction : Int))) := by
  obtain ⟨sorted, h1, h2, h3⟩ := SortMoneys_same code ms hall
  have hlen : sorted.length = ms.length := h2.length_eq
  have hpos : 0 < ms.length := List.length_pos.mpr hne
  refine ⟨sorted, h1, h2, h3, ?_, ?_⟩
  · intro hodd
    have hlt : ms.length / 2 < sorted.length := by omega
    refine ⟨sorted[ms.length / 2], List.getElem?_eq_getElem hlt, ?_⟩
    have hne2 : ¬ ms.length % 2 = 0 := by omega
    simp only [Median, h1, Outcome.bind, hlen, hne2, if_false, List.getElem?_eq_getElem hlt]
  · intro heven
    have hlt : ms.length / 2 < sorted.length := by omega
    have hlt1 : ms.length / 2 - 1 < sorted.length := by omega
    have hhalf : ¬ ms.length / 2 = 0 := by omega
    have ha : sorted[ms.length / 2 - 1]? = some (sorted[ms.length / 2 - 1]) :=
      List.getElem?_eq_getElem hlt1
    have hb : sorted[ms.length / 2]? = some (sorted[ms.length / 2]) :=
      List.getElem?_eq_getElem hlt
    generalize sorted[ms.length / 2 - 1] = a at ha
    generalize sorted[ms.length / 2] = b at hb
    have hamem : a ∈ ms := h2.subset (List.getElem?_mem ha)
    have hbmem : b ∈ ms := h2.subset (List.getElem?_mem hb)
    obtain ⟨ac, hac, hacode⟩ := hall a hamem
    obtain ⟨bc, hbc, hbcode⟩ := hall b hbmem
    have haccode : ac.Code ≠ "" := by rw [hacode]; exact hcode
    obtain ⟨s, hs1, hs2, hs3⟩ := sumLoop_ok get ac haccode [b] a hac
      (fun o ho _ => by
        rw [List.mem_singleton] at ho
        exact ⟨bc, by rw [ho]; exact hbc, hbcode.trans hacode.symm⟩)
    have hS : Sum get [a, b] = ret (some s, none) := hs1
    have hsum : s.amount.toRat = a.amount.toRat + b.amount.toRat := by
      rw [hs3]
      simp
    have hmed : Median get ms =
        (s.Divide (Numeric.decimal (Decimal.NewFromInt 2))).bind
          (fun d => ret (some d, none)) := by
      simp only [Median, h1, Outcome.bind, hlen, heven, if_true, hhalf, if_false, ha, hb, hS]
    refine ⟨a, b, s, ha, hb, hs2.trans hac.symm, hsum, hmed, ?_⟩
    intro c A hca hf hA
    have hcc : ac = c := by
      rw [hac] at hca
      exact Option.some.inj hca
    subst hcc
    obtain ⟨r, h4, h5, h6⟩ := Divide_whole_exact s ac A 2 hs2 (by omega) (by norm_num)
      (by
        have : (10 : Int) ^ 1 ≤ 10 ^ (16 - ac.Fraction) :=
          pow_le_pow_right₀ (by norm_num) (by omega)
        omega)
      (hsum.trans hA)
    have hdiv : s.Divide (Numeric.decimal (Decimal.NewFromInt 2)) =
        s.Divide (Numeric.int64 2) := by
      simp only [Money.Divide, ConvertToDecimal]
    refine ⟨r, ?_, h5.trans hs2, h6⟩
    rw [hmed, hdiv, h4]
    rfl

/-- C26 (evaluation at the failing input): the median of 0.99999999999999995
GBP and 0.99999999999999995 GBP comes back as 1.00 GBP, which is not half of
their sum truncated toward zero to two digits (0.99) and exceeds both; the
median of 1, 2, 3, 4 GBP is 2.50 and that of 3, 1, 2 GBP is 2. -/
theorem Median_rounds_before_truncating :
    Median sampleGet [mk GBP 99999999999999995 (-17), mk GBP 99999999999999995 (-17)] =
      ret (some (mk GBP 100 (-2)), none) ∧
    ¬ IsTruncation
        (((mk GBP 99999999999999995 (-17)).amount.toRat +
          (mk GBP 99999999999999995 (-17)).amount.toRat) / 2)
        (mk GBP 100 (-2)).amount.toRat 2 ∧
    Median sampleGet [mk GBP 3 0, mk GBP 1 0, mk GBP 2 0, mk GBP 4 0] =
      ret (some (mk GBP 250 (-2)), none) ∧
    Median sampleGet [mk GBP 3 0, mk GBP 1 0, mk GBP 2 0] = ret (some (mk GBP 2 0), none) := by
  refine ⟨by decide, ?_, by decide, by decide⟩
  intro h
  have h2 := h.2.1
  norm_num [mk, Decimal.toRat] at h2
  rw [abs_of_pos (by norm_num)] at h2
  linarith

/-- C27 (evaluation at the failing input): the average of the one-element list
0.99999999999999995 EUR comes back as 1.00 EUR, and so does the average of
two such elements; neither is the exact quotient truncated toward zero to two
digits (0.99), and both exceed every element.  The average of 1, 2, 4 GBP is
2.33. -/
theorem Average_rounds_before_truncating :
    Average sampleGet [mk EUR 99999999999999995 (-17)] = ret (some (mk EUR 100 (-2)), none) ∧
    ¬ IsTruncation
        (([mk EUR 99999999999999995 (-17)].map fun o => o.amount.toRat).sum / 1)
        (mk EUR 100 (-2)).amount.toRat 2 ∧
    Average sampleGet [mk EUR 99999999999999995 (-17), mk EUR 99999999999999995 (-17)] =
      ret (some (mk EUR 100 (-2)), none) ∧
    Average sampleGet [mk GBP 1 0, mk GBP 2 0, mk GBP 4 0] =
      ret (some (mk GBP 233 (-2)), none) := by
  refine ⟨by decide, ?_, by decide, by decide⟩
  intro h
  have h2 := h.2.1
  norm_num [mk, Decimal.toRat] at h2
  rw [abs_of_pos (by norm_num)] at h2
  linarith

/-- C28 (evaluation at the failing inputs): the `uint64` values 2^64 - 1 and
2^63, and the `uint` value 2^63, all within the range of their type, are
converted to the decimals -1, -2^63 and -2^63; 2^63 - 1 is converted to
itself. -/
theorem ConvertToDecimal_unsigned_wraps :
    (Numeric.uint64 (2 ^ 64 - 1)).InRange ∧
    ConvertToDecimal (Numeric.uint64 (2 ^ 64 - 1)) = Decimal.NewFromInt (-1) ∧
    (ConvertToDecimal (Numeric.uint64 (2 ^ 64 - 1))).toRat ≠
      (Numeric.uint64 (2 ^ 64 - 1)).toRat ∧
    ConvertToDecimal (Numeric.uint64 (2 ^ 63)) = Decimal.NewFromInt (-(2 ^ 63)) ∧
    ConvertToDecimal (Numeric.uint (2 ^ 63)) = Decimal.NewFromInt (-(2 ^ 63)) ∧
    ConvertToDecimal (Numeric.uint64 (2 ^ 63 - 1)) = Decimal.NewFromInt (2 ^ 63 - 1) := by
  refine ⟨?_, by decide, ?_, by decide, by decide, by decide⟩
  · show (2 ^ 64 - 1 : Nat) < 2 ^ 64
    norm_num
  · have h : ConvertToDecimal (Numeric.uint64 (2 ^ 64 - 1)) = Decimal.NewFromInt (-1) := by
      decide
    rw [h]
    norm_num [Decimal.toRat_NewFromInt, Numeric.toRat]

/-! ## calculator.allocate -/

theorem toRat_Abs (d : Decimal) : d.Abs.toRat = |d.toRat| := by
  simp only [Decimal.Abs, Decimal.toRat, abs_mul, abs_of_pos (Decimal.ten_zpow_pos d.exp)]
  push_cast
  rfl

theorem cmpRat_neg_iff (x y : ℚ) : Decimal.cmpRat x y < 0 ↔ x < y := by
  unfold Decimal.cmpRat
  split_ifs with h1 h2
  · simp [h1]
  · simp [h2]
  · simp [h1]

theorem sign_mul_sign_neg_iff (d d2 : Decimal) :
    d.value.sign * d2.value.sign < 0 ↔ d.toRat * d2.toRat < 0 := by
  have h1 := Decimal.toRat_neg_iff d
  have h2 := Decimal.toRat_neg_iff d2
  have h3 := Decimal.toRat_pos_iff d
  have h4 := Decimal.toRat_pos_iff d2
  have h5 := Decimal.toRat_eq_zero_iff d
  have h6 := Decimal.toRat_eq_zero_iff d2
  rcases lt_trichotomy d.value 0 with ha | ha | ha <;>
    rcases lt_trichotomy d2.value 0 with hb | hb | hb
  · have := mul_pos_of_neg_of_neg (h1.mpr ha) (h2.mpr hb)
    simp [Int.sign_eq_neg_one_of_neg ha, Int.sign_eq_neg_one_of_neg hb]
    linarith
  · simp [hb, h6.mpr hb]
  · have := mul_neg_of_neg_of_pos (h1.mpr ha) (h4.mpr hb)
    simp [Int.sign_eq_neg_one_of_neg ha, Int.sign_eq_one_of_pos hb]
    linarith
  · simp [ha, h5.mpr ha]
  · simp [ha, h5.mpr ha]
  · simp [ha, h5.mpr ha]
  · have := mul_neg_of_pos_of_neg (h3.mpr ha) (h2.mpr hb)
    simp [Int.sign_eq_one_of_pos ha, Int.sign_eq_neg_one_of_neg hb]
    linarith
  · simp [hb, h6.mpr hb]
  · have := mul_pos (h3.mpr ha) (h4.mpr hb)
    simp [Int.sign_eq_one_of_pos ha, Int.sign_eq_one_of_pos hb]
    linarith
/-- Engine `DivRound` on a non-zero divisor: the quotient rounded to `P`
fractional digits, a multiple of `10 ^ (-P)` within half of it of the exact
quotient. -/
theorem DivRound_spec (d d2 : Decimal) (P : Int) (h : d2.value ≠ 0) :
    ∃ q : Decimal, d.DivRound d2 P = ret q ∧ IsRoundedTo (d.toRat / d2.toRat) q.toRat P := by
  obtain ⟨q0, r0, hqr, hexp, hrec, hlt, hsign⟩ := QuoRem_spec d d2 P h
  have hy : d2.toRat ≠ 0 := fun h0 => h ((Decimal.toRat_eq_zero_iff d2).mp h0)
  have hypos : 0 < |d2.toRat| := abs_pos.mpr hy
  have hu := Decimal.ten_zpow_pos (-P)
  have hP := Decimal.ten_zpow_pos P
  have huP : (10 : ℚ) ^ (-P) * (10 : ℚ) ^ P = 1 := by
    rw [← zpow_add₀ Decimal.ten_ne_zero]
    simp
  have hq0 : q0.toRat = (q0.value : ℚ) * (10 : ℚ) ^ (-P) := by
    simp only [Decimal.toRat, hexp]
  have hone : (Decimal.New 1 (-P)).toRat = (10 : ℚ) ^ (-P) := by
    simp [Decimal.New, Decimal.toRat]
  have hr2 : (Decimal.mk (2 * |r0.value|) (r0.exp + P)).toRat =
      2 * |r0.toRat| * (10 : ℚ) ^ P := by
    simp only [Decimal.toRat, abs_mul, abs_of_pos (Decimal.ten_zpow_pos r0.exp)]
    rw [zpow_add₀ Decimal.ten_ne_zero]
    push_cast
    ring
  have hcmp : (Decimal.mk (2 * |r0.value|) (r0.exp + P)).Cmp d2.Abs < 0 ↔
      2 * |r0.toRat| < |d2.toRat| * (10 : ℚ) ^ (-P) := by
    rw [Decimal.Cmp_eq_cmpRat, cmpRat_neg_iff, hr2, toRat_Abs]
    constructor
    · intro h1
      have := mul_lt_mul_of_pos_right h1 hu
      calc 2 * |r0.toRat| = 2 * |r0.toRat| * (10 : ℚ) ^ P * (10 : ℚ) ^ (-P) := by
            rw [mul_assoc, mul_comm ((10 : ℚ) ^ P), huP, mul_one]
        _ < |d2.toRat| * (10 : ℚ) ^ (-P) := this
    · intro h1
      have := mul_lt_mul_of_pos_right h1 hP
      calc 2 * |r0.toRat| * (10 : ℚ) ^ P < |d2.toRat| * (10 : ℚ) ^ (-P) * (10 : ℚ) ^ P := this
        _ = |d2.toRat| := by rw [mul_assoc, huP, mul_one]
  have hquot : d.toRat / d2.toRat = q0.toRat + r0.toRat / d2.toRat := by
    rw [hrec]
    field_simp
    ring
  have habs : |r0.toRat / d2.toRat| = |r0.toRat| / |d2.toRat| := abs_div _ _
  have hlt1 : |r0.toRat| / |d2.toRat| < (10 : ℚ) ^ (-P) := by
    rw [div_lt_iff₀ hypos]
    linarith
  unfold Decimal.DivRound
  rw [hqr]
  simp only [Outcome.bind]
  by_cases hc : (Decimal.mk (2 * |r0.value|) (r0.exp + P)).Cmp d2.Abs < 0
  · simp only [hc, if_true]
    refine ⟨q0, rfl, ⟨q0.value, hq0⟩, ?_⟩
    have h1 := hcmp.mp hc
    rw [hquot]
    have : q0.toRat - (q0.toRat + r0.toRat / d2.toRat) = -(r0.toRat / d2.toRat) := by ring
    rw [this, abs_neg, habs, div_le_iff₀ hypos]
    linarith
  · simp only [hc, if_false]
    have h1 : |d2.toRat| * (10 : ℚ) ^ (-P) ≤ 2 * |r0.toRat| := by
      by_contra hcon
      exact hc (hcmp.mpr (not_le.mp hcon))
    have hge : (10 : ℚ) ^ (-P) / 2 ≤ |r0.toRat| / |d2.toRat| := by
      rw [le_div_iff₀ hypos]
      linarith
    by_cases hs : d.value.sign * d2.value.sign < 0
    · simp only [hs, if_true]
      have hxy := (sign_mul_sign_neg_iff d d2).mp hs
      have hry : r0.toRat / d2.toRat ≤ 0 := by
        have hx : d.toRat ≠ 0 := by
          intro h0
          rw [h0, zero_mul] at hxy
          exact lt_irrefl _ hxy
        have hx2 : 0 < d.toRat ^ 2 := by positivity
        have h2 : r0.toRat * d2.toRat ≤ 0 := by
          by_contra hcon
          push_neg at hcon
          nlinarith [mul_nonneg hsign (le_of_lt hcon)]
        rw [div_eq_mul_inv]
        have h3 : r0.toRat * d2.toRat⁻¹ = r0.toRat * d2.toRat * (d2.toRat⁻¹) ^ 2 := by
          field_simp
          ring
        rw [h3]
        exact mul_nonpos_of_nonpos_of_nonneg h2 (by positivity)
      refine ⟨_, rfl, ⟨q0.value - 1, ?_⟩, ?_⟩
      · rw [Decimal.toRat_Sub, hq0, hone]
        push_cast
        ring
      · rw [Decimal.toRat_Sub, hone, hquot]
        have hneg : r0.toRat / d2.toRat = -(|r0.toRat| / |d2.toRat|) := by
          rw [← habs, abs_of_nonpos hry, neg_neg]
        rw [hneg, abs_le]
        constructor <;> linarith
    · simp only [hs, if_false]
      have hxy : ¬ d.toRat * d2.toRat < 0 := fun h0 => hs ((sign_mul_sign_neg_iff d d2).mpr h0)
      push_neg at hxy
      have hry : 0 ≤ r0.toRat / d2.toRat := by
        by_cases hx : d.toRat = 0
        · exfalso
          have hr : r0.toRat = -(d2.toRat * q0.toRat) := by
            rw [hx] at hrec
            linarith
          have hk : |(q0.value : ℚ)| < 1 := by
            have h4 : |r0.toRat| = |d2.toRat| * (|(q0.value : ℚ)| * (10 : ℚ) ^ (-P)) := by
              rw [hr, abs_neg, abs_mul, hq0, abs_mul, abs_of_pos hu]
            rw [h4] at hlt
            have h5 : |(q0.value : ℚ)| * (10 : ℚ) ^ (-P) < (10 : ℚ) ^ (-P) :=
              lt_of_mul_lt_mul_left hlt hypos.le
            by_contra hcon
            push_neg at hcon
            nlinarith
          have hk0 : q0.value = 0 := by
            have : |q0.value| < 1 := by exact_mod_cast hk
            have := abs_lt.mp this
            omega
          have hr0 : r0.toRat = 0 := by
            rw [hr, hq0, hk0]
            simp
          rw [hr0, abs_zero, mul_zero] at h1
          have := mul_pos hypos hu
          linarith
        · have hx2 : 0 < d.toRat ^ 2 := by positivity
          have h2 : 0 ≤ r0.toRat * d2.toRat := by
            by_contra hcon
            push_neg at hcon
            nlinarith [mul_nonneg hsign hxy]
          rw [div_eq_mul_inv]
          have h3 : r0.toRat * d2.toRat⁻¹ = r0.toRat * d2.toRat * (d2.toRat⁻¹) ^ 2 := by
            field_simp
            ring
          rw [h3]
          exact mul_nonneg h2 (by positivity)
      refine ⟨_, rfl, ⟨q0.value + 1, ?_⟩, ?_⟩
      · rw [Decimal.toRat_Add, hq0, hone]
        push_cast
        ring
      · rw [Decimal.toRat_Add, hone, hquot]
        have hpos : r0.toRat / d2.toRat = |r0.toRat| / |d2.toRat| := by
          rw [← habs, abs_of_nonneg hry]
        rw [hpos, abs_le]
        constructor <;> linarith
/-- C32: `calculator.allocate(a, r, s, p)` returns exact zero when `a` is zero
or `s` is zero, without dividing; otherwise it returns `a * r / s` rounded to
`p` fractional digits: a multiple of `10 ^ (-p)` within half of `10 ^ (-p)` of
the exact value. -/
theorem allocate_zero_or_rounded (a r s : Amount) (p : Int) :
    (a.toRat = 0 ∨ s.toRat = 0 → calculator.allocate a r s p = ret (Decimal.NewFromInt 0)) ∧
    (a.toRat ≠ 0 → s.toRat ≠ 0 →
      ∃ q : Decimal, calculator.allocate a r s p = ret q ∧
        IsRoundedTo (a.toRat * r.toRat / s.toRat) q.toRat p) := by
  constructor
  · intro h
    have h1 : a.value = 0 ∨ s.value = 0 :=
      h.imp (Decimal.toRat_eq_zero_iff a).mp (Decimal.toRat_eq_zero_iff s).mp
    rcases h1 with h1 | h1 <;> simp [calculator.allocate, Decimal.IsZero, h1]
  · intro ha hs
    have ha1 : a.value ≠ 0 := fun h0 => ha ((Decimal.toRat_eq_zero_iff a).mpr h0)
    have hs1 : s.value ≠ 0 := fun h0 => hs ((Decimal.toRat_eq_zero_iff s).mpr h0)
    obtain ⟨q, h1, h2⟩ := DivRound_spec (a.Mul r) s p hs1
    refine ⟨q, ?_, ?_⟩
    · simp [calculator.allocate, Decimal.IsZero, ha1, hs1, h1]
    · rw [← toRat_Mul]
      exact h2

theorem allocate_zero_or_rounded_witness :
    calculator.allocate (Decimal.mk 0 0) (Decimal.mk 1 0) (Decimal.mk 3 0) 2 =
      ret (Decimal.NewFromInt 0) ∧
    ∃ q : Decimal,
      calculator.allocate (Decimal.mk 100 (-2)) (Decimal.mk 1 0) (Decimal.mk 3 0) 2 = ret q ∧
        IsRoundedTo
          ((Decimal.mk 100 (-2)).toRat * (Decimal.mk 1 0).toRat / (Decimal.mk 3 0).toRat)
          q.toRat 2 :=
  ⟨(allocate_zero_or_rounded (Decimal.mk 0 0) (Decimal.mk 1 0) (Decimal.mk 3 0) 2).1
      (Or.inl (by simp [Decimal.toRat])),
    (allocate_zero_or_rounded (Decimal.mk 100 (-2)) (Decimal.mk 1 0) (Decimal.mk 3 0) 2).2
      (by norm_num [Decimal.toRat]) (by norm_num [Decimal.toRat])⟩

/-- Evaluations of `calculator.allocate`: a third of 1.00 to two digits is
0.33, two thirds 0.67, a half of 0.05 to one digit 0.1 and of -0.05 -0.1
(halves go away from zero); with a zero amount or a zero sum of ratios the
result is 0. -/
theorem allocate_examples :
    calculator.allocate (Decimal.mk 100 (-2)) (Decimal.mk 1 0) (Decimal.mk 3 0) 2 =
      ret (Decimal.mk 33 (-2)) ∧
    calculator.allocate (Decimal.mk 100 (-2)) (Decimal.mk 2 0) (Decimal.mk 3 0) 2 =
      ret (Decimal.mk 67 (-2)) ∧
    calculator.allocate (Decimal.mk 5 (-2)) (Decimal.mk 1 0) (Decimal.mk 1 0) 1 =
      ret (Decimal.mk 1 (-1)) ∧
    calculator.allocate (Decimal.mk (-5) (-2)) (Decimal.mk 1 0) (Decimal.mk 1 0) 1 =
      ret (Decimal.mk (-1) (-1)) ∧
    calculator.allocate (Decimal.mk 0 (-2)) (Decimal.mk 1 0) (Decimal.mk 3 0) 2 =
      ret (Decimal.mk 0 0) ∧
    calculator.allocate (Decimal.mk 100 (-2)) (Decimal.mk 1 0) (Decimal.mk 0 0) 2 =
      ret (Decimal.mk 0 0) := by
  decide

/-! ## Split, part by part -/

/-- Within the division precision of the engine Split hands out the parts as
described: for `A` minor units of a currency with `f ≤ 16` fraction digits and
`0 < n < 2 * 10 ^ (16 - f)`, with `base` the truncated quotient of `A` by `n`
and `k = |A - n * base| < n`, Split returns `n` parts of the receiver's
currency, the parts `0 .. k - 1` being `base` plus one minor unit of the sign
of the amount and the parts `k .. n - 1` being `base`. -/
theorem Split_parts_positions (m : Money) (c : Currency) (A n : Int) (fuel : Nat)
    (hc : m.currency = some c) (hf : c.Fraction ≤ 16) (hn : 0 < n)
    (hnb : n < 2 * 10 ^ (16 - c.Fraction))
    (hA : m.amount.toRat = (A : ℚ) * (10 : ℚ) ^ (-(c.Fraction : Int)))
    (hfuel : n.toNat ≤ fuel) :
    ∃ parts : List Money, m.Split fuel n = ret (some parts, none) ∧ parts.length = n.toNat ∧
      ((leftover A n : Nat) : Int) = |A - n * A.tdiv n| ∧ ((leftover A n : Nat) : Int) < n ∧
      ∀ (i : Nat) (x : Money), parts[i]? = some x →
        x.currency = m.currency ∧
        x.amount.toRat = ((A.tdiv n : Int) : ℚ) * (10 : ℚ) ^ (-(c.Fraction : Int)) +
          (if i < leftover A n then (if A < 0 then -1 else 1) * (10 : ℚ) ^ (-(c.Fraction : Int))
            else 0) := by
  have hlt := leftover_lt A n hn
  have hk : leftover A n ≤ n.toNat := by omega
  have hw := Split_whole m c A n fuel hc hf hn hA (le_trans hk hfuel)
  have hb := baseShare_toRat A n c.Fraction hn hnb
  have hu := unitShare_toRat A c.Fraction hf
  have habs : ((leftover A n : Nat) : Int) = |A - n * A.tdiv n| := by
    have h1 : A - n * A.tdiv n = A.tmod n := by
      have := Int.tdiv_add_tmod A n
      omega
    rw [h1]
    unfold leftover
    exact Int.natCast_natAbs _
  refine ⟨_, hw, by simp; omega, habs, hlt, ?_⟩
  intro i x hx
  by_cases hi : i < leftover A n
  · rw [List.getElem?_append_left (by simpa using hi), List.getElem?_replicate_of_lt hi] at hx
    have hx1 := Option.some.inj hx
    subst hx1
    refine ⟨rfl, ?_⟩
    simp only [hi, if_true]
    rw [Decimal.toRat_Add, hb, hu]
  · rw [List.getElem?_append_right (by simpa using hi), List.getElem?_replicate] at hx
    split_ifs at hx
    have hx1 := Option.some.inj hx
    subst hx1
    refine ⟨rfl, ?_⟩
    simp only [hi, if_false, add_zero]
    exact hb

/-- C31 (evaluation at the failing input): with sixteen fraction digits, two
minor units split three ways come back as 2, 2 and 1 units.  The truncated
quotient is 0 and the leftover 2 units, so the parts described are 1, 1 and 0
units: every part returned is one unit too large and the parts sum to 5
units. -/
theorem Split_sixteen_digits_parts :
    (mk FINE 2 (-16)).Split 3 3 =
      ret (some [mk FINE 2 (-16), mk FINE 2 (-16), mk FINE 1 (-16)], none) ∧
    IsTruncation ((mk FINE 2 (-16)).amount.toRat / 3) 0 16 ∧
    (mk FINE 1 (-16)).amount.toRat ≠ 0 ∧
    ([mk FINE 2 (-16), mk FINE 2 (-16), mk FINE 1 (-16)].map fun p => p.amount.toRat).sum ≠
      (mk FINE 2 (-16)).amount.toRat := by
  refine ⟨by decide, ?_, ?_, ?_⟩
  · refine ⟨⟨0, by simp⟩, ?_, ?_, ?_⟩ <;> norm_num [mk, Decimal.toRat, abs_of_pos]
  · norm_num [mk, Decimal.toRat]
  · norm_num [mk, Decimal.toRat]
/-! ## Median between Min and Max -/

theorem tdiv_two_between (a b : Int) (h : a ≤ b) :
    a ≤ (a + b).tdiv 2 ∧ (a + b).tdiv 2 ≤ b := by
  rcases le_or_lt 0 (a + b) with hs | hs
  · rw [Int.tdiv_eq_ediv hs (by norm_num)]
    omega
  · have h1 : (a + b).tdiv 2 = -((-(a + b)).tdiv 2) := by
      rw [Int.neg_tdiv, neg_neg]
    rw [h1, Int.tdiv_eq_ediv (by omega) (by norm_num)]
    omega

/-- C33 (counterexample): the median of 0.005 GBP and 0.005 GBP is 0.00 GBP,
below the minimum 0.005 GBP of the list. -/
theorem Median_below_Min_counterexample :
    Median sampleGet [mk GBP 5 (-3), mk GBP 5 (-3)] = ret (some (mk GBP 0 (-2)), none) ∧
    Min [mk GBP 5 (-3), mk GBP 5 (-3)] = ret (some (mk GBP 5 (-3)), none) ∧
    Max [mk GBP 5 (-3), mk GBP 5 (-3)] = ret (some (mk GBP 5 (-3)), none) ∧
    (mk GBP 0 (-2)).amount.toRat < (mk GBP 5 (-3)).amount.toRat := by
  refine ⟨by decide, by decide, by decide, ?_⟩
  norm_num [mk, Decimal.toRat]

/-- C33 (amended): for a non-empty list of Money values of one currency with a
non-empty code, Min, Median and Max return without error and the amount of the
median lies between those of the minimum and the maximum, when the count is
odd, or when the currency has at most 15 fraction digits and every amount is a
whole number of its minor units. -/
theorem Median_between_Min_Max (get : String → Currency) (c : Currency) (ms : List Money)
    (hne : ms ≠ []) (hcode : c.Code ≠ "") (hall : ∀ o ∈ ms, o.currency = some c)
    (hcase : ms.length % 2 = 1 ∨
      (c.Fraction ≤ 15 ∧
        ∀ o ∈ ms, ∃ k : Int, o.amount.toRat = (k : ℚ) * (10 : ℚ) ^ (-(c.Fraction : Int)))) :
    ∃ mn md mx : Money, Min ms = ret (some mn, none) ∧ Median get ms = ret (some md, none) ∧
      Max ms = ret (some mx, none) ∧ mn.amount.toRat ≤ md.amount.toRat ∧
      md.amount.toRat ≤ mx.amount.toRat := by
  have hall1 : ∀ o ∈ ms, ∃ oc, o.currency = some oc ∧ oc.Code = c.Code :=
    fun o ho => ⟨c, hall o ho, rfl⟩
  obtain ⟨mn, hmin, _, hmn⟩ : ∃ x : Money, Min ms = ret (some x, none) ∧ x ∈ ms ∧
      ∀ y ∈ ms, x.amount.toRat ≤ y.amount.toRat := by
    cases ms with
    | nil => exact absurd rfl hne
    | cons first rest =>
      obtain ⟨x, h1, h2, h3⟩ := minLoop_same c.Code rest first hall1
      exact ⟨x, by simp only [Min, minLoop, h1], h2, h3⟩
  obtain ⟨mx, hmax, _, hmx⟩ : ∃ x : Money, Max ms = ret (some x, none) ∧ x ∈ ms ∧
      ∀ y ∈ ms, y.amount.toRat ≤ x.amount.toRat := by
    cases ms with
    | nil => exact absurd rfl hne
    | cons first rest =>
      obtain ⟨x, h1, h2, h3⟩ := maxLoop_same c.Code rest first hall1
      exact ⟨x, by simp only [Max, maxLoop, h1], h2, h3⟩
  obtain ⟨sorted, _, hperm, hpw, hodd, heven⟩ := Median_same get c.Code ms hne hcode hall1
  rcases Nat.mod_two_eq_zero_or_one ms.length with hpar | hpar
  · rcases hcase with hcase | ⟨hf, hwhole⟩
    · omega
    · obtain ⟨a, b, s, ha, hb, _, _, _, hexact⟩ := heven hpar
      have hamem : a ∈ ms := hperm.subset (List.getElem?_mem ha)
      have hbmem : b ∈ ms := hperm.subset (List.getElem?_mem hb)
      obtain ⟨ka, hka⟩ := hwhole a hamem
      obtain ⟨kb, hkb⟩ := hwhole b hbmem
      have hu := Decimal.ten_zpow_pos (-(c.Fraction : Int))
      obtain ⟨md, hmed, _, hmd⟩ := hexact c (ka + kb) (hall a hamem) hf (by
        rw [hka, hkb]
        push_cast
        ring)
      have hab : a.amount.toRat ≤ b.amount.toRat := by
        obtain ⟨hi, hai⟩ := List.getElem?_eq_some.mp ha
        obtain ⟨hj, hbj⟩ := List.getElem?_eq_some.mp hb
        have hlen : sorted.length = ms.length := hperm.length_eq
        have hpos : 0 < ms.length := List.length_pos.mpr hne
        have := List.pairwise_iff_getElem.mp hpw (ms.length / 2 - 1) (ms.length / 2) hi hj
          (by omega)
        rw [hai, hbj] at this
        exact this
      have hk : ka ≤ kb := by
        rw [hka, hkb] at hab
        have := le_of_mul_le_mul_right hab hu
        exact_mod_cast this
      obtain ⟨h1, h2⟩ := tdiv_two_between ka kb hk
      have h1q : (ka : ℚ) ≤ (((ka + kb).tdiv 2 : Int) : ℚ) := by exact_mod_cast h1
      have h2q : (((ka + kb).tdiv 2 : Int) : ℚ) ≤ (kb : ℚ) := by exact_mod_cast h2
      refine ⟨mn, md, mx, hmin, hmed, hmax, ?_, ?_⟩
      · refine le_trans (hmn a hamem) ?_
        rw [hka, hmd]
        exact mul_le_mul_of_nonneg_right h1q hu.le
      · refine le_trans ?_ (hmx b hbmem)
        rw [hkb, hmd]
        exact mul_le_mul_of_nonneg_right h2q hu.le
  · obtain ⟨x, hx, hmed⟩ := hodd hpar
    have hxmem : x ∈ ms := hperm.subset (List.getElem?_mem hx)
    exact ⟨mn, x, mx, hmin, hmed, hmax, hmn x hxmem, hmx x hxmem⟩

theorem Median_between_Min_Max_witness :
    ∃ mn md mx : Money,
      Min [mk GBP 3 0, mk GBP 1 0, mk GBP 2 0, mk GBP 4 0] = ret (some mn, none) ∧
      Median sampleGet [mk GBP 3 0, mk GBP 1 0, mk GBP 2 0, mk GBP 4 0] = ret (some md, none) ∧
      Max [mk GBP 3 0, mk GBP 1 0, mk GBP 2 0, mk GBP 4 0] = ret (some mx, none) ∧
      mn.amount.toRat ≤ md.amount.toRat ∧ md.amount.toRat ≤ mx.amount.toRat :=
  Median_between_Min_Max sampleGet GBP [mk GBP 3 0, mk GBP 1 0, mk GBP 2 0, mk GBP 4 0]
    (by simp) (by decide)
    (by
      intro o ho
      simp only [List.mem_cons, List.mem_singleton, List.not_mem_nil, or_false] at ho
      rcases ho with h | h | h | h <;> rw [h] <;> rfl)
    (Or.inr ⟨by decide, by
      intro o ho
      simp only [List.mem_cons, List.mem_singleton, List.not_mem_nil, or_false] at ho
      rcases ho with h | h | h | h
      · exact ⟨300, by rw [h]; norm_num [mk, Decimal.toRat, GBP]⟩
      · exact ⟨100, by rw [h]; norm_num [mk, Decimal.toRat, GBP]⟩
      · exact ⟨200, by rw [h]; norm_num [mk, Decimal.toRat, GBP]⟩
      · exact ⟨400, by rw [h]; norm_num [mk, Decimal.toRat, GBP]⟩⟩)

/-! ## float64: the conversion rounds to the nearest -/

theorem roundHalfEven_near (x : ℚ) : |(roundHalfEven x : ℚ) - x| ≤ 1 / 2 := by
  have h1 := Int.floor_le x
  have h2 := Int.lt_floor_add_one x
  unfold roundHalfEven
  split_ifs <;> rw [abs_le] <;> push_cast <;> constructor <;> linarith

theorem roundHalfEven_nearest (x : ℚ) (k : Int) :
    |(roundHalfEven x : ℚ) - x| ≤ |(k : ℚ) - x| := by
  have h := roundHalfEven_near x
  by_cases hk : k = roundHalfEven x
  · rw [hk]
  · have h1 : (1 : ℚ) ≤ |(k : ℚ) - (roundHalfEven x : ℚ)| := by
      have : (1 : Int) ≤ |k - roundHalfEven x| := Int.one_le_abs (sub_ne_zero.mpr hk)
      exact_mod_cast this
    have h2 : |(k : ℚ) - (roundHalfEven x : ℚ)| ≤
        |(k : ℚ) - x| + |(roundHalfEven x : ℚ) - x| := by
      have := abs_sub_le (k : ℚ) x (roundHalfEven x)
      rw [abs_sub_comm x _] at this
      exact this
    linarith

theorem roundHalfEven_intCast (k : Int) : roundHalfEven (k : ℚ) = k := by
  have h := roundHalfEven_nearest (k : ℚ) k
  rw [sub_self, abs_zero] at h
  have h0 : (roundHalfEven (k : ℚ) : ℚ) - (k : ℚ) = 0 := abs_eq_zero.mp (le_antisymm h (abs_nonneg _))
  have : (roundHalfEven (k : ℚ) : ℚ) = (k : ℚ) := by linarith
  exact_mod_cast this

theorem two_zpow_pos (e : Int) : (0 : ℚ) < (2 : ℚ) ^ e := zpow_pos (by norm_num) e

/-- The binary exponent brackets the magnitude. -/
theorem log_two_bounds (x : ℚ) (hx : x ≠ 0) :
    (2 : ℚ) ^ (Int.log 2 |x|) ≤ |x| ∧ |x| < (2 : ℚ) ^ (Int.log 2 |x| + 1) := by
  have h1 := Int.zpow_log_le_self (R := ℚ) (b := 2) (by norm_num) (abs_pos.mpr hx)
  have h2 := Int.lt_zpow_succ_log_self (R := ℚ) (b := 2) (by norm_num) |x|
  exact ⟨by exact_mod_cast h1, by exact_mod_cast h2⟩

/-- The rounded multiple of the unit is at least as near as any other
multiple. -/
theorem round_mul_nearest (x : ℚ) (q k : Int) :
    |(roundHalfEven (x / (2 : ℚ) ^ q) : ℚ) * (2 : ℚ) ^ q - x| ≤ |(k : ℚ) * (2 : ℚ) ^ q - x| := by
  have hu := two_zpow_pos q
  have h := roundHalfEven_nearest (x / (2 : ℚ) ^ q) k
  have e1 : (roundHalfEven (x / (2 : ℚ) ^ q) : ℚ) * (2 : ℚ) ^ q - x =
      ((roundHalfEven (x / (2 : ℚ) ^ q) : ℚ) - x / (2 : ℚ) ^ q) * (2 : ℚ) ^ q := by
    field_simp
  have e2 : (k : ℚ) * (2 : ℚ) ^ q - x = ((k : ℚ) - x / (2 : ℚ) ^ q) * (2 : ℚ) ^ q := by
    field_simp
  rw [e1, e2, abs_mul, abs_mul, abs_of_pos hu]
  exact mul_le_mul_of_nonneg_right h hu.le

/-- A multiple of a power of two is a multiple of every smaller power. -/
theorem multiple_of_smaller (m e q : Int) (hq : q ≤ e) :
    ∃ k : Int, (m : ℚ) * (2 : ℚ) ^ e = (k : ℚ) * (2 : ℚ) ^ q := by
  refine ⟨m * 2 ^ (e - q).toNat, ?_⟩
  have h1 : e = ((e - q).toNat : Int) + q := by omega
  have h2 : (2 : ℚ) ^ e = (2 : ℚ) ^ (((e - q).toNat : Nat) : Int) * (2 : ℚ) ^ q := by
    rw [← zpow_add₀ (by norm_num : (2 : ℚ) ≠ 0), ← h1]
  rw [h2, zpow_natCast]
  push_cast
  ring
theorem ulpExponent_cases (x : ℚ) :
    (ulpExponent x = Int.log 2 |x| - 52 ∧ -1074 ≤ Int.log 2 |x| - 52) ∨
    (ulpExponent x = -1074 ∧ Int.log 2 |x| - 52 < -1074) := by
  unfold ulpExponent
  rcases le_or_lt (-1074) (Int.log 2 |x| - 52) with h | h
  · exact Or.inl ⟨max_eq_left h, h⟩
  · exact Or.inr ⟨max_eq_right h.le, h⟩

/-- In the normal range the number divided by its unit lies between `2 ^ 52`
and `2 ^ 53`. -/
theorem scaled_bounds_normal (x : ℚ) (hx : x ≠ 0) (q : Int) (hq : q = Int.log 2 |x| - 52) :
    (2 : ℚ) ^ (52 : Int) * (2 : ℚ) ^ q ≤ |x| ∧ |x| < (2 : ℚ) ^ (53 : Int) * (2 : ℚ) ^ q ∧
    (2 : ℚ) ^ (52 : Int) ≤ |x / (2 : ℚ) ^ q| ∧ |x / (2 : ℚ) ^ q| < (2 : ℚ) ^ (53 : Int) := by
  obtain ⟨h1, h2⟩ := log_two_bounds x hx
  have hu := two_zpow_pos q
  have e1 : (2 : ℚ) ^ (Int.log 2 |x|) = (2 : ℚ) ^ (52 : Int) * (2 : ℚ) ^ q := by
    rw [← zpow_add₀ (by norm_num : (2 : ℚ) ≠ 0)]
    congr 1
    omega
  have e2 : (2 : ℚ) ^ (Int.log 2 |x| + 1) = (2 : ℚ) ^ (53 : Int) * (2 : ℚ) ^ q := by
    rw [← zpow_add₀ (by norm_num : (2 : ℚ) ≠ 0)]
    congr 1
    omega
  rw [e1] at h1
  rw [e2] at h2
  refine ⟨h1, h2, ?_, ?_⟩
  · rw [abs_div, abs_of_pos hu, le_div_iff₀ hu]
    exact h1
  · rw [abs_div, abs_of_pos hu, div_lt_iff₀ hu]
    exact h2

/-- Rounding keeps an integer bound. -/
theorem abs_roundHalfEven_le (w : ℚ) (B : Int) (hB : |w| ≤ (B : ℚ)) :
    |roundHalfEven w| ≤ B := by
  have hB0 : (0 : ℚ) ≤ (B : ℚ) := le_trans (abs_nonneg _) hB
  have h1 := roundHalfEven_nearest w B
  have h2 := roundHalfEven_nearest w (-B)
  have hw := abs_le.mp hB
  rw [abs_le]
  constructor
  · by_contra hcon
    push_neg at hcon
    have hc : (roundHalfEven w : ℚ) ≤ -(B : ℚ) - 1 := by
      have : roundHalfEven w ≤ -B - 1 := by omega
      exact_mod_cast this
    have h3 : |((-B : Int) : ℚ) - w| = w + (B : ℚ) := by
      push_cast
      rw [abs_sub_comm, abs_of_nonneg (by linarith)]
      ring
    have h4 : |(roundHalfEven w : ℚ) - w| = w - (roundHalfEven w : ℚ) := by
      rw [abs_sub_comm, abs_of_nonneg (by linarith)]
    rw [h3, h4] at h2
    linarith
  · by_contra hcon
    push_neg at hcon
    have hc : (B : ℚ) + 1 ≤ (roundHalfEven w : ℚ) := by
      have : B + 1 ≤ roundHalfEven w := by omega
      exact_mod_cast this
    have h3 : |(B : ℚ) - w| = (B : ℚ) - w := abs_of_nonneg (by linarith)
    have h4 : |(roundHalfEven w : ℚ) - w| = (roundHalfEven w : ℚ) - w :=
      abs_of_nonneg (by linarith)
    rw [h3, h4] at h1
    linarith

/-- Rounding keeps an integer lower bound on the magnitude. -/
theorem le_abs_roundHalfEven (w : ℚ) (B : Int) (hB : (B : ℚ) ≤ |w|) :
    B ≤ |roundHalfEven w| := by
  rcases le_total 0 w with hw | hw
  · rw [abs_of_nonneg hw] at hB
    have h1 := roundHalfEven_nearest w B
    have h3 : |(B : ℚ) - w| = w - (B : ℚ) := by
      rw [abs_sub_comm, abs_of_nonneg (by linarith)]
    by_contra hcon
    push_neg at hcon
    have hc : (roundHalfEven w : ℚ) ≤ (B : ℚ) - 1 := by
      have := (abs_lt.mp hcon).2
      have : roundHalfEven w ≤ B - 1 := by omega
      exact_mod_cast this
    have h4 : |(roundHalfEven w : ℚ) - w| = w - (roundHalfEven w : ℚ) := by
      rw [abs_sub_comm, abs_of_nonneg (by linarith)]
    rw [h3, h4] at h1
    linarith
  · rw [abs_of_nonpos hw] at hB
    have h1 := roundHalfEven_nearest w (-B)
    have h3 : |((-B : Int) : ℚ) - w| = -(B : ℚ) - w := by
      push_cast
      rw [abs_of_nonneg (by linarith)]
    by_contra hcon
    push_neg at hcon
    have hc : -(B : ℚ) + 1 ≤ (roundHalfEven w : ℚ) := by
      have := (abs_lt.mp hcon).1
      have : -B + 1 ≤ roundHalfEven w := by omega
      exact_mod_cast this
    have h4 : |(roundHalfEven w : ℚ) - w| = (roundHalfEven w : ℚ) - w :=
      abs_of_nonneg (by linarith)
    rw [h3, h4] at h1
    linarith
/-- What the conversion returns as a finite number is a finite `float64`. -/
theorem toFloat64_isBinary64 (x y : ℚ) (h : toFloat64 x = Float64.finite y) :
    IsBinary64 y := by
  unfold toFloat64 at h
  split_ifs at h with hfin
  have hy : (roundHalfEven (x / (2 : ℚ) ^ ulpExponent x) : ℚ) * (2 : ℚ) ^ ulpExponent x = y :=
    Float64.finite.inj h
  rw [hy] at hfin
  have hu := two_zpow_pos (ulpExponent x)
  by_cases hx : x = 0
  · have hn : roundHalfEven (x / (2 : ℚ) ^ ulpExponent x) = 0 := by
      rw [hx, zero_div]
      exact roundHalfEven_intCast 0
    rw [hn] at hy
    refine ⟨0, 0, by norm_num, by norm_num, by norm_num, ?_⟩
    rw [← hy]
    simp
  · generalize hq : ulpExponent x = q at hy hu hfin
    generalize hn : roundHalfEven (x / (2 : ℚ) ^ q) = n at hy
    have habs : |y| = (|n| : ℚ) * (2 : ℚ) ^ q := by
      rw [← hy, abs_mul, abs_of_pos hu]
    rcases ulpExponent_cases x with ⟨h1, h2⟩ | ⟨h1, h2⟩
    · rw [hq] at h1
      obtain ⟨_, _, hlo, hhi⟩ := scaled_bounds_normal x hx q h1
      have hn1 : |n| ≤ 2 ^ 53 := by
        rw [← hn]
        apply abs_roundHalfEven_le
        have : ((2 ^ 53 : Int) : ℚ) = (2 : ℚ) ^ (53 : Int) := by norm_num
        rw [this]
        exact hhi.le
      have hn2 : 2 ^ 52 ≤ |n| := by
        rw [← hn]
        apply le_abs_roundHalfEven
        have : ((2 ^ 52 : Int) : ℚ) = (2 : ℚ) ^ (52 : Int) := by norm_num
        rw [this]
        exact hlo
      have hn2q : (2 : ℚ) ^ (52 : Int) ≤ ((|n| : Int) : ℚ) := by
        have : ((2 ^ 52 : Int) : ℚ) ≤ ((|n| : Int) : ℚ) := by exact_mod_cast hn2
        have e : ((2 ^ 52 : Int) : ℚ) = (2 : ℚ) ^ (52 : Int) := by norm_num
        rw [← e]
        exact this
      have hcast : ((|n| : Int) : ℚ) = |(n : ℚ)| := by push_cast; rfl
      have hq972 : q < 972 := by
        have h3 : (2 : ℚ) ^ (52 : Int) * (2 : ℚ) ^ q < (2 : ℚ) ^ (1024 : Int) := by
          calc (2 : ℚ) ^ (52 : Int) * (2 : ℚ) ^ q ≤ |(n : ℚ)| * (2 : ℚ) ^ q := by
                rw [← hcast]
                exact mul_le_mul_of_nonneg_right hn2q hu.le
            _ = |y| := habs.symm
            _ < (2 : ℚ) ^ (1024 : Int) := hfin
        rw [← zpow_add₀ (by norm_num : (2 : ℚ) ≠ 0)] at h3
        have := (zpow_lt_zpow_iff_right₀ (by norm_num : (1 : ℚ) < 2)).mp h3
        omega
      by_cases hlt : |n| < 2 ^ 53
      · exact ⟨n, q, hlt, by omega, by omega, hy.symm⟩
      · have heq : |n| = 2 ^ 53 := le_antisymm hn1 (not_lt.mp hlt)
        have hq971 : q < 971 := by
          have h3 : (2 : ℚ) ^ (53 : Int) * (2 : ℚ) ^ q < (2 : ℚ) ^ (1024 : Int) := by
            have e : |(n : ℚ)| = (2 : ℚ) ^ (53 : Int) := by
              rw [← hcast, heq]
              norm_num
            rw [← e, ← habs]
            exact hfin
          rw [← zpow_add₀ (by norm_num : (2 : ℚ) ≠ 0)] at h3
          have := (zpow_lt_zpow_iff_right₀ (by norm_num : (1 : ℚ) < 2)).mp h3
          omega
        have hdvd : n = 2 * (n / 2) := by
          rcases abs_eq (by norm_num : (0 : Int) ≤ 2 ^ 53) |>.mp heq with h5 | h5 <;>
            rw [h5] <;> norm_num
        refine ⟨n / 2, q + 1, ?_, by omega, by omega, ?_⟩
        · rcases abs_eq (by norm_num : (0 : Int) ≤ 2 ^ 53) |>.mp heq with h5 | h5 <;>
            rw [h5] <;> norm_num
        · rw [← hy, zpow_add₀ (by norm_num : (2 : ℚ) ≠ 0), zpow_one]
          have : (n : ℚ) = 2 * ((n / 2 : Int) : ℚ) := by exact_mod_cast hdvd
          rw [this]
          ring
    · rw [hq] at h1
      obtain ⟨_, hhi⟩ := log_two_bounds x hx
      have h3 : |x| < (2 : ℚ) ^ (52 : Int) * (2 : ℚ) ^ q := by
        refine lt_of_lt_of_le hhi ?_
        rw [← zpow_add₀ (by norm_num : (2 : ℚ) ≠ 0)]
        exact zpow_le_zpow_right₀ (by norm_num) (by omega)
      have hw : |x / (2 : ℚ) ^ q| ≤ ((2 ^ 52 : Int) : ℚ) := by
        have e : ((2 ^ 52 : Int) : ℚ) = (2 : ℚ) ^ (52 : Int) := by norm_num
        rw [e, abs_div, abs_of_pos hu, div_le_iff₀ hu]
        exact h3.le
      have hn1 : |n| ≤ 2 ^ 52 := by
        rw [← hn]
        exact abs_roundHalfEven_le _ _ hw
      exact ⟨n, q, by omega, by omega, by omega, hy.symm⟩
/-- What the conversion returns as a finite number is a finite `float64`
nearest to the number converted. -/
theorem toFloat64_nearest (x y : ℚ) (h : toFloat64 x = Float64.finite y) :
    IsNearestBinary64 x y := by
  refine ⟨toFloat64_isBinary64 x y h, ?_⟩
  unfold toFloat64 at h
  split_ifs at h with hfin
  have hy : (roundHalfEven (x / (2 : ℚ) ^ ulpExponent x) : ℚ) * (2 : ℚ) ^ ulpExponent x = y :=
    Float64.finite.inj h
  intro z hz
  obtain ⟨m, e, hm, he1, _, hze⟩ := hz
  by_cases hqe : ulpExponent x ≤ e
  · obtain ⟨k, hk⟩ := multiple_of_smaller m e (ulpExponent x) hqe
    rw [hze, hk, ← hy]
    exact round_mul_nearest x (ulpExponent x) k
  · push_neg at hqe
    by_cases hx : x = 0
    · have hn : roundHalfEven (x / (2 : ℚ) ^ ulpExponent x) = 0 := by
        rw [hx, zero_div]
        exact roundHalfEven_intCast 0
      rw [← hy, hn, hx]
      simp
    · rcases ulpExponent_cases x with ⟨h1, _⟩ | ⟨h1, _⟩
      · generalize hq : ulpExponent x = q at hy hqe h1
        obtain ⟨hlo, _, _, _⟩ := scaled_bounds_normal x hx q h1
        have hu := two_zpow_pos q
        have hzlt : |z| < (2 : ℚ) ^ (52 : Int) * (2 : ℚ) ^ q := by
          rw [hze, abs_mul, abs_of_pos (two_zpow_pos e)]
          have hmq : |(m : ℚ)| < (2 : ℚ) ^ (53 : Int) := by
            have : ((|m| : Int) : ℚ) < ((2 ^ 53 : Int) : ℚ) := by exact_mod_cast hm
            have e1 : ((|m| : Int) : ℚ) = |(m : ℚ)| := by push_cast; rfl
            have e2 : ((2 ^ 53 : Int) : ℚ) = (2 : ℚ) ^ (53 : Int) := by norm_num
            rw [e1, e2] at this
            exact this
          have hle : (2 : ℚ) ^ e ≤ (2 : ℚ) ^ (q - 1) :=
            zpow_le_zpow_right₀ (by norm_num) (by omega)
          have e3 : (2 : ℚ) ^ (52 : Int) * (2 : ℚ) ^ q = (2 : ℚ) ^ (53 : Int) * (2 : ℚ) ^ (q - 1) := by
            rw [← zpow_add₀ (by norm_num : (2 : ℚ) ≠ 0), ← zpow_add₀ (by norm_num : (2 : ℚ) ≠ 0)]
            congr 1
            ring
          rw [e3]
          calc |(m : ℚ)| * (2 : ℚ) ^ e ≤ |(m : ℚ)| * (2 : ℚ) ^ (q - 1) :=
                mul_le_mul_of_nonneg_left hle (abs_nonneg _)
            _ < (2 : ℚ) ^ (53 : Int) * (2 : ℚ) ^ (q - 1) :=
                mul_lt_mul_of_pos_right hmq (two_zpow_pos _)
        have hfar : |x| - (2 : ℚ) ^ (52 : Int) * (2 : ℚ) ^ q ≤ |z - x| := by
          have := abs_sub_abs_le_abs_sub x z
          rw [abs_sub_comm x z] at this
          linarith
        have hnear : |y - x| ≤ |x| - (2 : ℚ) ^ (52 : Int) * (2 : ℚ) ^ q := by
          rw [← hy]
          rcases lt_or_gt_of_ne hx with hneg | hpos
          · have h2 := round_mul_nearest x q (-(2 ^ 52))
            have e4 : ((-(2 ^ 52) : Int) : ℚ) = -(2 : ℚ) ^ (52 : Int) := by norm_num
            rw [e4] at h2
            rw [abs_of_neg hneg] at hlo ⊢
            have e5 : |(-(2 : ℚ) ^ (52 : Int)) * (2 : ℚ) ^ q - x| =
                -x - (2 : ℚ) ^ (52 : Int) * (2 : ℚ) ^ q := by
              rw [abs_of_nonneg (by linarith)]
              ring
            rw [e5] at h2
            exact h2
          · have h2 := round_mul_nearest x q (2 ^ 52)
            have e4 : (((2 ^ 52) : Int) : ℚ) = (2 : ℚ) ^ (52 : Int) := by norm_num
            rw [e4] at h2
            rw [abs_of_pos hpos] at hlo ⊢
            have e5 : |(2 : ℚ) ^ (52 : Int) * (2 : ℚ) ^ q - x| =
                x - (2 : ℚ) ^ (52 : Int) * (2 : ℚ) ^ q := by
              rw [abs_sub_comm, abs_of_nonneg (by linarith)]
            rw [e5] at h2
            exact h2
        exact le_trans hnear hfar
      · omega

/-- Below `2 ^ 1023` the conversion returns a finite number. -/
theorem toFloat64_finite (x : ℚ) (hx : |x| < (2 : ℚ) ^ (1023 : Int)) :
    ∃ y : ℚ, toFloat64 x = Float64.finite y := by
  have hq : ulpExponent x ≤ 970 := by
    by_cases h0 : x = 0
    · rw [h0]
      simp [ulpExponent, Int.log_zero_right]
    · obtain ⟨hlo, _⟩ := log_two_bounds x h0
      have := (zpow_lt_zpow_iff_right₀ (by norm_num : (1 : ℚ) < 2)).mp (lt_of_le_of_lt hlo hx)
      unfold ulpExponent
      omega
  have hu := two_zpow_pos (ulpExponent x)
  have hnear : |(roundHalfEven (x / (2 : ℚ) ^ ulpExponent x) : ℚ) * (2 : ℚ) ^ ulpExponent x - x|
      ≤ (2 : ℚ) ^ ulpExponent x / 2 := by
    have h := roundHalfEven_near (x / (2 : ℚ) ^ ulpExponent x)
    have e1 : (roundHalfEven (x / (2 : ℚ) ^ ulpExponent x) : ℚ) * (2 : ℚ) ^ ulpExponent x - x =
        ((roundHalfEven (x / (2 : ℚ) ^ ulpExponent x) : ℚ) - x / (2 : ℚ) ^ ulpExponent x) *
          (2 : ℚ) ^ ulpExponent x := by
      field_simp
    rw [e1, abs_mul, abs_of_pos hu]
    have := mul_le_mul_of_nonneg_right h hu.le
    linarith
  have hule : (2 : ℚ) ^ ulpExponent x ≤ (2 : ℚ) ^ (970 : Int) :=
    zpow_le_zpow_right₀ (by norm_num) hq
  have hfin : |(roundHalfEven (x / (2 : ℚ) ^ ulpExponent x) : ℚ) * (2 : ℚ) ^ ulpExponent x|
      < (2 : ℚ) ^ (1024 : Int) := by
    have h1 := abs_sub_abs_le_abs_sub
      ((roundHalfEven (x / (2 : ℚ) ^ ulpExponent x) : ℚ) * (2 : ℚ) ^ ulpExponent x) x
    have e1 : (2 : ℚ) ^ (1024 : Int) = 2 * (2 : ℚ) ^ (1023 : Int) := by
      rw [show (1024 : Int) = 1 + 1023 by norm_num, zpow_add₀ (by norm_num : (2 : ℚ) ≠ 0),
        zpow_one]
    have e2 : (2 : ℚ) ^ (970 : Int) ≤ (2 : ℚ) ^ (1023 : Int) :=
      zpow_le_zpow_right₀ (by norm_num) (by norm_num)
    have hpos := two_zpow_pos 970
    rw [e1]
    linarith
  refine ⟨(roundHalfEven (x / (2 : ℚ) ^ ulpExponent x) : ℚ) * (2 : ℚ) ^ ulpExponent x, ?_⟩
  unfold toFloat64
  rw [if_pos hfin]

/-- A finite `float64` is converted to itself. -/
theorem toFloat64_of_isBinary64 (x : ℚ) (h : IsBinary64 x) : toFloat64 x = Float64.finite x := by
  by_cases hx0 : x = 0
  · have hn : roundHalfEven (x / (2 : ℚ) ^ ulpExponent x) = 0 := by
      rw [hx0, zero_div]
      exact roundHalfEven_intCast 0
    unfold toFloat64
    rw [hn, hx0]
    simp [two_zpow_pos]
  obtain ⟨m, e, hm, he1, he2, hxe⟩ := h
  have hmq : |(m : ℚ)| < (2 : ℚ) ^ (53 : Int) := by
    have : ((|m| : Int) : ℚ) < ((2 ^ 53 : Int) : ℚ) := by exact_mod_cast hm
    have e1 : ((|m| : Int) : ℚ) = |(m : ℚ)| := by push_cast; rfl
    have e2 : ((2 ^ 53 : Int) : ℚ) = (2 : ℚ) ^ (53 : Int) := by norm_num
    rw [e1, e2] at this
    exact this
  have hxabs : |x| = |(m : ℚ)| * (2 : ℚ) ^ e := by
    rw [hxe, abs_mul, abs_of_pos (two_zpow_pos e)]
  have hqe : ulpExponent x ≤ e := by
    by_contra hcon
    push_neg at hcon
    rcases ulpExponent_cases x with ⟨h1, _⟩ | ⟨h1, _⟩
    · obtain ⟨hlo, _, _, _⟩ := scaled_bounds_normal x hx0 (ulpExponent x) h1
      have hle : (2 : ℚ) ^ e ≤ (2 : ℚ) ^ (ulpExponent x - 1) :=
        zpow_le_zpow_right₀ (by norm_num) (by omega)
      have e3 : (2 : ℚ) ^ (52 : Int) * (2 : ℚ) ^ ulpExponent x =
          (2 : ℚ) ^ (53 : Int) * (2 : ℚ) ^ (ulpExponent x - 1) := by
        rw [← zpow_add₀ (by norm_num : (2 : ℚ) ≠ 0), ← zpow_add₀ (by norm_num : (2 : ℚ) ≠ 0)]
        congr 1
        ring
      have : |x| < (2 : ℚ) ^ (52 : Int) * (2 : ℚ) ^ ulpExponent x := by
        rw [e3, hxabs]
        calc |(m : ℚ)| * (2 : ℚ) ^ e ≤ |(m : ℚ)| * (2 : ℚ) ^ (ulpExponent x - 1) :=
              mul_le_mul_of_nonneg_left hle (abs_nonneg _)
          _ < (2 : ℚ) ^ (53 : Int) * (2 : ℚ) ^ (ulpExponent x - 1) :=
              mul_lt_mul_of_pos_right hmq (two_zpow_pos _)
      linarith
    · omega
  obtain ⟨k, hk⟩ := multiple_of_smaller m e (ulpExponent x) hqe
  have hu := two_zpow_pos (ulpExponent x)
  have hxk2 : x = (k : ℚ) * (2 : ℚ) ^ ulpExponent x := hxe.trans hk
  have hxk : x / (2 : ℚ) ^ ulpExponent x = (k : ℚ) := by
    rw [div_eq_iff hu.ne']
    exact hxk2
  have hval : (roundHalfEven (x / (2 : ℚ) ^ ulpExponent x) : ℚ) * (2 : ℚ) ^ ulpExponent x = x := by
    rw [hxk, roundHalfEven_intCast]
    exact hxk2.symm
  have hfin : |x| < (2 : ℚ) ^ (1024 : Int) := by
    rw [hxabs]
    have hle : (2 : ℚ) ^ e ≤ (2 : ℚ) ^ (971 : Int) := zpow_le_zpow_right₀ (by norm_num) he2
    have e3 : (2 : ℚ) ^ (1024 : Int) = (2 : ℚ) ^ (53 : Int) * (2 : ℚ) ^ (971 : Int) := by
      rw [← zpow_add₀ (by norm_num : (2 : ℚ) ≠ 0)]
      norm_num
    rw [e3]
    calc |(m : ℚ)| * (2 : ℚ) ^ e ≤ |(m : ℚ)| * (2 : ℚ) ^ (971 : Int) :=
          mul_le_mul_of_nonneg_left hle (abs_nonneg _)
      _ < (2 : ℚ) ^ (53 : Int) * (2 : ℚ) ^ (971 : Int) :=
          mul_lt_mul_of_pos_right hmq (two_zpow_pos _)
  unfold toFloat64
  rw [hval]
  simp only [hfin, if_true]

/-- A whole number of magnitude at most `2 ^ 53` is a finite `float64`. -/
theorem isBinary64_of_int (z : Int) (hz : |z| ≤ 2 ^ 53) : IsBinary64 (z : ℚ) := by
  by_cases hlt : |z| < 2 ^ 53
  · exact ⟨z, 0, hlt, by norm_num, by norm_num, by simp⟩
  · have heq : |z| = 2 ^ 53 := le_antisymm hz (not_lt.mp hlt)
    refine ⟨z / 2, 1, ?_, by norm_num, by norm_num, ?_⟩
    · rcases abs_eq (by norm_num : (0 : Int) ≤ 2 ^ 53) |>.mp heq with h5 | h5 <;>
        rw [h5] <;> norm_num
    · have hdvd : z = 2 * (z / 2) := by
        rcases abs_eq (by norm_num : (0 : Int) ≤ 2 ^ 53) |>.mp heq with h5 | h5 <;>
          rw [h5] <;> norm_num
      have : (z : ℚ) = 2 * ((z / 2 : Int) : ℚ) := by exact_mod_cast hdvd
      rw [zpow_one]
      linarith
/-! ## Evaluating the conversion -/

theorem roundHalfEven_up (w : ℚ) (f : Int) (h1 : (f : ℚ) + 1 / 2 < w) (h2 : w < (f : ℚ) + 1) :
    roundHalfEven w = f + 1 := by
  have hf : ⌊w⌋ = f := Int.floor_eq_iff.mpr ⟨by linarith, h2⟩
  unfold roundHalfEven
  rw [hf]
  have c1 : ¬ (w - (f : ℚ) < 1 / 2) := by linarith
  have c2 : 1 / 2 < w - (f : ℚ) := by linarith
  simp only [c1, c2, if_false, if_true]

theorem roundHalfEven_down (w : ℚ) (f : Int) (h1 : (f : ℚ) ≤ w) (h2 : w < (f : ℚ) + 1 / 2) :
    roundHalfEven w = f := by
  have hf : ⌊w⌋ = f := Int.floor_eq_iff.mpr ⟨h1, by linarith⟩
  unfold roundHalfEven
  rw [hf]
  have c1 : w - (f : ℚ) < 1 / 2 := by linarith
  simp only [c1, if_true]

theorem roundHalfEven_tie (w : ℚ) (f : Int) (h : w = (f : ℚ) + 1 / 2) :
    roundHalfEven w = if f % 2 = 0 then f else f + 1 := by
  have hf : ⌊w⌋ = f := Int.floor_eq_iff.mpr ⟨by linarith, by linarith⟩
  unfold roundHalfEven
  rw [hf]
  have c1 : ¬ (w - (f : ℚ) < 1 / 2) := by linarith
  have c2 : ¬ (1 / 2 < w - (f : ℚ)) := by linarith
  simp only [c1, c2, if_false]

/-- The conversion of a number of binary exponent `e`, in the normal range. -/
theorem toFloat64_eval (x : ℚ) (e n : Int) (hlo : (2 : ℚ) ^ e ≤ |x|)
    (hhi : |x| < (2 : ℚ) ^ (e + 1)) (he : -1022 ≤ e)
    (hn : roundHalfEven (x / (2 : ℚ) ^ (e - 52)) = n)
    (hfin : |(n : ℚ) * (2 : ℚ) ^ (e - 52)| < (2 : ℚ) ^ (1024 : Int)) :
    toFloat64 x = Float64.finite ((n : ℚ) * (2 : ℚ) ^ (e - 52)) := by
  have hpos : 0 < |x| := lt_of_lt_of_le (two_zpow_pos e) hlo
  have hlog : Int.log 2 |x| = e := by
    have h1 : e ≤ Int.log 2 |x| :=
      (Int.zpow_le_iff_le_log (R := ℚ) (b := 2) (by norm_num) hpos).mp (by exact_mod_cast hlo)
    have h2 : Int.log 2 |x| < e + 1 :=
      (Int.lt_zpow_iff_log_lt (R := ℚ) (b := 2) (by norm_num) hpos).mp (by exact_mod_cast hhi)
    omega
  have hq : ulpExponent x = e - 52 := by
    unfold ulpExponent
    rw [hlog]
    exact max_eq_left (by omega)
  unfold toFloat64
  rw [hq, hn, if_pos hfin]

/-- Everything said of the conversion at once: a finite result is a nearest
finite `float64`, the result is finite below `2 ^ 1023`, and a finite
`float64` is converted to itself. -/
theorem toFloat64_spec (t : ℚ) :
    (∀ y : ℚ, toFloat64 t = Float64.finite y → IsNearestBinary64 t y) ∧
    (|t| < (2 : ℚ) ^ (1023 : Int) → ∃ y : ℚ, toFloat64 t = Float64.finite y) ∧
    (IsBinary64 t → toFloat64 t = Float64.finite t) :=
  ⟨fun y h => toFloat64_nearest t y h, toFloat64_finite t, toFloat64_of_isBinary64 t⟩

/-! ## Amount and AsMajorUnits as float64 -/

/-- C20 (counterexample): Amount of 90071992547409.93 EUR returns the
`float64` 90071992547409.9375, which is not the amount truncated to two
digits: it is not a multiple of 0.01 and exceeds the stored amount. -/
theorem Amount_float64_counterexample :
    (mk EUR 9007199254740993 (-2)).AmountFloat64 =
      ret (Float64.finite (1441151880758559 / 16)) ∧
    ¬ IsTruncation (mk EUR 9007199254740993 (-2)).amount.toRat (1441151880758559 / 16) 2 := by
  constructor
  · have ht : (mk EUR 9007199254740993 (-2)).amount.Truncate EUR.Fraction =
        Decimal.mk 9007199254740993 (-2) := by decide
    have hx : (Decimal.mk 9007199254740993 (-2)).toRat = 9007199254740993 / 100 := by
      norm_num [Decimal.toRat]
    have hn : roundHalfEven ((9007199254740993 / 100 : ℚ) / (2 : ℚ) ^ ((46 : Int) - 52)) =
        5764607523034235 + 1 := by
      apply roundHalfEven_up <;> norm_num
    have h := toFloat64_eval (9007199254740993 / 100) 46 (5764607523034235 + 1)
      (by rw [abs_of_pos (by norm_num)]; norm_num)
      (by rw [abs_of_pos (by norm_num)]; norm_num) (by norm_num) hn
      (by rw [abs_of_pos (by norm_num)]; norm_num)
    simp only [Money.AmountFloat64, mk, Decimal.Float64]
    have ht' : (Decimal.mk 9007199254740993 (-2)).Truncate EUR.Fraction =
        Decimal.mk 9007199254740993 (-2) := ht
    rw [ht', hx, h]
    norm_num
  · intro h
    have h2 := h.2.1
    norm_num [mk, Decimal.toRat] at h2
    rw [abs_of_pos (by norm_num), abs_of_pos (by norm_num)] at h2
    norm_num at h2

/-- C20 (amended): for every Money with a currency of `f` fraction digits,
Amount returns the conversion to `float64` of the stored amount truncated
toward zero to `f` fractional digits: a finite result is a `float64` nearest
to that truncation, the result is finite when the truncation is below
`2 ^ 1023` in magnitude, and it is the truncation itself when that is a finite
`float64`. -/
theorem Amount_nearest_float64 (m : Money) (c : Currency) (hc : m.currency = some c) :
    ∃ t : ℚ, IsTruncation m.amount.toRat t c.Fraction ∧
      ∃ r : Float64, m.AmountFloat64 = ret r ∧
        (∀ y : ℚ, r = Float64.finite y → IsNearestBinary64 t y) ∧
        (|t| < (2 : ℚ) ^ (1023 : Int) → ∃ y : ℚ, r = Float64.finite y) ∧
        (IsBinary64 t → r = Float64.finite t) := by
  refine ⟨(m.amount.Truncate c.Fraction).toRat, Truncate_spec m.amount c.Fraction,
    toFloat64 (m.amount.Truncate c.Fraction).toRat, ?_, toFloat64_spec _⟩
  simp only [Money.AmountFloat64, hc, Decimal.Float64]

theorem Amount_nearest_float64_witness :
    ∃ t : ℚ, IsTruncation (mk EUR (-125) (-3)).amount.toRat t EUR.Fraction ∧
      ∃ r : Float64, (mk EUR (-125) (-3)).AmountFloat64 = ret r ∧
        (∀ y : ℚ, r = Float64.finite y → IsNearestBinary64 t y) ∧
        (|t| < (2 : ℚ) ^ (1023 : Int) → ∃ y : ℚ, r = Float64.finite y) ∧
        (IsBinary64 t → r = Float64.finite t) :=
  Amount_nearest_float64 (mk EUR (-125) (-3)) EUR rfl
/-- The examples of the tests: Amount of -0.125 EUR is the `float64` written
-0.12 and Amount of 12.34 EUR the `float64` written 12.34, neither being the
decimal itself; Amount of 12.50 EUR is 12.5 exactly. -/
theorem Amount_float64_examples :
    (mk EUR (-125) (-3)).AmountFloat64 =
      ret (Float64.finite (-1080863910568919 / 9007199254740992)) ∧
    (mk EUR 1234 (-2)).AmountFloat64 =
      ret (Float64.finite (3473401212609495 / 281474976710656)) ∧
    (mk EUR 1250 (-2)).AmountFloat64 = ret (Float64.finite (25 / 2)) := by
  refine ⟨?_, ?_, ?_⟩
  · have ht : (Decimal.mk (-125) (-3)).Truncate EUR.Fraction = Decimal.mk (-12) (-2) := by
      decide
    have hx : (Decimal.mk (-12) (-2)).toRat = -12 / 100 := by norm_num [Decimal.toRat]
    have hn : roundHalfEven ((-12 / 100 : ℚ) / (2 : ℚ) ^ ((-4 : Int) - 52)) =
        -8646911284551353 + 1 := by
      apply roundHalfEven_up <;> norm_num
    have h := toFloat64_eval (-12 / 100) (-4) (-8646911284551353 + 1)
      (by rw [abs_of_neg (by norm_num)]; norm_num)
      (by rw [abs_of_neg (by norm_num)]; norm_num) (by norm_num) hn
      (by rw [abs_of_neg (by norm_num)]; norm_num)
    simp only [Money.AmountFloat64, mk, Decimal.Float64]
    rw [ht, hx, h]
    norm_num
  · have ht : (Decimal.mk 1234 (-2)).Truncate EUR.Fraction = Decimal.mk 1234 (-2) := by
      decide
    have hx : (Decimal.mk 1234 (-2)).toRat = 1234 / 100 := by norm_num [Decimal.toRat]
    have hn : roundHalfEven ((1234 / 100 : ℚ) / (2 : ℚ) ^ ((3 : Int) - 52)) =
        6946802425218990 := by
      apply roundHalfEven_down <;> norm_num
    have h := toFloat64_eval (1234 / 100) 3 6946802425218990
      (by rw [abs_of_pos (by norm_num)]; norm_num)
      (by rw [abs_of_pos (by norm_num)]; norm_num) (by norm_num) hn
      (by rw [abs_of_pos (by norm_num)]; norm_num)
    simp only [Money.AmountFloat64, mk, Decimal.Float64]
    rw [ht, hx, h]
    norm_num
  · have ht : (Decimal.mk 1250 (-2)).Truncate EUR.Fraction = Decimal.mk 1250 (-2) := by
      decide
    have hx : (Decimal.mk 1250 (-2)).toRat = 25 / 2 := by norm_num [Decimal.toRat]
    have hb : IsBinary64 (25 / 2 : ℚ) :=
      ⟨25, -1, by norm_num, by norm_num, by norm_num, by norm_num⟩
    simp only [Money.AmountFloat64, mk, Decimal.Float64]
    rw [ht, hx, toFloat64_of_isBinary64 _ hb]

/-- The integer that AsMajorUnits converts for a currency registered without
fraction digits, the amount lying within the `int64` range: the amount rounded
to the nearest whole number, halves away from zero. -/
theorem IntPart_Round_zero (d : Decimal) (hfit : |d.toRat| < 2 ^ 63 - 1) :
    ∃ z : Int, (d.Round 0).IntPart = z ∧ IsNearestWhole d.toRat z ∧ |z| < 2 ^ 63 := by
  obtain ⟨z, h1, h2⟩ := Round_zero_spec d
  have hb := abs_le.mp h2.1
  have hx := abs_lt.mp hfit
  have hz1 : (-(2 : ℚ) ^ 63) < (z : ℚ) := by linarith
  have hz2 : (z : ℚ) < (2 : ℚ) ^ 63 := by linarith
  have hz1i : -(2 : Int) ^ 63 < z := by exact_mod_cast hz1
  have hz2i : z < (2 : Int) ^ 63 := by exact_mod_cast hz2
  have hz : toInt64 z = z := toInt64_of_fits z (by omega) hz2i
  refine ⟨z, ?_, h2, abs_lt.mpr ⟨by omega, hz2i⟩⟩
  simp only [Decimal.IntPart, h1]
  simp [Decimal.rescale, hz]

/-- C19 (counterexample): 1.5 of a currency without fraction digits comes out
of AsMajorUnits as 2, which is not 1.5 truncated toward zero; and
9007199254740993 of that currency comes out as 9007199254740992, the nearest
`float64`. -/
theorem AsMajorUnits_counterexample :
    (mk JPY 15 (-1)).AsMajorUnits yenGet = ret (Float64.finite 2) ∧
    ¬ IsTruncation (mk JPY 15 (-1)).amount.toRat 2 0 ∧
    (mk JPY 9007199254740993 0).AsMajorUnits yenGet =
      ret (Float64.finite 9007199254740992) := by
  refine ⟨?_, ?_, ?_⟩
  · have hi : ((mk JPY 15 (-1)).amount.Round 0).IntPart = 2 := by decide
    have hf : (yenGet JPY.Code).Fraction = 0 := by decide
    have hb : IsBinary64 ((2 : Int) : ℚ) := isBinary64_of_int 2 (by norm_num)
    simp only [Money.AsMajorUnits, mk, hf, if_true]
    have hi' : ((Decimal.mk 15 (-1)).Round 0).IntPart = 2 := hi
    rw [hi', toFloat64_of_isBinary64 _ hb]
    norm_num
  · intro h
    have h2 := h.2.1
    norm_num [mk, Decimal.toRat] at h2
    rw [abs_of_pos (by norm_num)] at h2
    linarith
  · have hi : ((mk JPY 9007199254740993 0).amount.Round 0).IntPart = 9007199254740993 := by
      decide
    have hf : (yenGet JPY.Code).Fraction = 0 := by decide
    have hn : roundHalfEven ((9007199254740993 : ℚ) / (2 : ℚ) ^ ((53 : Int) - 52)) =
        if (4503599627370496 : Int) % 2 = 0 then 4503599627370496
        else 4503599627370496 + 1 := by
      apply roundHalfEven_tie
      norm_num
    rw [if_pos (by norm_num)] at hn
    have h := toFloat64_eval 9007199254740993 53 4503599627370496
      (by rw [abs_of_pos (by norm_num)]; norm_num)
      (by rw [abs_of_pos (by norm_num)]; norm_num) (by norm_num) hn
      (by rw [abs_of_pos (by norm_num)]; norm_num)
    simp only [Money.AsMajorUnits, mk, hf, if_true]
    have hi' : ((Decimal.mk 9007199254740993 0).Round 0).IntPart = 9007199254740993 := hi
    rw [hi']
    push_cast
    rw [h]
    norm_num

/-- C19 (amended): for a Money whose currency is registered with fraction 0
(the entry `m.currency.get()`), and whose amount lies within the `int64` range,
AsMajorUnits returns a `float64` nearest to the amount rounded to the nearest
whole number, halves away from zero, and that whole number itself when its
magnitude is at most `2 ^ 53`; for a currency registered with a fraction above
0 it returns the conversion to `float64` of the amount truncated toward zero
to the fraction digits of its descriptor: a finite result is a `float64`
nearest to the truncation, the result is finite below `2 ^ 1023`, and it is
the truncation itself when that is a finite `float64`. -/
theorem AsMajorUnits_rounds_or_truncates (get : String → Currency) (m : Money) (c : Currency)
    (hc : m.currency = some c) :
    ((get c.Code).Fraction = 0 → |m.amount.toRat| < 2 ^ 63 - 1 →
      ∃ z : Int, IsNearestWhole m.amount.toRat z ∧
        ∃ y : ℚ, m.AsMajorUnits get = ret (Float64.finite y) ∧
          IsNearestBinary64 (z : ℚ) y ∧ (|z| ≤ 2 ^ 53 → y = (z : ℚ))) ∧
    (0 < (get c.Code).Fraction →
      ∃ t : ℚ, IsTruncation m.amount.toRat t c.Fraction ∧
        ∃ r : Float64, m.AsMajorUnits get = ret r ∧
          (∀ y : ℚ, r = Float64.finite y → IsNearestBinary64 t y) ∧
          (|t| < (2 : ℚ) ^ (1023 : Int) → ∃ y : ℚ, r = Float64.finite y) ∧
          (IsBinary64 t → r = Float64.finite t)) := by
  constructor
  · intro hf hfit
    obtain ⟨z, h1, h2, h3⟩ := IntPart_Round_zero m.amount hfit
    have hzq : |(z : ℚ)| < (2 : ℚ) ^ (1023 : Int) := by
      have h4 : ((|z| : Int) : ℚ) < ((2 ^ 63 : Int) : ℚ) := by exact_mod_cast h3
      have e1 : ((|z| : Int) : ℚ) = |(z : ℚ)| := by push_cast; rfl
      have e2 : ((2 ^ 63 : Int) : ℚ) = (2 : ℚ) ^ (63 : Int) := by norm_num
      rw [e1, e2] at h4
      exact lt_trans h4 (zpow_lt_zpow_right₀ (by norm_num) (by norm_num))
    obtain ⟨y, hy⟩ := toFloat64_finite (z : ℚ) hzq
    refine ⟨z, h2, y, ?_, toFloat64_nearest _ _ hy, ?_⟩
    · simp only [Money.AsMajorUnits, hc, hf, if_true, h1, hy]
    · intro hz
      have h5 := toFloat64_of_isBinary64 _ (isBinary64_of_int z hz)
      rw [hy] at h5
      exact Float64.finite.inj h5
  · intro hf
    have hne : ¬ (get c.Code).Fraction = 0 := by omega
    refine ⟨(m.amount.Truncate c.Fraction).toRat, Truncate_spec m.amount c.Fraction,
      toFloat64 (m.amount.Truncate c.Fraction).toRat, ?_, toFloat64_spec _⟩
    simp only [Money.AsMajorUnits, hc, hne, if_false, Money.AmountFloat64, Decimal.Float64]

theorem AsMajorUnits_rounds_or_truncates_witness :
    (∃ z : Int, IsNearestWhole (mk JPY 15 (-1)).amount.toRat z ∧
      ∃ y : ℚ, (mk JPY 15 (-1)).AsMajorUnits yenGet = ret (Float64.finite y) ∧
        IsNearestBinary64 (z : ℚ) y ∧ (|z| ≤ 2 ^ 53 → y = (z : ℚ))) ∧
    (∃ t : ℚ, IsTruncation (mk EUR 1 (-2)).amount.toRat t EUR.Fraction ∧
      ∃ r : Float64, (mk EUR 1 (-2)).AsMajorUnits yenGet = ret r ∧
        (∀ y : ℚ, r = Float64.finite y → IsNearestBinary64 t y) ∧
        (|t| < (2 : ℚ) ^ (1023 : Int) → ∃ y : ℚ, r = Float64.finite y) ∧
        (IsBinary64 t → r = Float64.finite t)) :=
  ⟨(AsMajorUnits_rounds_or_truncates yenGet (mk JPY 15 (-1)) JPY rfl).1 (by decide)
      (by
        norm_num [mk, Decimal.toRat]
        rw [abs_of_pos (by norm_num)]
        norm_num),
   (AsMajorUnits_rounds_or_truncates yenGet (mk EUR 1 (-2)) EUR rfl).2 (by decide)⟩

/-! ## Format: the rendered string -/

/-- C29 (evaluation at the failing input): an amount of 9223372036854775809
euros, one above 2^63, is rendered by Format as the symbol, the integer part
9,223,372,036,854,775,807, the point and two further characters, whatever the
text of the `float64` is; the digits of the amount grouped by three are
9,223,372,036,854,775,809. -/
theorem Format_integer_part_wraps (floatText : Decimal → List Char) :
    (∃ frac : List Char, frac.length = 2 ∧
      euroFormatter.Format floatText (Decimal.mk (2 ^ 63 + 1) 0) =
        "€9,223,372,036,854,775,807.".toList ++ frac) ∧
    groupThousands ",".toList (Nat.toDigits 10 (2 ^ 63 + 1)) =
      "9,223,372,036,854,775,809".toList := by
  refine ⟨?_, by decide⟩
  have hip : euroFormatter.integerPart (Decimal.mk (2 ^ 63 + 1) 0) =
      "9,223,372,036,854,775,807".toList := by decide
  have hneg : (Decimal.mk (2 ^ 63 + 1) 0).IsNegative = false := by decide
  have hfr : euroFormatter.Fraction = 2 := rfl
  have hdec : euroFormatter.Decimal.toList = ['.'] := rfl
  have htem : euroFormatter.Template.toList = ['$', '1'] := rfl
  have hgra : euroFormatter.Grapheme.toList = ['€'] := rfl
  generalize hdg : afterPoint (floatText ((Decimal.mk (2 ^ 63 + 1) 0).Sub
    (Decimal.NewFromInt (Decimal.mk (2 ^ 63 + 1) 0).IntPart))) = dg
  refine ⟨if (dg.length : Int) > 2 then dg.take 2 else dg ++ List.replicate (2 - dg.length) '0',
    ?_, ?_⟩
  · split_ifs with h
    · rw [List.length_take]
      omega
    · rw [List.length_append, List.length_replicate]
      omega
  · simp only [Formatter.Format, hip, hneg, hfr, hdec, htem, hgra, hdg]
    simp [replaceFirst]

/-- The `int64` of `IntPart` wraps before the conversion: 2^63 of a currency
without fraction digits comes out of AsMajorUnits as -2^63. -/
theorem AsMajorUnits_int64_wrap_example :
    (mk JPY (2 ^ 63) 0).AsMajorUnits yenGet = ret (Float64.finite (-(2 ^ 63))) := by
  have hi : ((Decimal.mk (2 ^ 63) 0).Round 0).IntPart = -(2 ^ 63) := by decide
  have hf : (yenGet JPY.Code).Fraction = 0 := by decide
  have hb : IsBinary64 (-(2 ^ 63) : ℚ) :=
    ⟨-(2 ^ 52), 11, by norm_num, by norm_num, by norm_num, by norm_num⟩
  have he : (((-(2 ^ 63) : Int)) : ℚ) = (-(2 ^ 63) : ℚ) := by norm_num
  simp only [Money.AsMajorUnits, mk, hf, if_true]
  rw [hi, he, toFloat64_of_isBinary64 _ hb]

end Gmoney
